import Mathlib

/-!
# A shallow embedding of the simplified Monopoly engine (`src/main.cpp`)

The C++ program keeps one `Board` object holding a `std::list<Player>`, the
ownership ledger `hashedPropertyOwners`, the rent table, the settings and the
statistics counters.  This file translates the state-changing member
functions into pure Lean functions on an explicit `Board` value.

Modelling conventions.

* `int` is `Int`.  Signed overflow is undefined behaviour in C++, so the
  model describes the runs in which no `int` operation overflows.  `%` and
  `/` are the truncating `Int.tmod` and `Int.tdiv`.
* `unordered_map<K, V>` read only through `operator[]` is a total function
  `K → V` whose default is the value-initialised `V` (`""`, `0`); the
  insertion of a default entry by a read is not observable through
  `operator[]`.  `propertyUpgrades` is also queried with `find`, so it is a
  partial function `String → Option Int`.
* `unordered_set<string>` is a duplicate-free list, `insert` is `List.insert`.
* `handleTurn(Player& player)` is called on an element of `players`; the model
  names that element by its index in the list.
* Everything read from `cin`, `rand()` and the die is an explicit input
  (`TurnInput`).  A property name is read with `cin >> prop`, which takes the
  first whitespace-delimited token of what is entered (`cinToken`); what is
  left of the entry stays in the stream, and what later extractions deliver
  is an input of its own.  Console output and the log file are not modelled.
* `calculateRent` recurses on `upgrades - 1` until it meets `0`; the model
  carries fuel and `none` stands for a recursion that never reaches `0`.
-/

namespace Monopoly

/-! ## Finite maps as functions -/

/-- Assignment `m[k] = v` on a map represented by its lookup function. -/
def mapSet {κ α : Type} [DecidableEq κ] (m : κ → α) (k : κ) (v : α) : κ → α :=
  fun x => if x = k then v else m x

/-! ## Graph -/

/-- Adjacency lists of the board graph; `none` is a key absent from `adjList`. -/
structure Graph where
  adjList : Int → Option (List Int)

/-- The graph of a default-constructed `Graph`. -/
def Graph.empty : Graph := ⟨fun _ => none⟩

/-- `Graph::addEdge`: `adjList[from].push_back(to)`. -/
def Graph.addEdge (g : Graph) (src dst : Int) : Graph :=
  ⟨mapSet g.adjList src (some ((g.adjList src).getD [] ++ [dst]))⟩

/-! ## Settings and statistics -/

/-- The class `Settings`. -/
structure Settings where
  enableLogging : Bool
  enableRandomEvents : Bool
  startingMoney : Int
  propertyCost : Int
  baseRent : Int
  rentMultiplier : Int

/-- The constructor `Settings()`. -/
def Settings.initial : Settings :=
  { enableLogging := true, enableRandomEvents := true, startingMoney := 1500,
    propertyCost := 100, baseRent := 50, rentMultiplier := 2 }

/-- The class `Statistics`. -/
structure Statistics where
  totalTurns : Int
  totalPropertiesBought : Int
  totalRentsPaid : Int
deriving DecidableEq

/-- The constructor `Statistics()`. -/
def Statistics.initial : Statistics := ⟨0, 0, 0⟩

/-- `Statistics::recordPropertyBought`. -/
def Statistics.recordPropertyBought (s : Statistics) : Statistics :=
  { s with totalPropertiesBought := s.totalPropertiesBought + 1 }

/-- `Statistics::recordRentPaid`. -/
def Statistics.recordRentPaid (s : Statistics) : Statistics :=
  { s with totalRentsPaid := s.totalRentsPaid + 1 }

/-- `Statistics::recordTurn`. -/
def Statistics.recordTurn (s : Statistics) : Statistics :=
  { s with totalTurns := s.totalTurns + 1 }

/-! ## Player -/

/-- The class `Player`. -/
structure Player where
  name : String
  money : Int
  position : Int
  isAI : Bool
  propertiesOwned : List String
  propertyUpgrades : String → Option Int
  bankrupt : Bool

/-- The constructor `Player(name, money, position, isAI)`. -/
def Player.new (name : String) (money position : Int) (isAI : Bool) : Player :=
  { name := name, money := money, position := position, isAI := isAI,
    propertiesOwned := [], propertyUpgrades := fun _ => none, bankrupt := false }

/-- `Player::shouldAIBuyProperty`; the property name is not used. -/
def Player.shouldAIBuyProperty (p : Player) (_propertyName : String) (propertyCost : Int) : Bool :=
  if p.money > propertyCost * 2 then true else false

/-! ## Board -/

/-- The class `Board`. -/
structure Board where
  properties : Int → Option String
  players : List Player
  hashedPropertyOwners : String → String
  rentPrices : String → Int
  boardGraph : Graph
  gameSettings : Settings
  gameStats : Statistics
  gameIsOver : Bool

/-- The initialiser list of `properties` in the constructor of `Board`. -/
def propertyTable : List (Int × String) :=
  [(1, "Mediterranean Avenue"), (3, "Baltic Avenue"),
   (5, "Reading Railroad"), (6, "Oriental Avenue"),
   (8, "Vermont Avenue"), (9, "Connecticut Avenue"),
   (11, "St. Charles Place"), (13, "States Avenue"),
   (14, "Virginia Avenue"), (16, "St. James Place"),
   (18, "Tennessee Avenue"), (19, "New York Avenue"),
   (21, "Kentucky Avenue"), (23, "Indiana Avenue"),
   (24, "Illinois Avenue"), (26, "Atlantic Avenue"),
   (27, "Ventnor Avenue"), (29, "Marvin Gardens"),
   (31, "Pacific Avenue"), (32, "North Carolina Avenue"),
   (34, "Pennsylvania Avenue"), (37, "Park Place"),
   (39, "Boardwalk")]

/-- The constructor `Board()`. -/
def Board.new : Board :=
  { properties := fun pos => (propertyTable.find? (fun e => e.1 = pos)).map (fun e => e.2)
    players := []
    hashedPropertyOwners := propertyTable.foldl (fun m e => mapSet m e.2 "") (fun _ => "")
    rentPrices :=
      propertyTable.foldl (fun m e => mapSet m e.2 Settings.initial.baseRent) (fun _ => 0)
    boardGraph :=
      (List.range 39).foldl (fun g i => g.addEdge (i : Int) (Int.tmod ((i : Int) + 1) 40))
        Graph.empty
    gameSettings := Settings.initial
    gameStats := Statistics.initial
    gameIsOver := false }

/-- Overwrite the element of `players` at index `i` (a write through `Player&`). -/
def Board.setPlayer (b : Board) (i : Nat) (p : Player) : Board :=
  { b with players := b.players.set i p }

/-- `Board::addPlayer`. -/
def addPlayer (b : Board) (playerName : String) (isAI : Bool) : Board :=
  { b with players := b.players ++ [Player.new playerName b.gameSettings.startingMoney 0 isAI] }

/-- `Board::calculateRent` with an explicit bound on the recursion depth:
`fuel` is the number of calls that may be made. -/
def calculateRentFuel : Nat → String → Int → Int → Int → Option Int
  | 0, _, _, _, _ => none
  | fuel + 1, property, baseRent, upgrades, multiplier =>
    if upgrades = 0 then some baseRent
    else
      (calculateRentFuel fuel property baseRent (upgrades - 1) multiplier).map
        (fun r => baseRent * multiplier + r)

/-- `Board::calculateRent`.  The fuel `upgrades.toNat + 1` is enough exactly when the
recursion terminates (`calculateRentFuel_of_nonneg`, `calculateRentFuel_of_neg`), so `none`
is the non-terminating call on a negative `upgrades`. -/
def calculateRent (property : String) (baseRent upgrades multiplier : Int) : Option Int :=
  calculateRentFuel (upgrades.toNat + 1) property baseRent upgrades multiplier

/-- `Board::checkAndRemoveBankruptPlayers`. -/
def checkAndRemoveBankruptPlayers (b : Board) : Board :=
  { b with players := b.players.filter (fun p => !p.bankrupt) }

/-- The first position in the list whose player has the given name
(`find_if(players.begin(), players.end(), [&](p)\x7b return p.name == name; \x7d)`). -/
def findPlayer (name : String) : List Player → Option Nat
  | [] => none
  | p :: ps => if p.name = name then some 0 else (findPlayer name ps).map (fun j => j + 1)

/-! ## Auction -/

/-- The local variables of `auctionProperty`. -/
structure AuctionState where
  currentBid : Int
  highestBidder : String
  someoneBid : Bool
deriving DecidableEq

/-- The values of the locals before the bidding loop. -/
def AuctionState.initial : AuctionState := ⟨10, "", false⟩

/-- Whether the player consulted at list index `j` places a bid that is recorded:
the condition guarding the assignments in the loop body.  `inp j` is `rand() % 2`
for an AI player and the number read from `cin` for a human player. -/
def bidAccepted (inp : Nat → Int) (st : AuctionState) (j : Nat) (player : Player) : Bool :=
  if player.bankrupt then false
  else if player.isAI then decide (inp j = 1 ∧ player.money > st.currentBid)
  else decide (inp j ≥ st.currentBid ∧ inp j ≤ player.money)

/-- One iteration of the bidding loop of `auctionProperty`. -/
def auctionStep (inp : Nat → Int) (st : AuctionState) (j : Nat) (player : Player) :
    AuctionState :=
  if player.bankrupt then st
  else if player.isAI then
    if inp j = 1 ∧ player.money > st.currentBid then
      { currentBid := st.currentBid + 5, highestBidder := player.name, someoneBid := true }
    else st
  else
    if inp j ≥ st.currentBid ∧ inp j ≤ player.money then
      { currentBid := inp j, highestBidder := player.name, someoneBid := true }
    else st

/-- The bidding loop `for (auto& player : players)`, from list index `j` on. -/
def auctionLoop (inp : Nat → Int) : List Player → Nat → AuctionState → AuctionState
  | [], _, st => st
  | p :: ps, j, st => auctionLoop inp ps (j + 1) (auctionStep inp st j p)

/-- One iteration of the bidding loop together with the list indices at which it draws
`rand()` or reads a bid from `cin`: none for a flagged player, whom the body leaves with
`continue`, and the player's own index `j` otherwise. -/
def auctionStepLogged (inp : Nat → Int) (st : AuctionState) (j : Nat) (player : Player) :
    AuctionState × List Nat :=
  if player.bankrupt then (st, [])
  else if player.isAI then
    if inp j = 1 ∧ player.money > st.currentBid then
      ({ currentBid := st.currentBid + 5, highestBidder := player.name, someoneBid := true },
        [j])
    else (st, [j])
  else
    if inp j ≥ st.currentBid ∧ inp j ≤ player.money then
      ({ currentBid := inp j, highestBidder := player.name, someoneBid := true }, [j])
    else (st, [j])

/-- The bidding loop from list index `j` on, together with the log of the list indices at
which it has drawn `rand()` or read a bid, in the order in which it did so. -/
def auctionLoopLogged (inp : Nat → Int) :
    List Player → Nat → AuctionState → List Nat → AuctionState × List Nat
  | [], _, st, log => (st, log)
  | p :: ps, j, st, log =>
    auctionLoopLogged inp ps (j + 1) (auctionStepLogged inp st j p).1
      (log ++ (auctionStepLogged inp st j p).2)

/-- `Board::auctionProperty`. -/
def auctionProperty (b : Board) (propertyName : String) (inp : Nat → Int) : Board :=
  let st := auctionLoop inp b.players 0 AuctionState.initial
  if st.someoneBid = true ∧ st.highestBidder ≠ "" then
    match findPlayer st.highestBidder b.players with
    | none => b
    | some w =>
      match b.players[w]? with
      | none => b
      | some winner =>
        { b with
          players := b.players.set w
            { winner with
              money := winner.money - st.currentBid
              propertiesOwned := winner.propertiesOwned.insert propertyName }
          hashedPropertyOwners := mapSet b.hashedPropertyOwners propertyName st.highestBidder
          gameStats := b.gameStats.recordPropertyBought }
  else b

/-! ## Post-move actions -/

/-- The characters that `isspace` accepts in the C locale: the blank and the control
characters 9, ..., 13. -/
def isSpace (c : Char) : Bool :=
  decide (c = ' ' ∨ (9 ≤ c.toNat ∧ c.toNat ≤ 13))

/-- The string that `cin >> prop` delivers when `entered` is what the stream holds:
leading whitespace is skipped and the characters up to the next whitespace are taken. -/
def cinToken (entered : String) : String :=
  String.mk ((entered.toList.dropWhile isSpace).takeWhile (fun c => !isSpace c))

/-- `Board::mortgageProperty` on the player at index `i`; `entered` is what is typed at
the prompt, read with `cin >> prop` (and read only when the player owns something). -/
def mortgageProperty (b : Board) (i : Nat) (entered : String) : Board :=
  match b.players[i]? with
  | none => b
  | some player =>
    if player.propertiesOwned.isEmpty then b
    else if cinToken entered ∉ player.propertiesOwned then b
    else b.setPlayer i { player with money := player.money + Int.tdiv b.gameSettings.propertyCost 2 }

/-- `Board::upgradeProperty` on the player at index `i`; `entered` is what is typed at the
prompt, read with `cin >> prop` (and read only when the player owns something). -/
def upgradeProperty (b : Board) (i : Nat) (entered : String) : Board :=
  match b.players[i]? with
  | none => b
  | some player =>
    if player.propertiesOwned.isEmpty then b
    else if cinToken entered ∉ player.propertiesOwned then b
    else if player.money < 50 then b
    else
      b.setPlayer i
        { player with
          money := player.money - 50
          propertyUpgrades :=
            mapSet player.propertyUpgrades (cinToken entered)
              (some ((player.propertyUpgrades (cinToken entered)).getD 0 + 1)) }

/-- `Board::triggerRandomEvent`; `eventType` is `rand() % 3`. -/
def triggerRandomEvent (s : Settings) (eventType : Int) (player : Player) : Player :=
  if s.enableRandomEvents = false then player
  else if eventType = 0 then { player with money := player.money + 50 }
  else if eventType = 1 then
    if player.money > 20 then { player with money := player.money - 20 } else player
  else player

/-- `Board::endGame`. -/
def endGame (b : Board) : Board := { b with gameIsOver := true }

/-! ## The turn -/

/-- Everything one call of `handleTurn` reads from outside the board. -/
structure TurnInput where
  /-- The value `rand() % 3` drawn in `triggerRandomEvent`. -/
  eventType : Int
  /-- The die roll. -/
  roll : Int
  /-- The answer to the purchase prompt. -/
  buyChoice : Char
  /-- The auction input of the player at each list index. -/
  auctionInput : Nat → Int
  /-- The post-move action character. -/
  actionChoice : Char
  /-- The text entered at the prompt of `upgradeProperty` or `mortgageProperty`. -/
  prop : String

/-- The branch of the space-resolution phase of `handleTurn`. -/
inductive SpaceBranch where
  | nonProperty
  | purchase (propertyName : String)
  | auction (propertyName : String)
  | rent (propertyName : String)
  | ownedBySelf (propertyName : String)
deriving DecidableEq

/-- The variable `buyDecision` of `handleTurn` after the purchase prompt. -/
def buyDecision (s : Settings) (player : Player) (propertyName : String) (choice : Char) : Bool :=
  if player.isAI then player.shouldAIBuyProperty propertyName s.propertyCost
  else if choice = 'y' then true else false

/-- The conditions of the `if`/`else if` chain of the space-resolution phase, in the order
of the source; all of them are evaluated on the state before the phase changes anything. -/
def spaceBranch (b : Board) (player : Player) (choice : Char) : SpaceBranch :=
  match b.properties player.position with
  | none => .nonProperty
  | some propertyName =>
    if b.hashedPropertyOwners propertyName = "" then
      if buyDecision b.gameSettings player propertyName choice = true
          ∧ player.money ≥ b.gameSettings.propertyCost then
        .purchase propertyName
      else .auction propertyName
    else if b.hashedPropertyOwners propertyName ≠ player.name then .rent propertyName
    else .ownedBySelf propertyName

/-- The purchase branch of `handleTurn`. -/
def purchaseProperty (b : Board) (i : Nat) (player : Player) (propertyName : String) : Board :=
  { b with
    players := b.players.set i
      { player with
        money := player.money - b.gameSettings.propertyCost
        propertiesOwned := player.propertiesOwned.insert propertyName
        propertyUpgrades := mapSet player.propertyUpgrades propertyName (some 0) }
    hashedPropertyOwners := mapSet b.hashedPropertyOwners propertyName player.name
    gameStats := b.gameStats.recordPropertyBought }

/-- The local `upgrades` of the rent branch of `handleTurn`: the acting player's own entry
when there is one, else the entry of the first player carrying the ledger's owner name,
else `0`. -/
def rentUpgrades (b : Board) (player : Player) (propertyName : String) : Int :=
  match player.propertyUpgrades propertyName with
  | some u => u
  | none =>
    match findPlayer (b.hashedPropertyOwners propertyName) b.players with
    | none => 0
    | some j =>
      match b.players[j]? with
      | none => 0
      | some owner => (owner.propertyUpgrades propertyName).getD 0

/-- The local `rent` of the rent branch of `handleTurn`. -/
def rentDue (b : Board) (player : Player) (propertyName : String) : Option Int :=
  calculateRent propertyName (b.rentPrices propertyName) (rentUpgrades b player propertyName)
    b.gameSettings.rentMultiplier

/-- The credit `owner.money += rent` to the first player carrying the ledger's owner name,
when there is one. -/
def creditOwner (b : Board) (propertyName : String) (rent : Int) : Board :=
  match findPlayer (b.hashedPropertyOwners propertyName) b.players with
  | none => b
  | some j =>
    match b.players[j]? with
    | none => b
    | some owner => b.setPlayer j { owner with money := owner.money + rent }

/-- The bankruptcy check that closes the rent branch. -/
def markBankruptAfterRent (b : Board) (i : Nat) : Board :=
  match b.players[i]? with
  | none => b
  | some player => if player.money < 0 then b.setPlayer i { player with bankrupt := true } else b

/-- The debit and credit of the rent branch of `handleTurn`, without the bankruptcy check. -/
def rentTransfer (b : Board) (i : Nat) (player : Player) (propertyName : String) (rent : Int) :
    Board :=
  creditOwner
    { b.setPlayer i { player with money := player.money - rent } with
      gameStats := b.gameStats.recordRentPaid }
    propertyName rent

/-- The rent branch of `handleTurn`. -/
def payRent (b : Board) (i : Nat) (player : Player) (propertyName : String) : Option Board :=
  (rentDue b player propertyName).map fun rent =>
    markBankruptAfterRent (rentTransfer b i player propertyName rent) i

/-- The space-resolution phase of `handleTurn` for the player at index `i`. -/
def spaceResolution (b : Board) (i : Nat) (inp : TurnInput) : Option Board :=
  match b.players[i]? with
  | none => none
  | some player =>
    match spaceBranch b player inp.buyChoice with
    | .nonProperty => some b
    | .purchase propertyName => some (purchaseProperty b i player propertyName)
    | .auction propertyName => some (auctionProperty b propertyName inp.auctionInput)
    | .rent propertyName => payRent b i player propertyName
    | .ownedBySelf _ => some b

/-- The post-move action phase of `handleTurn`. -/
def postMoveAction (b : Board) (i : Nat) (inp : TurnInput) : Board :=
  match b.players[i]? with
  | none => b
  | some player =>
    if player.isAI = false ∧ player.bankrupt = false then
      if inp.actionChoice = 'u' then upgradeProperty b i inp.prop
      else if inp.actionChoice = 'm' then mortgageProperty b i inp.prop
      else if inp.actionChoice = 's' then b
      else if inp.actionChoice = 'e' then endGame b
      else b
    else b

/-- The last bankruptcy check of `handleTurn`. -/
def finalBankruptcyCheck (b : Board) (i : Nat) : Board :=
  match b.players[i]? with
  | none => b
  | some player =>
    if player.money < 0 ∧ player.bankrupt = false then b.setPlayer i { player with bankrupt := true }
    else b

/-- The random event and the move of `handleTurn`, applied to the acting player. -/
def moveStart (b : Board) (i : Nat) (player : Player) (inp : TurnInput) : Board :=
  let b1 := { b with gameStats := b.gameStats.recordTurn }
  let p1 := triggerRandomEvent b1.gameSettings inp.eventType player
  b1.setPlayer i { p1 with position := Int.tmod (p1.position + inp.roll) 40 }

/-- The phases of `Board::handleTurn` for a player whose bankrupt flag is unset, up to,
and without, the closing call of `checkAndRemoveBankruptPlayers`.  `none` is a call that
does not return (the rent recursion does not terminate). -/
def turnPhases (b : Board) (i : Nat) (player : Player) (inp : TurnInput) : Option Board :=
  (spaceResolution (moveStart b i player inp) i inp).map fun b3 =>
    finalBankruptcyCheck (postMoveAction b3 i inp) i

/-- `Board::handleTurn` on the player at index `i`.  `none` is a call that does not return,
or an index that names no element of `players`. -/
def handleTurn (b : Board) (i : Nat) (inp : TurnInput) : Option Board :=
  match b.players[i]? with
  | none => none
  | some player =>
    if player.bankrupt = true then some b
    else (turnPhases b i player inp).map checkAndRemoveBankruptPlayers

/-! ## Reachable states -/

/-- The calls of `addPlayer` made while the game is set up. -/
def addPlayers (b : Board) : List (String × Bool) → Board
  | [] => b
  | e :: es => addPlayers (addPlayer b e.1 e.2) es

/-- A sequence of `handleTurn` calls, each on a list index with its inputs. -/
def runTurns (b : Board) : List (Nat × TurnInput) → Option Board
  | [] => some b
  | t :: ts =>
    match handleTurn b t.1 t.2 with
    | none => none
    | some b1 => runTurns b1 ts

/-- The boards reachable from a fresh `Board` by `addPlayer` calls followed by
`handleTurn` calls. -/
def Reachable (roster : List (String × Bool)) (b : Board) : Prop :=
  ∃ turns, runTurns (addPlayers Board.new roster) turns = some b

/-! ## Elementary state changes

Every state change made by `handleTurn` is one of the six below; the invariants of the
reachable boards are proved once for each of them. -/

/-- One elementary change of the board. -/
inductive Step : Board → Board → Prop
  /-- The statistics counters or the game-over flag change. -/
  | stats (b : Board) (s : Statistics) (g : Bool) :
      Step b { b with gameStats := s, gameIsOver := g }
  /-- The balance, position or bankrupt flag of one player changes. -/
  | touch (b : Board) (i : Nat) (p : Player) (m x : Int) (f : Bool)
      (hp : b.players[i]? = some p) :
      Step b (b.setPlayer i { p with money := m, position := x, bankrupt := f })
  /-- A player pays 50 and the improvement count of an owned property goes up by one. -/
  | upgrade (b : Board) (i : Nat) (p : Player) (prop : String)
      (hp : b.players[i]? = some p) (hown : prop ∈ p.propertiesOwned) :
      Step b (b.setPlayer i
        { p with
          money := p.money - 50
          propertyUpgrades :=
            mapSet p.propertyUpgrades prop (some ((p.propertyUpgrades prop).getD 0 + 1)) })
  /-- A player buys a property whose ledger entry is empty. -/
  | purchase (b : Board) (i : Nat) (p : Player) (propertyName : String)
      (hp : b.players[i]? = some p) (hfree : b.hashedPropertyOwners propertyName = "") :
      Step b (purchaseProperty b i p propertyName)
  /-- A player with a non-empty name wins the auction of a property whose ledger entry is
  empty. -/
  | auctionWin (b : Board) (w : Nat) (winner : Player) (propertyName : String) (bid : Int)
      (hw : b.players[w]? = some winner)
      (hfree : b.hashedPropertyOwners propertyName = "") (hname : winner.name ≠ "") :
      Step b
        { b with
          players := b.players.set w
            { winner with
              money := winner.money - bid
              propertiesOwned := winner.propertiesOwned.insert propertyName }
          hashedPropertyOwners := mapSet b.hashedPropertyOwners propertyName winner.name
          gameStats := b.gameStats.recordPropertyBought }
  /-- The flagged players leave the list. -/
  | remove (b : Board) : Step b (checkAndRemoveBankruptPlayers b)

/-- A finite sequence of elementary changes. -/
@[reducible] def Steps : Board → Board → Prop := Relation.ReflTransGen Step

/-- The improvement count recorded for a property in the account of the first player
carrying the ledger's owner name; `0` when nobody carries it or no count is recorded. -/
def ownerUpgrades (b : Board) (propertyName : String) : Int :=
  match findPlayer (b.hashedPropertyOwners propertyName) b.players with
  | none => 0
  | some j =>
    match b.players[j]? with
    | none => 0
    | some owner => (owner.propertyUpgrades propertyName).getD 0

/-- The account of one player agrees with a ledger: the name is not the empty string, the
owned set holds exactly the properties the ledger gives to that name, and improvement
counts are recorded only for owned properties. -/
def PlayerConsistent (ledger : String → String) (p : Player) : Prop :=
  p.name ≠ "" ∧
  (∀ propertyName, propertyName ∈ p.propertiesOwned ↔ ledger propertyName = p.name) ∧
  (∀ propertyName, p.propertyUpgrades propertyName ≠ none → propertyName ∈ p.propertiesOwned)

/-- The ledger and the player accounts agree, and the names are pairwise distinct. -/
def LedgerConsistent (b : Board) : Prop :=
  (b.players.map Player.name).Nodup ∧
  ∀ p ∈ b.players, PlayerConsistent b.hashedPropertyOwners p

/-- Every recorded improvement count is non-negative. -/
def UpgradesNonneg (b : Board) : Prop :=
  ∀ p ∈ b.players, ∀ propertyName u, p.propertyUpgrades propertyName = some u → 0 ≤ u

/-- The tables fixed by the constructor of `Board` are still those of a fresh board. -/
def TablesFresh (b : Board) : Prop :=
  b.properties = Board.new.properties ∧ b.rentPrices = Board.new.rentPrices ∧
  b.gameSettings.baseRent = 50 ∧ b.gameSettings.rentMultiplier = 2 ∧
  b.gameSettings.propertyCost = 100

/-! ## The course of an auction -/

/-- The locals of `auctionProperty` when the bidding loop reaches list index `j`. -/
def auctionStateAt (inp : Nat → Int) (players : List Player) (j : Nat) : AuctionState :=
  auctionLoop inp (players.take j) 0 AuctionState.initial

/-- Whether the bidding loop records a bid of the player at list index `j`. -/
def bidRecordedAt (inp : Nat → Int) (players : List Player) (j : Nat) : Bool :=
  match players[j]? with
  | none => false
  | some player => bidAccepted inp (auctionStateAt inp players j) j player

/-- The balances of the players, in list order. -/
def balances (b : Board) : List Int := b.players.map Player.money

/-- The sum of all balances. -/
def totalMoney (b : Board) : Int := (balances b).sum

/-- The list indices of the players of a list whose flag is unset, in list order, the
first player of the list having index `j`. -/
def auctionConsulted : List Player → Nat → List Nat
  | [], _ => []
  | p :: ps, j =>
    if p.bankrupt = true then auctionConsulted ps (j + 1)
    else j :: auctionConsulted ps (j + 1)

/-- The lookups `propertyUpgrades.at(prop)` of `Player::displayPlayerStats`, one for each
owned property; `none` is the exception `std::out_of_range` that `at` throws on a key
that is not in the map. -/
def upgradesAt (upgrades : String → Option Int) : List String → Option (List (String × Int))
  | [] => some []
  | prop :: rest =>
    match upgrades prop with
    | none => none
    | some u => (upgradesAt upgrades rest).map (fun shown => (prop, u) :: shown)

/-- `Player::displayPlayerStats`, reduced to the improvement counts it prints; `none` is
a call that throws. -/
def Player.displayPlayerStats (p : Player) : Option (List (String × Int)) :=
  upgradesAt p.propertyUpgrades p.propertiesOwned

/-- `Board::displayAllPlayers`, reduced to the improvement counts it prints. -/
def displayAllPlayers (b : Board) : Option (List (List (String × Int))) :=
  b.players.mapM Player.displayPlayerStats

/-- Every die roll of a sequence of turns is one of 1, ..., 6, the range of
`uniform_int_distribution<int> diceRoll(1, 6)`. -/
def ValidRolls (turns : List (Nat × TurnInput)) : Prop :=
  ∀ t ∈ turns, 1 ≤ t.2.roll ∧ t.2.roll ≤ 6

/-- `Graph::displayConnectionsFrom`, reduced to the neighbours it prints; `none` is the
output `(none)` for a node that is not a key of `adjList`. -/
def Graph.displayConnectionsFrom (g : Graph) (start : Int) : Option (List Int) :=
  g.adjList start

/-- The property names of the constructor's table. -/
def propertyNames : List String := propertyTable.map Prod.snd

/-- The number of properties of the board to which the ledger gives a non-empty owner
name. -/
def ownedCount (b : Board) : Nat :=
  propertyNames.countP (fun propertyName => decide (b.hashedPropertyOwners propertyName ≠ ""))

/-- No player's name is the empty string. -/
def AllNamed (b : Board) : Prop := ∀ p ∈ b.players, p.name ≠ ""

/-- The counter of properties bought agrees with the ledger: it is the number of board
properties with a non-empty owner name, and the ledger names an owner for nothing else. -/
def Counted (b : Board) : Prop :=
  b.gameStats.totalPropertiesBought = (ownedCount b : Int) ∧
  ∀ q, b.hashedPropertyOwners q ≠ "" → q ∈ propertyNames

/-! ## Quicksort of the players

`Board::quickSortPlayers` and `Board::partition` work on a `vector<Player>` with `int`
indices.  In the model `none` is an access outside the vector (undefined behaviour) or,
for the recursion, a call whose recursion depth exceeds the fuel. -/

/-- The element `pvec[k]` for an `int` index. -/
def getAt (pvec : List Player) (k : Int) : Option Player :=
  if 0 ≤ k then pvec[k.toNat]? else none

/-- The exchange `swap(pvec[a], pvec[b])`. -/
def swapAt (pvec : List Player) (a b : Int) : Option (List Player) :=
  match getAt pvec a, getAt pvec b with
  | some x, some y => some ((pvec.set a.toNat y).set b.toNat x)
  | _, _ => none

/-- The loop `for (int j = low; j < high; ++j)` of `Board::partition` with `n` iterations
left, on the current vector and the current values of `i` and `j`. -/
def partitionLoop (pivot : Int) : Nat → List Player → Int → Int → Option (List Player × Int)
  | 0, pvec, i, _ => some (pvec, i)
  | n + 1, pvec, i, j =>
    match getAt pvec j with
    | none => none
    | some pj =>
      if pj.money > pivot then
        match swapAt pvec (i + 1) j with
        | none => none
        | some pvec1 => partitionLoop pivot n pvec1 (i + 1) (j + 1)
      else partitionLoop pivot n pvec i (j + 1)

/-- `Board::partition`: the vector after the call and the returned index. -/
def partition (pvec : List Player) (low high : Int) : Option (List Player × Int) :=
  match getAt pvec high with
  | none => none
  | some last =>
    match partitionLoop last.money (high - low).toNat pvec (low - 1) low with
    | none => none
    | some (pvec1, i) =>
      match swapAt pvec1 (i + 1) high with
      | none => none
      | some pvec2 => some (pvec2, i + 1)

/-- `Board::quickSortPlayers` with an explicit bound on the recursion depth. -/
def quickSortFuel : Nat → List Player → Int → Int → Option (List Player)
  | 0, _, _, _ => none
  | fuel + 1, pvec, low, high =>
    if low < high then
      match partition pvec low high with
      | none => none
      | some (pvec1, pi) =>
        match quickSortFuel fuel pvec1 low (pi - 1) with
        | none => none
        | some pvec2 => quickSortFuel fuel pvec2 (pi + 1) high
    else some pvec

/-- `Board::quickSortPlayers`.  Each recursive call works on a strictly shorter range, so
the depth never exceeds `high - low + 1` (`quickSortFuel_spec`). -/
def quickSortPlayers (pvec : List Player) (low high : Int) : Option (List Player) :=
  quickSortFuel ((high - low).toNat + 1) pvec low high

/-- `Board::displaySortedPlayers`, reduced to the vector it prints. -/
def displaySortedPlayers (b : Board) : Option (List Player) :=
  quickSortPlayers (b.players.filter (fun pl => !pl.bankrupt)) 0
    (((b.players.filter (fun pl => !pl.bankrupt)).length : Int) - 1)

/-! ## Scenarios -/

/-- An input that declines everything: no random event, roll 1, no purchase, no bid,
skip. -/
def passInput : TurnInput :=
  { eventType := 2, roll := 1, buyChoice := 'n', auctionInput := fun _ => 0,
    actionChoice := 's', prop := "" }

/-- A board whose first player carries the bankrupt flag. -/
def bankruptBoard : Board :=
  { Board.new with
    players := [{ Player.new "A" (-5) 6 false with bankrupt := true }, Player.new "B" 1500 0 false] }

/-- A fresh game of a human player and an AI player. -/
def humanAndAI : Board := addPlayers Board.new [("H", false), ("A", true)]

/-- Auction inputs: the human at index 0 bids 1499, every AI decides to raise. -/
def overbidInput : Nat → Int := fun j => if j = 0 then 1499 else 1

/-- A fresh game of one human player whose name is the empty string. -/
def namelessBoard : Board := addPlayers Board.new [("", false)]

/-- Auction inputs: everybody enters 10. -/
def bidTen : Nat → Int := fun _ => 10

/-- Auction inputs: the human at index 0 bids 20, the human at index 2 bids 30, the AI at
index 1 raises. -/
def threeBids : Nat → Int := fun j => if j = 0 then 20 else if j = 1 then 1 else 30

/-- A fresh game of a human, an AI and a second human. -/
def threePlayers : Board := addPlayers Board.new [("H1", false), ("A", true), ("H2", false)]

/-- A fresh game of one human player. -/
def soloHuman : Board := addPlayers Board.new [("H", false)]

/-- The input of a turn that rolls 1, meets no random event and accepts the purchase. -/
def buyInput : TurnInput := { passInput with buyChoice := 'y' }

/-- The board of `soloHuman` when the first turn, with `buyInput`, reaches the
space-resolution phase: the player stands on position 1 with balance 1500. -/
def soloHumanLanded : Board := moveStart soloHuman 0 (Player.new "H" 1500 0 false) buyInput

/-- A player with balance 45 standing on position 0. -/
def poorPayer : Player := Player.new "P" 45 0 false

/-- A roster of two humans with pairwise distinct names, one of them the empty string. -/
def namelessRoster : List (String × Bool) := [("", false), ("B", false)]

/-- Two turns: each of the two players rolls 1 and accepts the purchase. -/
def doubleBuyTurns : List (Nat × TurnInput) := [(0, buyInput), (1, buyInput)]

/-- The board of `humanAndAI` after the human has rolled 1 and bought the property. -/
def buyerBoard : Board := (runTurns humanAndAI [(0, buyInput)]).getD humanAndAI

/-- The account of the human on `buyerBoard`. -/
def buyerAccount : Player :=
  { Player.new "H" 1400 1 false with
    propertiesOwned := ["Mediterranean Avenue"]
    propertyUpgrades := mapSet (fun _ => none) "Mediterranean Avenue" (some 0) }

/-- A roster of an owner and a payer, both human. -/
def ownerAndPayer : List (String × Bool) := [("O", false), ("P", false)]

/-- A turn that rolls 6, meets no random event, declines any purchase, makes no bid and
skips the post-move action. -/
def stride : TurnInput := { passInput with roll := 6 }

/-- A turn that rolls 3, buys the property it lands on and enters `Boardwalk` at the
upgrade prompt. -/
def boardwalkBuyUpgrade : TurnInput :=
  { eventType := 2, roll := 3, buyChoice := 'y', auctionInput := fun _ => 0,
    actionChoice := 'u', prop := "Boardwalk" }

/-- Fourteen turns of the game `ownerAndPayer`.  The owner walks 6, 12, 18, 24, 30, 36,
then rolls 3, buys Boardwalk and upgrades it; then rolls 1 and upgrades it again.  The
payer walks to position 36. -/
def twoUpgradeTurns : List (Nat × TurnInput) :=
  List.replicate 6 (0, stride)
    ++ [(0, boardwalkBuyUpgrade), (0, { passInput with actionChoice := 'u', prop := "Boardwalk" })]
    ++ List.replicate 6 (1, stride)

/-- The board after `twoUpgradeTurns`: the owner holds Boardwalk with improvement count 2
and balance 1300, the payer stands on position 36 with balance 1500. -/
def upgradedBoard : Board :=
  (runTurns (addPlayers Board.new ownerAndPayer) twoUpgradeTurns).getD Board.new

/-- The payer rolls 3 and lands on Boardwalk. -/
def payerInput : TurnInput := { passInput with roll := 3 }

/-- The payer's account on `upgradedBoard`. -/
def payerAccount : Player := Player.new "P" 1500 36 false

/-- The payer's account when the turn with `payerInput` reaches the space-resolution
phase. -/
def payerLanded : Player := { payerAccount with position := 39 }

/-- Twenty turns of the game `namelessRoster`.  The player named `""` walks 6, ..., 36,
then rolls 3, buys Boardwalk and upgrades it; the ledger entry stays empty.  The player
named `B` walks the same way and buys Boardwalk too.  The player named `""` then walks
5, 11, 17, 23, 29, 35. -/
def lapTurns : List (Nat × TurnInput) :=
  List.replicate 6 (0, stride) ++ [(0, boardwalkBuyUpgrade)]
    ++ List.replicate 6 (1, stride) ++ [(1, { passInput with roll := 3, buyChoice := 'y' })]
    ++ List.replicate 6 (0, stride)

/-- The board after `lapTurns`. -/
def lapBoard : Board := (runTurns (addPlayers Board.new namelessRoster) lapTurns).getD Board.new

/-- The next turn: the player named `""` rolls 4 and lands on Boardwalk again. -/
def lapInput : TurnInput := { passInput with roll := 4 }

/-- The account of the player named `""` on `lapBoard`. -/
def lapPayer : Player :=
  { Player.new "" 1350 35 false with
    propertiesOwned := ["Boardwalk"]
    propertyUpgrades :=
      mapSet (mapSet (fun _ => none) "Boardwalk" (some 0)) "Boardwalk" (some 1) }

/-- Two turns of the game `ownerAndPayer` with the roles exchanged: the first player rolls
1, declines Mediterranean Avenue and wins its auction with a bid of 1455; the second
player rolls 3 and buys Baltic Avenue. -/
def brokeTurns : List (Nat × TurnInput) :=
  [(0, { passInput with auctionInput := fun j => if j = 0 then 1455 else 0 }),
   (1, { passInput with roll := 3, buyChoice := 'y' })]

/-- The board after `brokeTurns`: the first player stands on position 1 with balance
45. -/
def brokeBoard : Board :=
  (runTurns (addPlayers Board.new ownerAndPayer) brokeTurns).getD Board.new

/-- The account of the first player on `brokeBoard`. -/
def brokeAccount : Player :=
  { Player.new "O" 45 1 false with propertiesOwned := ["Mediterranean Avenue"] }

/-- The turn in which the first player of `brokeBoard` rolls 2 and lands on Baltic
Avenue. -/
def brokeInput : TurnInput := { passInput with roll := 2 }

/-- The board `brokeBoard` after the phases of the turn `brokeInput`, before the closing
removal of flagged players. -/
def brokeBoardAfter : Board := (turnPhases brokeBoard 0 brokeAccount brokeInput).getD Board.new

/-- Two turns of the game `threePlayers`: the first human rolls 1, declines Mediterranean
Avenue and bids 1499 in the auction, the AI raises to 1504 and wins with balance 1500;
then the AI takes its turn with balance -4 and is removed. -/
def orphanTurns : List (Nat × TurnInput) :=
  [(0, { passInput with auctionInput := overbidInput }), (1, { passInput with roll := 2 })]

/-- The board after `orphanTurns`: the ledger still gives Mediterranean Avenue to the
removed AI. -/
def orphanBoard : Board := (runTurns threePlayers orphanTurns).getD Board.new

/-- The second human's account when its turn on `orphanBoard`, with roll 1, reaches the
space-resolution phase. -/
def orphanPayerLanded : Player := { Player.new "H2" 1500 0 false with position := 1 }

/-- A board on which the first player, human, owns Boardwalk without a recorded count and
holds 120; the second player holds 1500. -/
def ownerBoard : Board :=
  { Board.new with
    players :=
      [{ Player.new "O" 120 39 false with propertiesOwned := ["Boardwalk"] },
       Player.new "B" 1500 0 true]
    hashedPropertyOwners := mapSet Board.new.hashedPropertyOwners "Boardwalk" "O" }

/-- The account of the first player of `ownerBoard`. -/
def ownerAccount : Player :=
  { Player.new "O" 120 39 false with propertiesOwned := ["Boardwalk"] }

/-- An AI account with balance 201 standing on position 1. -/
def richAI : Player := { Player.new "A" 201 1 true with position := 1 }

/-- A board whose only player is `richAI`. -/
def richAIBoard : Board := { Board.new with players := [richAI] }

/-- The turn in which the first player rolls 1, declines the purchase and bids 10 in the
auction, everybody else passing. -/
def auctionWinInput : TurnInput :=
  { passInput with auctionInput := fun j => if j = 0 then 10 else 0 }

/-- Auction inputs: every human enters 1 (below the opening bid), every AI raises. -/
def aiRaises : Nat → Int := fun _ => 1

/-- Two turns with die rolls 6 and 5: the first player of `humanAndAI` walks to position
11 and declines St. Charles Place, nobody bidding. -/
def walkTurns : List (Nat × TurnInput) :=
  [(0, { passInput with roll := 6 }), (0, { passInput with roll := 5 })]

/-- The board after `walkTurns`. -/
def walkBoard : Board := (runTurns humanAndAI walkTurns).getD Board.new

/-- A board whose only player stands on position 38. -/
def lastLapBoard : Board := { Board.new with players := [Player.new "H" 1500 38 false] }

/-- Five players with balances 100, 300, 200, 300 and 50. -/
def fivePlayers : List Player :=
  [Player.new "a" 100 0 false, Player.new "b" 300 0 false, Player.new "c" 200 0 false,
   Player.new "d" 300 0 false, Player.new "e" 50 0 false]

/-! ## The rent recursion -/

/-- With more calls allowed than the improvement count, the recursion returns the
accumulated rent. -/
theorem calculateRentFuel_natCast (property : String) (baseRent multiplier : Int) (k : Nat) :
    ∀ fuel, k < fuel →
      calculateRentFuel fuel property baseRent (k : Int) multiplier
        = some (baseRent + (k : Int) * baseRent * multiplier) := by
  induction k with
  | zero =>
    intro fuel h
    obtain ⟨f, rfl⟩ : ∃ f, fuel = f + 1 := ⟨fuel - 1, by omega⟩
    simp [calculateRentFuel]
  | succ k ih =>
    intro fuel h
    obtain ⟨f, rfl⟩ : ∃ f, fuel = f + 1 := ⟨fuel - 1, by omega⟩
    have hne : ((k + 1 : Nat) : Int) ≠ 0 := by omega
    have hpred : ((k + 1 : Nat) : Int) - 1 = (k : Int) := by omega
    rw [calculateRentFuel, if_neg hne, hpred, ih f (by omega)]
    simp only [Option.map_some', Option.some.injEq]
    push_cast
    ring

/-- With a non-negative improvement count the recursion returns for every fuel above it. -/
theorem calculateRentFuel_of_nonneg (property : String) (baseRent upgrades multiplier : Int)
    (h : 0 ≤ upgrades) (fuel : Nat) (hf : upgrades.toNat < fuel) :
    calculateRentFuel fuel property baseRent upgrades multiplier
      = some (baseRent + upgrades * baseRent * multiplier) := by
  have hk : ((upgrades.toNat : Nat) : Int) = upgrades := Int.toNat_of_nonneg h
  have := calculateRentFuel_natCast property baseRent multiplier upgrades.toNat fuel hf
  rwa [hk] at this

/-- On a negative improvement count no number of calls reaches the base case. -/
theorem calculateRentFuel_of_neg (property : String) (baseRent multiplier : Int) :
    ∀ (fuel : Nat) (upgrades : Int), upgrades < 0 →
      calculateRentFuel fuel property baseRent upgrades multiplier = none := by
  intro fuel
  induction fuel with
  | zero => intro upgrades _; rfl
  | succ f ih =>
    intro upgrades h
    have hne : upgrades ≠ 0 := by omega
    rw [calculateRentFuel, if_neg hne, ih (upgrades - 1) (by omega)]
    rfl

/-- The value of `calculateRent` on a non-negative improvement count. -/
theorem calculateRent_of_nonneg (property : String) (baseRent upgrades multiplier : Int)
    (h : 0 ≤ upgrades) :
    calculateRent property baseRent upgrades multiplier
      = some (baseRent + upgrades * baseRent * multiplier) :=
  calculateRentFuel_of_nonneg property baseRent upgrades multiplier h _ (Nat.lt_succ_self _)

/-- C1: for all integers `baseRent` and `multiplier`, every improvement count `k ≥ 0` and
every property name, `calculateRent` returns `baseRent` when `k = 0` and
`baseRent + k * baseRent * multiplier` otherwise. -/
theorem calculateRent_closed_form (property : String) (baseRent multiplier k : Int)
    (hk : 0 ≤ k) :
    calculateRent property baseRent k multiplier
      = some (if k = 0 then baseRent else baseRent + k * baseRent * multiplier) := by
  rw [calculateRent_of_nonneg property baseRent k multiplier hk]
  split
  · next h => subst h; simp
  · rfl

/-- C1 at the improvement count 2 of the spec's scenario: base rent 50, multiplier 2,
rent 250. -/
theorem calculateRent_closed_form_witness :
    (0 : Int) ≤ 2 ∧ calculateRent "Boardwalk" 50 2 2 = some 250 :=
  ⟨by decide, calculateRent_closed_form "Boardwalk" 50 2 2 (by decide)⟩

/-! ## Elimination finality -/

/-- C5: for every board and every player whose bankrupt flag is set, `handleTurn` returns
at once and the board it leaves is the board it was given: all balances, positions, owned
sets, improvement counts, the ledger, the statistics and the game-over flag. -/
theorem handleTurn_of_bankrupt (b : Board) (i : Nat) (player : Player) (inp : TurnInput)
    (hp : b.players[i]? = some player) (hb : player.bankrupt = true) :
    handleTurn b i inp = some b := by
  simp [handleTurn, hp, hb]

/-- C5 on a board whose first player, with balance -5, carries the flag. -/
theorem handleTurn_of_bankrupt_witness :
    handleTurn bankruptBoard 0 passInput = some bankruptBoard :=
  handleTurn_of_bankrupt bankruptBoard 0
    { Player.new "A" (-5) 6 false with bankrupt := true } passInput rfl rfl

/-! ## Auctions without a bid -/

/-- An iteration whose bid is not recorded leaves the locals as they are. -/
theorem auctionStep_of_not_accepted (inp : Nat → Int) (st : AuctionState) (j : Nat)
    (player : Player) (h : bidAccepted inp st j player = false) :
    auctionStep inp st j player = st := by
  cases hb : player.bankrupt <;> cases ha : player.isAI <;>
    simp_all [bidAccepted, auctionStep]

/-- A stretch of the loop in which no bid is recorded leaves the locals as they are. -/
theorem auctionLoop_of_none_accepted (inp : Nat → Int) :
    ∀ (ps : List Player) (j : Nat) (st : AuctionState),
      (∀ k p, ps[k]? = some p → bidAccepted inp st (j + k) p = false) →
      auctionLoop inp ps j st = st := by
  intro ps
  induction ps with
  | nil => intro j st _; rfl
  | cons p ps ih =>
    intro j st h
    have h0 : auctionStep inp st j p = st :=
      auctionStep_of_not_accepted inp st j p (by simpa using h 0 p (by simp))
    rw [auctionLoop, h0]
    apply ih
    intro k q hq
    have := h (k + 1) q (by simpa using hq)
    rwa [show j + (k + 1) = j + 1 + k by omega] at this

/-- C9: when no bid is accepted (every consulted AI declines or has no more than the
opening bid 10, every human bid is below 10 or above the bidder's balance),
`auctionProperty` leaves the whole board unchanged: ledger, balances, owned sets,
improvement counts and the counter of properties bought.  A property whose ledger entry
is empty therefore still has an empty entry, and a later landing on it takes the purchase
branch or the auction branch again. -/
theorem auctionProperty_of_no_bid (b : Board) (propertyName : String) (inp : Nat → Int)
    (hno : ∀ j player, b.players[j]? = some player → player.bankrupt = false →
      (player.isAI = true → ¬ (inp j = 1 ∧ player.money > 10)) ∧
      (player.isAI = false → ¬ (inp j ≥ 10 ∧ inp j ≤ player.money))) :
    auctionProperty b propertyName inp = b ∧
    ∀ (lander : Player) (choice : Char),
      b.properties lander.position = some propertyName →
      b.hashedPropertyOwners propertyName = "" →
      (auctionProperty b propertyName inp).hashedPropertyOwners propertyName = "" ∧
      (spaceBranch (auctionProperty b propertyName inp) lander choice = .purchase propertyName ∨
       spaceBranch (auctionProperty b propertyName inp) lander choice = .auction propertyName) := by
  have hloop : auctionLoop inp b.players 0 AuctionState.initial = AuctionState.initial := by
    apply auctionLoop_of_none_accepted
    intro k p hp
    have hk := hno k p hp
    unfold bidAccepted
    by_cases hb : p.bankrupt = true
    · simp [hb]
    · have hb2 : p.bankrupt = false := by simpa using hb
      by_cases ha : p.isAI = true
      · have := (hk hb2).1 ha
        simp only [hb2, ha, if_true, AuctionState.initial, Nat.zero_add]
        simpa using this
      · have ha2 : p.isAI = false := by simpa using ha
        have := (hk hb2).2 ha2
        simp only [hb2, ha2, AuctionState.initial, Nat.zero_add]
        simpa using this
  have hsame : auctionProperty b propertyName inp = b := by
    simp only [auctionProperty, hloop]
    simp [AuctionState.initial]
  refine ⟨hsame, ?_⟩
  intro lander choice hpos hled
  rw [hsame]
  refine ⟨hled, ?_⟩
  unfold spaceBranch
  simp only [hpos, hled, if_true]
  split
  · exact Or.inl rfl
  · exact Or.inr rfl

/-- C9 on a fresh game of three players who all enter 0: the auction of the first
property changes nothing. -/
theorem auctionProperty_of_no_bid_witness :
    auctionProperty threePlayers "Mediterranean Avenue" (fun _ => 0) = threePlayers :=
  (auctionProperty_of_no_bid threePlayers "Mediterranean Avenue" (fun _ => 0)
    (by
      intro j player hj _
      refine ⟨fun _ h => ?_, fun _ h => ?_⟩
      · exact absurd h.1 (by simp)
      · exact absurd h.1 (by simp))).1

/-! ## Bids and balances -/

/-- C10, evaluated: in the first auction of a fresh game a human bids 1499 and the AI
after it, holding 1500 > 1499, raises to 1504.  The bid that becomes `currentBid` exceeds
the bidder's balance, and settlement leaves the winner at -4. -/
theorem auctionProperty_ai_overbid :
    balances humanAndAI = [1500, 1500] ∧
    auctionStateAt overbidInput humanAndAI.players 1 = ⟨1499, "H", true⟩ ∧
    bidRecordedAt overbidInput humanAndAI.players 1 = true ∧
    auctionLoop overbidInput humanAndAI.players 0 AuctionState.initial = ⟨1504, "A", true⟩ ∧
    balances (auctionProperty humanAndAI "Mediterranean Avenue" overbidInput) = [1500, -4] ∧
    (handleTurn humanAndAI 0 { passInput with auctionInput := overbidInput }).map balances
      = some [1500, -4] := by
  refine ⟨by decide, by decide, by decide, by decide, by decide, by decide⟩

/-! ## Looking a player up by name -/

/-- A successful lookup returns an index of the list whose player has the name. -/
theorem findPlayer_some (name : String) :
    ∀ (ps : List Player) (j : Nat), findPlayer name ps = some j →
      ∃ p, ps[j]? = some p ∧ p.name = name := by
  intro ps
  induction ps with
  | nil => intro j h; simp [findPlayer] at h
  | cons q ps ih =>
    intro j h
    unfold findPlayer at h
    by_cases hq : q.name = name
    · rw [if_pos hq] at h
      obtain rfl : 0 = j := by simpa using h
      exact ⟨q, by simp, hq⟩
    · rw [if_neg hq] at h
      cases hf : findPlayer name ps with
      | none => rw [hf] at h; simp at h
      | some k =>
        rw [hf] at h
        obtain rfl : k + 1 = j := by simpa using h
        obtain ⟨p, hp, hn⟩ := ih k hf
        exact ⟨p, by simpa using hp, hn⟩

/-- A failed lookup means that no player of the list has the name. -/
theorem findPlayer_none (name : String) :
    ∀ (ps : List Player), findPlayer name ps = none → ∀ p ∈ ps, p.name ≠ name := by
  intro ps
  induction ps with
  | nil => intro _ p hp; simp at hp
  | cons q ps ih =>
    intro h p hp
    unfold findPlayer at h
    by_cases hq : q.name = name
    · rw [if_pos hq] at h; simp at h
    · rw [if_neg hq] at h
      have hf : findPlayer name ps = none := by
        cases hf : findPlayer name ps with
        | none => rfl
        | some k => rw [hf] at h; simp at h
      rcases List.mem_cons.1 hp with rfl | hp
      · exact hq
      · exact ih hf p hp

/-- With pairwise distinct names, the lookup of a player's name returns that player's
index. -/
theorem findPlayer_of_nodup :
    ∀ (ps : List Player) (w : Nat) (p : Player), (ps.map Player.name).Nodup →
      ps[w]? = some p → findPlayer p.name ps = some w := by
  intro ps
  induction ps with
  | nil => intro w p _ h; simp at h
  | cons q ps ih =>
    intro w p hnd h
    rw [List.map_cons, List.nodup_cons] at hnd
    cases w with
    | zero =>
      obtain rfl : q = p := by simpa using h
      simp [findPlayer]
    | succ w =>
      have hp : ps[w]? = some p := by simpa using h
      have hmem : p ∈ ps := List.mem_iff_getElem?.2 ⟨w, hp⟩
      have hne : q.name ≠ p.name := fun he =>
        hnd.1 (he ▸ List.mem_map_of_mem Player.name hmem)
      simp [findPlayer, hne, ih w p hnd.2 hp]

/-! ## Auctions with a bid -/

/-- The loop over a concatenation runs the second part from the locals the first part
leaves. -/
theorem auctionLoop_append (inp : Nat → Int) :
    ∀ (xs ys : List Player) (j : Nat) (st : AuctionState),
      auctionLoop inp (xs ++ ys) j st
        = auctionLoop inp ys (j + xs.length) (auctionLoop inp xs j st) := by
  intro xs
  induction xs with
  | nil => intro ys j st; simp [auctionLoop]
  | cons x xs ih =>
    intro ys j st
    rw [List.cons_append, auctionLoop, auctionLoop, ih, List.length_cons,
      show j + 1 + xs.length = j + (xs.length + 1) by omega]

/-- A stretch of the loop in which no bid is recorded, each bid being judged against the
locals current at its iteration, leaves the locals as they are. -/
theorem auctionLoop_of_none_recorded (inp : Nat → Int) :
    ∀ (ys : List Player) (j : Nat) (st : AuctionState),
      (∀ k p, ys[k]? = some p →
        bidAccepted inp (auctionLoop inp (ys.take k) j st) (j + k) p = false) →
      auctionLoop inp ys j st = st := by
  intro ys
  induction ys with
  | nil => intro j st _; rfl
  | cons p ys ih =>
    intro j st h
    have h0 : auctionStep inp st j p = st :=
      auctionStep_of_not_accepted inp st j p (by simpa [auctionLoop] using h 0 p (by simp))
    rw [auctionLoop, h0]
    apply ih
    intro k q hq
    have := h (k + 1) q (by simpa using hq)
    simp only [List.take_succ_cons, auctionLoop, h0] at this
    rwa [show j + (k + 1) = j + 1 + k by omega] at this

/-- The locals after the loop are those written by the last recorded bid. -/
theorem auctionLoop_last_recorded (inp : Nat → Int) (players : List Player) (w : Nat)
    (winner : Player) (hw : players[w]? = some winner)
    (hlast : ∀ j, w < j → bidRecordedAt inp players j = false) :
    auctionLoop inp players 0 AuctionState.initial
      = auctionStep inp (auctionStateAt inp players w) w winner := by
  have hlen : w < players.length := (List.getElem?_eq_some.1 hw).1
  have htake : players.take (w + 1) = players.take w ++ [winner] := by
    rw [List.take_succ, hw]; rfl
  have hhead : auctionLoop inp (players.take (w + 1)) 0 AuctionState.initial
      = auctionStep inp (auctionStateAt inp players w) w winner := by
    rw [htake, auctionLoop_append]
    simp [auctionLoop, auctionStateAt, List.length_take, Nat.min_eq_left (Nat.le_of_lt hlen)]
  have hsplit : players = players.take (w + 1) ++ players.drop (w + 1) :=
    (List.take_append_drop (w + 1) players).symm
  have hlen1 : (players.take (w + 1)).length = w + 1 := by
    rw [List.length_take]; omega
  conv_lhs => rw [hsplit]
  rw [auctionLoop_append, hlen1, hhead, Nat.zero_add]
  apply auctionLoop_of_none_recorded
  intro k p hp
  have hp2 : players[w + 1 + k]? = some p := by
    rw [List.getElem?_drop] at hp; exact hp
  have hrec := hlast (w + 1 + k) (by omega)
  unfold bidRecordedAt at hrec
  rw [hp2] at hrec
  simp only at hrec
  have hst : auctionStateAt inp players (w + 1 + k)
      = auctionLoop inp ((players.drop (w + 1)).take k) (w + 1)
          (auctionStep inp (auctionStateAt inp players w) w winner) := by
    unfold auctionStateAt
    rw [List.take_add, auctionLoop_append, hlen1, Nat.zero_add]
    rw [show auctionLoop inp (List.take (w + 1) players) 0 AuctionState.initial
        = auctionStep inp (auctionLoop inp (List.take w players) 0 AuctionState.initial) w winner
      from hhead]
  rw [hst] at hrec
  exact hrec

/-- An iteration whose bid is recorded names the bidder as highest bidder. -/
theorem auctionStep_of_accepted (inp : Nat → Int) (st : AuctionState) (j : Nat)
    (player : Player) (h : bidAccepted inp st j player = true) :
    (auctionStep inp st j player).highestBidder = player.name ∧
    (auctionStep inp st j player).someoneBid = true := by
  cases hb : player.bankrupt <;> cases ha : player.isAI <;>
    simp_all [bidAccepted, auctionStep]

/-- C8 as stated fails for a bidder whose name is the empty string: the only player of a
fresh game, named `""`, bids 10 with balance 1500; the names are pairwise distinct and the
bid is recorded (`currentBid` 10, `someoneBid` set), but the guard
`!highestBidder.empty()` skips settlement, so the balance stays 1500, the owned set stays
empty and no purchase is counted. -/
theorem auctionProperty_empty_name_not_settled :
    (namelessBoard.players.map Player.name).Nodup ∧
    bidRecordedAt bidTen namelessBoard.players 0 = true ∧
    auctionLoop bidTen namelessBoard.players 0 AuctionState.initial = ⟨10, "", true⟩ ∧
    (auctionProperty namelessBoard "Mediterranean Avenue" bidTen).players.map
        (fun p => (p.money, p.propertiesOwned)) = [(1500, [])] ∧
    (auctionProperty namelessBoard "Mediterranean Avenue" bidTen).gameStats
        = namelessBoard.gameStats := by
  refine ⟨by decide, by decide, by decide, by decide, by decide⟩

/-- C8, amended: on a player list with pairwise distinct names, let `w` be the last list
index whose bid is recorded and let the player there have a non-empty name.  Then that
player is the highest bidder, the final `currentBid` is the bid recorded at `w`, and
`auctionProperty` takes exactly the final `currentBid` from that player's balance, inserts
the property into that player's owned set, writes that player's name into the ledger and
counts one purchase; every other player and every other ledger entry is unchanged. -/
theorem auctionProperty_settles (b : Board) (propertyName : String) (inp : Nat → Int)
    (w : Nat) (winner : Player)
    (hnames : (b.players.map Player.name).Nodup)
    (hw : b.players[w]? = some winner)
    (hrec : bidRecordedAt inp b.players w = true)
    (hlast : ∀ j, w < j → bidRecordedAt inp b.players j = false)
    (hname : winner.name ≠ "") :
    (auctionLoop inp b.players 0 AuctionState.initial).highestBidder = winner.name ∧
    (auctionLoop inp b.players 0 AuctionState.initial).currentBid
      = (auctionStep inp (auctionStateAt inp b.players w) w winner).currentBid ∧
    auctionProperty b propertyName inp =
      { b with
        players := b.players.set w
          { winner with
            money := winner.money
              - (auctionLoop inp b.players 0 AuctionState.initial).currentBid
            propertiesOwned := winner.propertiesOwned.insert propertyName }
        hashedPropertyOwners := mapSet b.hashedPropertyOwners propertyName winner.name
        gameStats := b.gameStats.recordPropertyBought } ∧
    (∀ j, j ≠ w → (auctionProperty b propertyName inp).players[j]? = b.players[j]?) ∧
    (∀ q, q ≠ propertyName →
      (auctionProperty b propertyName inp).hashedPropertyOwners q = b.hashedPropertyOwners q) := by
  have hfinal := auctionLoop_last_recorded inp b.players w winner hw hlast
  have hacc : bidAccepted inp (auctionStateAt inp b.players w) w winner = true := by
    unfold bidRecordedAt at hrec
    rw [hw] at hrec
    exact hrec
  obtain ⟨hhb, hsb⟩ := auctionStep_of_accepted inp _ w winner hacc
  rw [← hfinal] at hhb hsb
  have hfind := findPlayer_of_nodup b.players w winner hnames hw
  have heq : auctionProperty b propertyName inp =
      { b with
        players := b.players.set w
          { winner with
            money := winner.money
              - (auctionLoop inp b.players 0 AuctionState.initial).currentBid
            propertiesOwned := winner.propertiesOwned.insert propertyName }
        hashedPropertyOwners := mapSet b.hashedPropertyOwners propertyName winner.name
        gameStats := b.gameStats.recordPropertyBought } := by
    simp only [auctionProperty, hsb, hhb, hfind, hw]
    rw [if_pos ⟨trivial, hname⟩]
  refine ⟨hhb, by rw [hfinal], heq, ?_, ?_⟩
  · intro j hj
    rw [heq]
    exact List.getElem?_set_ne (Ne.symm hj)
  · intro q hq
    rw [heq]
    simp [mapSet, hq]

/-- C8, amended, on a fresh game of a human, an AI and a second human: bids 20, raise to
25, bid 30; the last recorded bid is the second human's, who pays 30. -/
theorem auctionProperty_settles_witness :
    balances (auctionProperty threePlayers "Mediterranean Avenue" threeBids)
      = [1500, 1500, 1470] ∧
    (auctionProperty threePlayers "Mediterranean Avenue" threeBids).hashedPropertyOwners
      "Mediterranean Avenue" = "H2" := by
  have h := auctionProperty_settles threePlayers "Mediterranean Avenue" threeBids 2
    (Player.new "H2" 1500 0 false) (by decide) rfl (by decide)
    (by
      intro j hj
      have hnone : threePlayers.players[j]? = none :=
        List.getElem?_eq_none (by
          have : threePlayers.players.length = 3 := rfl
          omega)
      simp [bidRecordedAt, hnone])
    (by decide)
  refine ⟨?_, ?_⟩
  · rw [h.2.2.1]; decide
  · rw [h.2.2.1]; decide

/-! ## Purchase -/

/-- C7: a human, non-bankrupt player standing on a property with an empty ledger entry,
answering `y` with balance at least `propertyCost`, takes the purchase branch (not the
auction branch); the phase returns the board in which that player has paid exactly
`propertyCost`, owns the property with improvement count 0 and is its ledger owner, one
purchase is counted, and every other player is unchanged. -/
theorem spaceResolution_human_purchase (b : Board) (i : Nat) (player : Player)
    (inp : TurnInput) (propertyName : String)
    (hp : b.players[i]? = some player) (hai : player.isAI = false)
    (_hnb : player.bankrupt = false)
    (hpos : b.properties player.position = some propertyName)
    (hfree : b.hashedPropertyOwners propertyName = "")
    (hyes : inp.buyChoice = 'y') (hmoney : player.money ≥ b.gameSettings.propertyCost) :
    spaceBranch b player inp.buyChoice = .purchase propertyName ∧
    spaceResolution b i inp = some (purchaseProperty b i player propertyName) ∧
    (∃ buyer, (purchaseProperty b i player propertyName).players[i]? = some buyer ∧
      buyer.money = player.money - b.gameSettings.propertyCost ∧
      propertyName ∈ buyer.propertiesOwned ∧
      buyer.propertyUpgrades propertyName = some 0) ∧
    (purchaseProperty b i player propertyName).hashedPropertyOwners propertyName = player.name ∧
    (∀ j, j ≠ i → (purchaseProperty b i player propertyName).players[j]? = b.players[j]?) ∧
    (purchaseProperty b i player propertyName).gameStats.totalPropertiesBought
      = b.gameStats.totalPropertiesBought + 1 := by
  have hbranch : spaceBranch b player inp.buyChoice = .purchase propertyName := by
    simp [spaceBranch, hpos, hfree, buyDecision, hai, hyes, hmoney]
  have hlen : i < b.players.length := (List.getElem?_eq_some.1 hp).1
  refine ⟨hbranch, ?_, ?_, ?_, ?_, ?_⟩
  · simp [spaceResolution, hp, hbranch]
  · refine ⟨_, List.getElem?_set_self hlen, rfl, ?_, ?_⟩
    · simp
    · simp [mapSet]
  · simp [purchaseProperty, mapSet]
  · intro j hj
    exact List.getElem?_set_ne (Ne.symm hj)
  · simp [purchaseProperty, Statistics.recordPropertyBought]

/-- C7 on the spec's scenario: balance 1500, cost 100; after the purchase the balance is
1400, the ledger names the player and the improvement count is 0. -/
theorem spaceResolution_human_purchase_witness :
    (spaceResolution soloHumanLanded 0 buyInput).map
        (fun b => (balances b, b.hashedPropertyOwners "Mediterranean Avenue",
          b.players.map (fun p => p.propertyUpgrades "Mediterranean Avenue")))
      = some ([1400], "H", [some 0]) := by
  have h := spaceResolution_human_purchase soloHumanLanded 0
    { Player.new "H" 1500 0 false with position := 1 } buyInput "Mediterranean Avenue"
    rfl rfl rfl (by decide) (by decide) rfl (by decide)
  rw [h.2.1]
  decide

/-! ## The shape of the board after each phase -/

/-- The two outcomes of `auctionProperty`: nothing changes, or the first player carrying
the highest bidder's non-empty name is charged the final bid and made owner. -/
theorem auctionProperty_cases (b : Board) (propertyName : String) (inp : Nat → Int) :
    auctionProperty b propertyName inp = b ∨
    ∃ (w : Nat) (winner : Player) (bid : Int),
      b.players[w]? = some winner ∧ winner.name ≠ "" ∧
      auctionProperty b propertyName inp =
        { b with
          players := b.players.set w
            { winner with
              money := winner.money - bid
              propertiesOwned := winner.propertiesOwned.insert propertyName }
          hashedPropertyOwners := mapSet b.hashedPropertyOwners propertyName winner.name
          gameStats := b.gameStats.recordPropertyBought } := by
  unfold auctionProperty
  simp only
  split
  · next hcond =>
    cases hf : findPlayer (auctionLoop inp b.players 0 AuctionState.initial).highestBidder
        b.players with
    | none => exact Or.inl rfl
    | some w =>
      obtain ⟨p, hp, hn⟩ := findPlayer_some _ _ _ hf
      right
      refine ⟨w, p, (auctionLoop inp b.players 0 AuctionState.initial).currentBid, hp, ?_, ?_⟩
      · rw [hn]; exact hcond.2
      · simp only [hp, hn]
  · exact Or.inl rfl

/-- The two outcomes of `creditOwner`: nobody carries the ledger's owner name and nothing
changes, or the first player carrying it receives the rent. -/
theorem creditOwner_cases (b : Board) (propertyName : String) (rent : Int) :
    (findPlayer (b.hashedPropertyOwners propertyName) b.players = none ∧
      creditOwner b propertyName rent = b) ∨
    ∃ (j : Nat) (owner : Player),
      findPlayer (b.hashedPropertyOwners propertyName) b.players = some j ∧
      b.players[j]? = some owner ∧ owner.name = b.hashedPropertyOwners propertyName ∧
      creditOwner b propertyName rent
        = b.setPlayer j { owner with money := owner.money + rent } := by
  unfold creditOwner
  cases hf : findPlayer (b.hashedPropertyOwners propertyName) b.players with
  | none => exact Or.inl ⟨rfl, rfl⟩
  | some j =>
    obtain ⟨p, hp, hn⟩ := findPlayer_some _ _ _ hf
    right
    exact ⟨j, p, rfl, hp, hn, by simp only [hp]⟩

/-- The random event keeps the name, the flag, the owned set and the improvement counts
of the player. -/
theorem triggerRandomEvent_frame (s : Settings) (eventType : Int) (player : Player) :
    (triggerRandomEvent s eventType player).name = player.name ∧
    (triggerRandomEvent s eventType player).bankrupt = player.bankrupt ∧
    (triggerRandomEvent s eventType player).isAI = player.isAI ∧
    (triggerRandomEvent s eventType player).propertiesOwned = player.propertiesOwned ∧
    (triggerRandomEvent s eventType player).propertyUpgrades = player.propertyUpgrades ∧
    (triggerRandomEvent s eventType player).position = player.position := by
  unfold triggerRandomEvent
  split_ifs <;> simp

/-! ## Bankruptcy -/

/-- After the space-resolution phase the acting player, not flagged before, is flagged only
with a negative balance, and in the rent branch a negative balance is flagged. -/
theorem spaceResolution_flag (b : Board) (i : Nat) (player : Player) (inp : TurnInput)
    (b3 : Board) (hp : b.players[i]? = some player) (hnb : player.bankrupt = false)
    (hret : spaceResolution b i inp = some b3) :
    ∃ p3, b3.players[i]? = some p3 ∧ (p3.bankrupt = true → p3.money < 0) ∧
      ((∃ propertyName, spaceBranch b player inp.buyChoice = .rent propertyName) →
        p3.money < 0 → p3.bankrupt = true) := by
  have hlen : i < b.players.length := (List.getElem?_eq_some.1 hp).1
  unfold spaceResolution at hret
  rw [hp] at hret
  simp only at hret
  cases hbr : spaceBranch b player inp.buyChoice with
  | nonProperty =>
    rw [hbr] at hret
    obtain rfl : b = b3 := by simpa using hret
    exact ⟨player, hp, by simp [hnb], by simp⟩
  | ownedBySelf propertyName =>
    rw [hbr] at hret
    obtain rfl : b = b3 := by simpa using hret
    exact ⟨player, hp, by simp [hnb], by simp⟩
  | purchase propertyName =>
    rw [hbr] at hret
    obtain rfl : purchaseProperty b i player propertyName = b3 := by simpa using hret
    exact ⟨_, List.getElem?_set_self hlen, by simp [hnb], by simp⟩
  | auction propertyName =>
    rw [hbr] at hret
    obtain rfl : auctionProperty b propertyName inp.auctionInput = b3 := by simpa using hret
    rcases auctionProperty_cases b propertyName inp.auctionInput with h | ⟨w, winner, bid, hw, _, h⟩
    · rw [h]; exact ⟨player, hp, by simp [hnb], by simp⟩
    · rw [h]
      by_cases hwi : w = i
      · subst hwi
        obtain rfl : winner = player := by rw [hw] at hp; simpa using hp
        exact ⟨_, List.getElem?_set_self hlen, by simp [hnb], by simp⟩
      · exact ⟨player, by simpa [List.getElem?_set_ne hwi] using hp, by simp [hnb], by simp⟩
  | rent propertyName =>
    rw [hbr] at hret
    dsimp only at hret
    unfold payRent at hret
    cases hr : rentDue b player propertyName with
    | none => rw [hr] at hret; simp at hret
    | some rent =>
      rw [hr] at hret
      obtain rfl : markBankruptAfterRent (rentTransfer b i player propertyName rent) i = b3 := by
        simpa using hret
      -- the acting player after the transfer is still unflagged
      have htr : ∃ pt, (rentTransfer b i player propertyName rent).players[i]? = some pt ∧
          pt.bankrupt = false := by
        unfold rentTransfer
        rcases creditOwner_cases
            { b.setPlayer i { player with money := player.money - rent } with
              gameStats := b.gameStats.recordRentPaid } propertyName rent
          with ⟨_, h⟩ | ⟨j, owner, _, hj, _, h⟩
        · rw [h]
          exact ⟨_, List.getElem?_set_self hlen, hnb⟩
        · rw [h]
          by_cases hji : j = i
          · subst hji
            have hjl : j < (b.players.set j { player with money := player.money - rent }).length := by
              rw [List.length_set]; exact hlen
            have ho : owner = { player with money := player.money - rent } := by
              have := List.getElem?_set_self (a := { player with money := player.money - rent }) hlen
              simp only [Board.setPlayer] at hj
              rw [this] at hj
              exact (Option.some.inj hj).symm
            refine ⟨_, List.getElem?_set_self hjl, ?_⟩
            rw [ho]; exact hnb
          · refine ⟨{ player with money := player.money - rent }, ?_, hnb⟩
            simp only [Board.setPlayer]
            rw [List.getElem?_set_ne hji]
            exact List.getElem?_set_self hlen
      obtain ⟨pt, hpt, hptb⟩ := htr
      have hptl : i < (rentTransfer b i player propertyName rent).players.length :=
        (List.getElem?_eq_some.1 hpt).1
      unfold markBankruptAfterRent
      rw [hpt]
      simp only
      by_cases hneg : pt.money < 0
      · rw [if_pos hneg]
        exact ⟨_, List.getElem?_set_self hptl, fun _ => hneg, fun _ _ => rfl⟩
      · rw [if_neg hneg]
        exact ⟨pt, hpt, by simp [hptb], fun _ h => absurd h hneg⟩

/-- The post-move phase is skipped for a flagged player and never sets the flag. -/
theorem postMoveAction_flag (b : Board) (i : Nat) (player : Player) (inp : TurnInput)
    (hp : b.players[i]? = some player) :
    (player.bankrupt = true → postMoveAction b i inp = b) ∧
    ∃ p4, (postMoveAction b i inp).players[i]? = some p4 ∧ p4.bankrupt = player.bankrupt ∧
      (player.bankrupt = true → p4.money = player.money) := by
  have hlen : i < b.players.length := (List.getElem?_eq_some.1 hp).1
  have hskip : player.bankrupt = true → postMoveAction b i inp = b := by
    intro hb
    simp [postMoveAction, hp, hb]
  refine ⟨hskip, ?_⟩
  by_cases hb : player.bankrupt = true
  · rw [hskip hb]; exact ⟨player, hp, rfl, fun _ => rfl⟩
  · unfold postMoveAction
    rw [hp]
    simp only
    split_ifs
    · unfold upgradeProperty
      rw [hp]
      simp only
      split_ifs
      all_goals first
        | exact ⟨player, hp, rfl, fun _ => rfl⟩
        | exact ⟨_, List.getElem?_set_self hlen, rfl, fun h => absurd h hb⟩
    · unfold mortgageProperty
      rw [hp]
      simp only
      split_ifs
      all_goals first
        | exact ⟨player, hp, rfl, fun _ => rfl⟩
        | exact ⟨_, List.getElem?_set_self hlen, rfl, fun h => absurd h hb⟩
    all_goals exact ⟨player, hp, rfl, fun _ => rfl⟩

/-- After the last check the flag of the acting player is set exactly when the balance is
negative, provided it was set only with a negative balance before. -/
theorem finalBankruptcyCheck_flag (b : Board) (i : Nat) (player : Player)
    (hp : b.players[i]? = some player) (h : player.bankrupt = true → player.money < 0) :
    ∃ p5, (finalBankruptcyCheck b i).players[i]? = some p5 ∧
      (p5.bankrupt = true ↔ p5.money < 0) := by
  have hlen : i < b.players.length := (List.getElem?_eq_some.1 hp).1
  unfold finalBankruptcyCheck
  rw [hp]
  simp only
  split_ifs with hc
  · exact ⟨_, List.getElem?_set_self hlen, by simp [hc.1]⟩
  · refine ⟨player, hp, h, fun hneg => ?_⟩
    by_contra hb
    exact hc ⟨hneg, by simpa using hb⟩

/-- The random event and the move keep the acting player in place and keep the flag. -/
theorem moveStart_player (b : Board) (i : Nat) (player : Player) (inp : TurnInput)
    (hp : b.players[i]? = some player) :
    ∃ p2, (moveStart b i player inp).players[i]? = some p2 ∧ p2.bankrupt = player.bankrupt ∧
      p2.name = player.name ∧ p2.isAI = player.isAI ∧
      p2.propertiesOwned = player.propertiesOwned ∧
      p2.propertyUpgrades = player.propertyUpgrades ∧
      p2.position = Int.tmod
        ((triggerRandomEvent b.gameSettings inp.eventType player).position + inp.roll) 40 ∧
      p2.money = (triggerRandomEvent b.gameSettings inp.eventType player).money := by
  have hlen : i < b.players.length := (List.getElem?_eq_some.1 hp).1
  obtain ⟨h1, h2, h3, h4, h5, -⟩ := triggerRandomEvent_frame b.gameSettings inp.eventType player
  exact ⟨_, List.getElem?_set_self hlen, h2, h1, h3, h4, h5, rfl, rfl⟩

/-! ## Every phase is a sequence of elementary changes -/

/-- The random event changes the balance only. -/
theorem triggerRandomEvent_eq (s : Settings) (eventType : Int) (player : Player) :
    triggerRandomEvent s eventType player
      = { player with money := (triggerRandomEvent s eventType player).money } := by
  unfold triggerRandomEvent
  split_ifs <;> rfl

/-- The random event and the move are elementary changes. -/
theorem moveStart_steps (b : Board) (i : Nat) (player : Player) (inp : TurnInput)
    (hp : b.players[i]? = some player) : Steps b (moveStart b i player inp) := by
  have h1 : Step b { b with gameStats := b.gameStats.recordTurn, gameIsOver := b.gameIsOver } :=
    Step.stats b _ _
  have h2 := Step.touch { b with gameStats := b.gameStats.recordTurn, gameIsOver := b.gameIsOver }
    i player (triggerRandomEvent b.gameSettings inp.eventType player).money
    (Int.tmod ((triggerRandomEvent b.gameSettings inp.eventType player).position + inp.roll) 40)
    player.bankrupt hp
  have e : moveStart b i player inp
      = Board.setPlayer
          { b with gameStats := b.gameStats.recordTurn, gameIsOver := b.gameIsOver } i
          { player with
            money := (triggerRandomEvent b.gameSettings inp.eventType player).money
            position :=
              Int.tmod ((triggerRandomEvent b.gameSettings inp.eventType player).position
                + inp.roll) 40
            bankrupt := player.bankrupt } := by
    obtain ⟨f1, f2, f3, f4, f5, -⟩ :=
      triggerRandomEvent_frame b.gameSettings inp.eventType player
    show Board.setPlayer _ i _ = Board.setPlayer _ i _
    congr 1
    simp only [Player.mk.injEq, f1, f2, f3, f4, f5, and_self]
  rw [e]
  exact (Relation.ReflTransGen.single h1).tail h2

/-- The credit to the owner is an elementary change, or none. -/
theorem creditOwner_steps (b : Board) (propertyName : String) (rent : Int) :
    Steps b (creditOwner b propertyName rent) := by
  rcases creditOwner_cases b propertyName rent with ⟨_, h⟩ | ⟨j, owner, _, hj, _, h⟩
  · rw [h]
  · rw [h]
    exact Relation.ReflTransGen.single
      (Step.touch b j owner (owner.money + rent) owner.position owner.bankrupt hj)

/-- The bankruptcy check of the rent branch is an elementary change, or none. -/
theorem markBankruptAfterRent_steps (b : Board) (i : Nat) :
    Steps b (markBankruptAfterRent b i) := by
  unfold markBankruptAfterRent
  cases hp : b.players[i]? with
  | none => exact Relation.ReflTransGen.refl
  | some player =>
    simp only
    split_ifs
    · exact Relation.ReflTransGen.single
        (Step.touch b i player player.money player.position true hp)
    · exact Relation.ReflTransGen.refl

/-- The debit and the credit of the rent branch are elementary changes. -/
theorem rentTransfer_steps (b : Board) (i : Nat) (player : Player) (propertyName : String)
    (rent : Int) (hp : b.players[i]? = some player) :
    Steps b (rentTransfer b i player propertyName rent) := by
  have h1 := Step.touch b i player (player.money - rent) player.position player.bankrupt hp
  have h2 := Step.stats (b.setPlayer i { player with money := player.money - rent })
    b.gameStats.recordRentPaid b.gameIsOver
  exact ((Relation.ReflTransGen.single h1).tail h2).trans (creditOwner_steps _ _ _)

/-- What the branch taken says about the ledger. -/
theorem spaceBranch_spec (b : Board) (player : Player) (choice : Char) :
    match spaceBranch b player choice with
    | .nonProperty => b.properties player.position = none
    | .purchase propertyName =>
        b.properties player.position = some propertyName ∧
        b.hashedPropertyOwners propertyName = "" ∧
        buyDecision b.gameSettings player propertyName choice = true ∧
        player.money ≥ b.gameSettings.propertyCost
    | .auction propertyName =>
        b.properties player.position = some propertyName ∧
        b.hashedPropertyOwners propertyName = "" ∧
        ¬ (buyDecision b.gameSettings player propertyName choice = true ∧
          player.money ≥ b.gameSettings.propertyCost)
    | .rent propertyName =>
        b.properties player.position = some propertyName ∧
        b.hashedPropertyOwners propertyName ≠ "" ∧
        b.hashedPropertyOwners propertyName ≠ player.name
    | .ownedBySelf propertyName =>
        b.properties player.position = some propertyName ∧
        b.hashedPropertyOwners propertyName ≠ "" ∧
        b.hashedPropertyOwners propertyName = player.name := by
  unfold spaceBranch
  cases hpos : b.properties player.position with
  | none => simp
  | some propertyName =>
    simp only
    split_ifs with h1 h2 h3
    · exact ⟨rfl, h1, h2⟩
    · exact ⟨rfl, h1, h2⟩
    · exact ⟨rfl, h1, h3⟩
    · exact ⟨rfl, h1, by simpa using h3⟩

/-- A returning space-resolution phase is a sequence of elementary changes. -/
theorem spaceResolution_steps (b : Board) (i : Nat) (inp : TurnInput) (b3 : Board)
    (hret : spaceResolution b i inp = some b3) : Steps b b3 := by
  unfold spaceResolution at hret
  cases hp : b.players[i]? with
  | none => rw [hp] at hret; simp at hret
  | some player =>
    rw [hp] at hret
    dsimp only at hret
    have hspec := spaceBranch_spec b player inp.buyChoice
    cases hbr : spaceBranch b player inp.buyChoice with
    | nonProperty =>
      rw [hbr] at hret
      obtain rfl : b = b3 := by simpa using hret
      exact Relation.ReflTransGen.refl
    | ownedBySelf propertyName =>
      rw [hbr] at hret
      obtain rfl : b = b3 := by simpa using hret
      exact Relation.ReflTransGen.refl
    | purchase propertyName =>
      rw [hbr] at hret hspec
      obtain rfl : purchaseProperty b i player propertyName = b3 := by simpa using hret
      exact Relation.ReflTransGen.single (Step.purchase b i player propertyName hp hspec.2.1)
    | auction propertyName =>
      rw [hbr] at hret hspec
      obtain rfl : auctionProperty b propertyName inp.auctionInput = b3 := by simpa using hret
      rcases auctionProperty_cases b propertyName inp.auctionInput
        with h | ⟨w, winner, bid, hw, hname, h⟩
      · rw [h]
      · rw [h]
        exact Relation.ReflTransGen.single
          (Step.auctionWin b w winner propertyName bid hw hspec.2.1 hname)
    | rent propertyName =>
      rw [hbr] at hret
      dsimp only at hret
      unfold payRent at hret
      cases hr : rentDue b player propertyName with
      | none => rw [hr] at hret; simp at hret
      | some rent =>
        rw [hr] at hret
        obtain rfl : markBankruptAfterRent (rentTransfer b i player propertyName rent) i = b3 := by
          simpa using hret
        exact (rentTransfer_steps b i player propertyName rent hp).trans
          (markBankruptAfterRent_steps _ _)

/-- The post-move phase is a sequence of elementary changes. -/
theorem postMoveAction_steps (b : Board) (i : Nat) (inp : TurnInput) :
    Steps b (postMoveAction b i inp) := by
  unfold postMoveAction
  cases hp : b.players[i]? with
  | none => exact Relation.ReflTransGen.refl
  | some player =>
    simp only
    split_ifs
    · unfold upgradeProperty
      rw [hp]
      simp only
      split_ifs with h1 h2 h3
      · exact Relation.ReflTransGen.refl
      · exact Relation.ReflTransGen.refl
      · exact Relation.ReflTransGen.single (Step.upgrade b i player (cinToken inp.prop) hp h2)
      · exact Relation.ReflTransGen.refl
    · unfold mortgageProperty
      rw [hp]
      simp only
      split_ifs
      · exact Relation.ReflTransGen.refl
      · exact Relation.ReflTransGen.single
          (Step.touch b i player (player.money + Int.tdiv b.gameSettings.propertyCost 2)
            player.position player.bankrupt hp)
      · exact Relation.ReflTransGen.refl
    · exact Relation.ReflTransGen.refl
    · exact Relation.ReflTransGen.single (Step.stats b b.gameStats true)
    · exact Relation.ReflTransGen.refl
    · exact Relation.ReflTransGen.refl

/-- The last bankruptcy check is an elementary change, or none. -/
theorem finalBankruptcyCheck_steps (b : Board) (i : Nat) :
    Steps b (finalBankruptcyCheck b i) := by
  unfold finalBankruptcyCheck
  cases hp : b.players[i]? with
  | none => exact Relation.ReflTransGen.refl
  | some player =>
    simp only
    split_ifs
    · exact Relation.ReflTransGen.single
        (Step.touch b i player player.money player.position true hp)
    · exact Relation.ReflTransGen.refl

/-- A returning turn is a sequence of elementary changes. -/
theorem handleTurn_steps (b : Board) (i : Nat) (inp : TurnInput) (b' : Board)
    (hret : handleTurn b i inp = some b') : Steps b b' := by
  unfold handleTurn at hret
  cases hp : b.players[i]? with
  | none => rw [hp] at hret; simp at hret
  | some player =>
    rw [hp] at hret
    dsimp only at hret
    split_ifs at hret with hb
    · obtain rfl : b = b' := by simpa using hret
      exact Relation.ReflTransGen.refl
    · unfold turnPhases at hret
      cases hs : spaceResolution (moveStart b i player inp) i inp with
      | none => rw [hs] at hret; simp at hret
      | some b3 =>
        rw [hs] at hret
        obtain rfl : checkAndRemoveBankruptPlayers
            (finalBankruptcyCheck (postMoveAction b3 i inp) i) = b' := by simpa using hret
        exact ((((moveStart_steps b i player inp hp).trans
          (spaceResolution_steps _ i inp b3 hs)).trans
          (postMoveAction_steps b3 i inp)).trans
          (finalBankruptcyCheck_steps _ i)).tail (Step.remove _)

/-- A returning sequence of turns is a sequence of elementary changes. -/
theorem runTurns_steps :
    ∀ (turns : List (Nat × TurnInput)) (b b' : Board),
      runTurns b turns = some b' → Steps b b' := by
  intro turns
  induction turns with
  | nil =>
    intro b b' h
    obtain rfl : b = b' := by simpa [runTurns] using h
    exact Relation.ReflTransGen.refl
  | cons t ts ih =>
    intro b b' h
    unfold runTurns at h
    cases ht : handleTurn b t.1 t.2 with
    | none => rw [ht] at h; simp at h
    | some b1 =>
      rw [ht] at h
      exact (handleTurn_steps b t.1 t.2 b1 ht).trans (ih b1 b' h)

/-! ## Lists of players -/

/-- An element of a list after `set` is the new element at that index or an old element
at another index. -/
theorem getElem?_set_cases {α : Type} (l : List α) (i j : Nat) (a q : α)
    (h : (l.set i a)[j]? = some q) : (j = i ∧ q = a) ∨ (j ≠ i ∧ l[j]? = some q) := by
  rw [List.getElem?_set] at h
  by_cases hij : i = j
  · rw [if_pos hij] at h
    split_ifs at h
    exact Or.inl ⟨hij.symm, (Option.some.inj h).symm⟩
  · rw [if_neg hij] at h
    exact Or.inr ⟨fun e => hij e.symm, h⟩

/-- Overwriting a player by one of the same name keeps the list of names. -/
theorem map_name_set (l : List Player) (i : Nat) (p a : Player) (hp : l[i]? = some p)
    (hname : a.name = p.name) : (l.set i a).map Player.name = l.map Player.name := by
  apply List.ext_getElem?
  intro j
  rw [List.getElem?_map, List.getElem?_map, List.getElem?_set]
  by_cases hij : i = j
  · subst hij
    have hlen : i < l.length := (List.getElem?_eq_some.1 hp).1
    simp [hlen, hp, hname]
  · simp [hij]

/-- With pairwise distinct names, players at different indices have different names. -/
theorem name_ne_of_index_ne (l : List Player) (i j : Nat) (p q : Player)
    (hnd : (l.map Player.name).Nodup) (hp : l[i]? = some p) (hq : l[j]? = some q)
    (hij : j ≠ i) : q.name ≠ p.name := by
  intro he
  have hfp := findPlayer_of_nodup l i p hnd hp
  have hfq := findPlayer_of_nodup l j q hnd hq
  rw [he, hfp] at hfq
  exact hij (Option.some.inj hfq).symm

/-! ## Invariants of the elementary changes -/

/-- A change of one account that keeps the name and leaves the ledger alone keeps the
ledger consistent when the new account is consistent with it. -/
theorem ledgerConsistent_of_set (b b' : Board) (i : Nat) (p p' : Player)
    (hinv : LedgerConsistent b) (hp : b.players[i]? = some p)
    (hpl : b'.players = b.players.set i p')
    (hled : b'.hashedPropertyOwners = b.hashedPropertyOwners)
    (hname : p'.name = p.name) (hcons : PlayerConsistent b.hashedPropertyOwners p') :
    LedgerConsistent b' := by
  refine ⟨?_, ?_⟩
  · rw [hpl, map_name_set b.players i p p' hp hname]; exact hinv.1
  · intro q hq
    rw [hled]
    rw [hpl] at hq
    rcases List.mem_or_eq_of_mem_set hq with h | h
    · exact hinv.2 q h
    · rw [h]; exact hcons

/-- An acquisition of a property with an empty ledger entry keeps the ledger consistent. -/
theorem ledgerConsistent_of_acquire (b b' : Board) (i : Nat) (p p' : Player)
    (propertyName : String)
    (hinv : LedgerConsistent b) (hp : b.players[i]? = some p)
    (hfree : b.hashedPropertyOwners propertyName = "")
    (hpl : b'.players = b.players.set i p')
    (hled : b'.hashedPropertyOwners = mapSet b.hashedPropertyOwners propertyName p.name)
    (hname : p'.name = p.name)
    (hown : ∀ q, q ∈ p'.propertiesOwned ↔ q = propertyName ∨ q ∈ p.propertiesOwned)
    (hup : ∀ q, p'.propertyUpgrades q ≠ none → q = propertyName ∨ p.propertyUpgrades q ≠ none) :
    LedgerConsistent b' := by
  have hpc : PlayerConsistent b.hashedPropertyOwners p :=
    hinv.2 p (List.mem_iff_getElem?.2 ⟨i, hp⟩)
  refine ⟨?_, ?_⟩
  · rw [hpl, map_name_set b.players i p p' hp hname]; exact hinv.1
  · intro q hq
    rw [hled]
    rw [hpl] at hq
    obtain ⟨j, hj⟩ := List.mem_iff_getElem?.1 hq
    rcases getElem?_set_cases b.players i j p' q hj with ⟨-, rfl⟩ | ⟨hji, hjq⟩
    · refine ⟨by rw [hname]; exact hpc.1, ?_, ?_⟩
      · intro r
        rw [hown, hname]
        by_cases hr : r = propertyName
        · simp [mapSet, hr]
        · simp [mapSet, hr, hpc.2.1 r]
      · intro r hr
        rw [hown]
        rcases hup r hr with h | h
        · exact Or.inl h
        · exact Or.inr (hpc.2.2 r h)
    · have hqc : PlayerConsistent b.hashedPropertyOwners q :=
        hinv.2 q (List.mem_iff_getElem?.2 ⟨j, hjq⟩)
      have hne : q.name ≠ p.name := name_ne_of_index_ne b.players i j p q hinv.1 hp hjq hji
      refine ⟨hqc.1, ?_, hqc.2.2⟩
      intro r
      by_cases hr : r = propertyName
      · subst hr
        rw [hqc.2.1 r, hfree]
        simp only [mapSet, if_true]
        constructor
        · intro h; exact absurd h.symm hqc.1
        · intro h; exact absurd h.symm hne
      · simp [mapSet, hr, hqc.2.1 r]

/-- Each elementary change keeps the ledger consistent. -/
theorem step_ledgerConsistent {b b' : Board} (h : Step b b') (hinv : LedgerConsistent b) :
    LedgerConsistent b' := by
  cases h with
  | stats s g => exact hinv
  | touch i p m x f hp =>
    have hpc := hinv.2 p (List.mem_iff_getElem?.2 ⟨i, hp⟩)
    exact ledgerConsistent_of_set b _ i p _ hinv hp rfl rfl rfl hpc
  | upgrade i p prop hp hown =>
    have hpc := hinv.2 p (List.mem_iff_getElem?.2 ⟨i, hp⟩)
    refine ledgerConsistent_of_set b _ i p _ hinv hp rfl rfl rfl ⟨hpc.1, hpc.2.1, ?_⟩
    intro r hr
    by_cases hrp : r = prop
    · rw [hrp]; exact hown
    · exact hpc.2.2 r (by simpa [mapSet, hrp] using hr)
  | purchase i p propertyName hp hfree =>
    refine ledgerConsistent_of_acquire b _ i p _ propertyName hinv hp hfree rfl rfl rfl ?_ ?_
    · intro q; simp
    · intro q hq
      by_cases hqp : q = propertyName
      · exact Or.inl hqp
      · exact Or.inr (by simpa [mapSet, hqp] using hq)
  | auctionWin w winner propertyName bid hw hfree hname =>
    refine ledgerConsistent_of_acquire b _ w winner _ propertyName hinv hw hfree rfl rfl rfl ?_ ?_
    · intro q; simp
    · intro q hq; exact Or.inr hq
  | remove =>
    refine ⟨?_, ?_⟩
    · exact List.Nodup.sublist ((List.filter_sublist _).map _) hinv.1
    · intro q hq
      exact hinv.2 q (List.mem_filter.1 hq).1

/-- Each elementary change keeps the improvement counts non-negative. -/
theorem step_upgradesNonneg {b b' : Board} (h : Step b b') (hinv : UpgradesNonneg b) :
    UpgradesNonneg b' := by
  cases h with
  | stats s g => exact hinv
  | touch i p m x f hp =>
    intro q hq
    rcases List.mem_or_eq_of_mem_set hq with h | h
    · exact hinv q h
    · rw [h]; exact hinv p (List.mem_iff_getElem?.2 ⟨i, hp⟩)
  | upgrade i p prop hp hown =>
    intro q hq
    have hpn := hinv p (List.mem_iff_getElem?.2 ⟨i, hp⟩)
    rcases List.mem_or_eq_of_mem_set hq with h | h
    · exact hinv q h
    · rw [h]
      intro r u hu
      by_cases hrp : r = prop
      · subst hrp
        simp only [mapSet, if_true, Option.some.injEq] at hu
        cases hc : p.propertyUpgrades r with
        | none => rw [hc] at hu; simp at hu; omega
        | some v =>
          rw [hc] at hu
          have := hpn r v hc
          simp at hu
          omega
      · exact hpn r u (by simpa [mapSet, hrp] using hu)
  | purchase i p propertyName hp hfree =>
    intro q hq
    have hpn := hinv p (List.mem_iff_getElem?.2 ⟨i, hp⟩)
    rcases List.mem_or_eq_of_mem_set hq with h | h
    · exact hinv q h
    · rw [h]
      intro r u hu
      by_cases hrp : r = propertyName
      · subst hrp
        simp only [mapSet, if_true, Option.some.injEq] at hu
        omega
      · exact hpn r u (by simpa [mapSet, hrp] using hu)
  | auctionWin w winner propertyName bid hw hfree hname =>
    intro q hq
    rcases List.mem_or_eq_of_mem_set hq with h | h
    · exact hinv q h
    · rw [h]; exact hinv winner (List.mem_iff_getElem?.2 ⟨w, hw⟩)
  | remove =>
    intro q hq
    exact hinv q (List.mem_filter.1 hq).1

/-- Each elementary change keeps the constructor's tables. -/
theorem step_tablesFresh {b b' : Board} (h : Step b b') (hinv : TablesFresh b) :
    TablesFresh b' := by
  cases h <;> exact hinv

/-- A sequence of elementary changes keeps the ledger consistent. -/
theorem steps_ledgerConsistent {b b' : Board} (h : Steps b b') (hinv : LedgerConsistent b) :
    LedgerConsistent b' := by
  induction h with
  | refl => exact hinv
  | tail _ hs ih => exact step_ledgerConsistent hs ih

/-- A sequence of elementary changes keeps the improvement counts non-negative. -/
theorem steps_upgradesNonneg {b b' : Board} (h : Steps b b') (hinv : UpgradesNonneg b) :
    UpgradesNonneg b' := by
  induction h with
  | refl => exact hinv
  | tail _ hs ih => exact step_upgradesNonneg hs ih

/-- A sequence of elementary changes keeps the constructor's tables. -/
theorem steps_tablesFresh {b b' : Board} (h : Steps b b') (hinv : TablesFresh b) :
    TablesFresh b' := by
  induction h with
  | refl => exact hinv
  | tail _ hs ih => exact step_tablesFresh hs ih

/-! ## The boards at the start of the game -/

/-- Writing one value at the second components of a list of pairs. -/
theorem foldl_mapSet_apply {α : Type} (v : α) (q : String) :
    ∀ (l : List (Int × String)) (m : String → α),
      l.foldl (fun m e => mapSet m e.2 v) m q
        = if q ∈ l.map Prod.snd then v else m q := by
  intro l
  induction l with
  | nil => intro m; simp
  | cons e l ih =>
    intro m
    rw [List.foldl_cons, ih]
    by_cases h1 : q ∈ l.map Prod.snd
    · simp [h1]
    · by_cases h2 : q = e.2
      · simp [h1, h2, mapSet]
      · simp [h1, h2, mapSet]

/-- The ledger of a fresh board gives every name the empty owner. -/
theorem new_hashedPropertyOwners (q : String) : Board.new.hashedPropertyOwners q = "" := by
  show propertyTable.foldl (fun m e => mapSet m e.2 "") (fun _ => "") q = ""
  rw [foldl_mapSet_apply]
  split_ifs <;> rfl

/-- The rent table of a fresh board gives every property of the board the base rent 50. -/
theorem new_rentPrices (pos : Int) (propertyName : String)
    (h : Board.new.properties pos = some propertyName) :
    Board.new.rentPrices propertyName = 50 := by
  have hmem : propertyName ∈ propertyTable.map Prod.snd := by
    change (propertyTable.find? (fun e => e.1 = pos)).map (fun e => e.2) = some propertyName at h
    cases hf : propertyTable.find? (fun e => e.1 = pos) with
    | none => rw [hf] at h; simp at h
    | some e =>
      rw [hf] at h
      have he : e.2 = propertyName := by simpa using h
      rw [← he]
      exact List.mem_map_of_mem Prod.snd (List.mem_of_find?_eq_some hf)
  show propertyTable.foldl (fun m e => mapSet m e.2 Settings.initial.baseRent) (fun _ => 0)
    propertyName = 50
  rw [foldl_mapSet_apply, if_pos hmem]
  rfl

/-- The calls of `addPlayer` append the new players and change nothing else. -/
theorem addPlayers_spec :
    ∀ (roster : List (String × Bool)) (b : Board),
      (addPlayers b roster).players
        = b.players ++ roster.map (fun e => Player.new e.1 b.gameSettings.startingMoney 0 e.2) ∧
      (addPlayers b roster).hashedPropertyOwners = b.hashedPropertyOwners ∧
      (addPlayers b roster).properties = b.properties ∧
      (addPlayers b roster).rentPrices = b.rentPrices ∧
      (addPlayers b roster).gameSettings = b.gameSettings ∧
      (addPlayers b roster).gameStats = b.gameStats := by
  intro roster
  induction roster with
  | nil => intro b; simp [addPlayers]
  | cons e es ih =>
    intro b
    obtain ⟨h1, h2, h3, h4, h5, h6⟩ := ih (addPlayer b e.1 e.2)
    refine ⟨?_, h2, h3, h4, h5, h6⟩
    rw [addPlayers, h1]
    simp [addPlayer]

/-- The players of a game that has just been set up. -/
theorem addPlayers_new_players (roster : List (String × Bool)) :
    (addPlayers Board.new roster).players
      = roster.map (fun e => Player.new e.1 1500 0 e.2) := by
  rw [(addPlayers_spec roster Board.new).1]
  rfl

/-- A game that has just been set up records no improvement count. -/
theorem addPlayers_new_upgradesNonneg (roster : List (String × Bool)) :
    UpgradesNonneg (addPlayers Board.new roster) := by
  intro p hp r u hu
  rw [addPlayers_new_players] at hp
  obtain ⟨e, -, rfl⟩ := List.mem_map.1 hp
  simp [Player.new] at hu

/-- A game that has just been set up has the constructor's tables. -/
theorem addPlayers_new_tablesFresh (roster : List (String × Bool)) :
    TablesFresh (addPlayers Board.new roster) := by
  obtain ⟨-, -, h3, h4, h5, -⟩ := addPlayers_spec roster Board.new
  refine ⟨h3, h4, ?_, ?_, ?_⟩ <;> rw [h5] <;> rfl

/-- A game set up with pairwise distinct, non-empty names has a consistent ledger. -/
theorem addPlayers_new_ledgerConsistent (roster : List (String × Bool))
    (hnd : (roster.map Prod.fst).Nodup) (hne : ∀ e ∈ roster, e.1 ≠ "") :
    LedgerConsistent (addPlayers Board.new roster) := by
  refine ⟨?_, ?_⟩
  · rw [addPlayers_new_players, List.map_map]
    exact hnd
  · intro p hp
    rw [addPlayers_new_players] at hp
    obtain ⟨e, he, rfl⟩ := List.mem_map.1 hp
    rw [(addPlayers_spec roster Board.new).2.1]
    refine ⟨hne e he, ?_, ?_⟩
    · intro r
      rw [new_hashedPropertyOwners]
      simp only [Player.new, List.not_mem_nil, false_iff]
      exact fun h => hne e he h.symm
    · intro r hr
      simp [Player.new] at hr

/-! ## Invariants of the reachable boards -/

/-- A reachable board is a sequence of elementary changes away from the set-up. -/
theorem reachable_steps {roster : List (String × Bool)} {b : Board} (h : Reachable roster b) :
    Steps (addPlayers Board.new roster) b := by
  obtain ⟨turns, ht⟩ := h
  exact runTurns_steps turns _ _ ht

/-- On a reachable board every recorded improvement count is non-negative. -/
theorem reachable_upgradesNonneg {roster : List (String × Bool)} {b : Board}
    (h : Reachable roster b) : UpgradesNonneg b :=
  steps_upgradesNonneg (reachable_steps h) (addPlayers_new_upgradesNonneg roster)

/-- A reachable board has the constructor's tables. -/
theorem reachable_tablesFresh {roster : List (String × Bool)} {b : Board}
    (h : Reachable roster b) : TablesFresh b :=
  steps_tablesFresh (reachable_steps h) (addPlayers_new_tablesFresh roster)

/-- A board reached with pairwise distinct, non-empty names has a consistent ledger. -/
theorem reachable_ledgerConsistent {roster : List (String × Bool)} {b : Board}
    (h : Reachable roster b) (hnd : (roster.map Prod.fst).Nodup)
    (hne : ∀ e ∈ roster, e.1 ≠ "") : LedgerConsistent b :=
  steps_ledgerConsistent (reachable_steps h) (addPlayers_new_ledgerConsistent roster hnd hne)

/-! ## Single ownership -/

/-- C4 as stated fails when one of the pairwise distinct names is the empty string: the
player named `""` buys Mediterranean Avenue, the ledger entry it writes is the empty
string, so the player named `B` buys the same property on the next turn, and both owned
sets contain it. -/
theorem single_ownership_fails_for_empty_name :
    (namelessRoster.map Prod.fst).Nodup ∧
    (runTurns (addPlayers Board.new namelessRoster) doubleBuyTurns).map
        (fun b => (b.players.map (fun p => (p.name, p.propertiesOwned)),
          b.hashedPropertyOwners "Mediterranean Avenue"))
      = some ([("", ["Mediterranean Avenue"]), ("B", ["Mediterranean Avenue"])], "B") := by
  refine ⟨by decide, by decide⟩

/-- C4, amended: in every board reachable from a fresh board by `addPlayer` calls with
pairwise distinct, non-empty names followed by `handleTurn` calls, a property is in the
owned set of at most one player of the list, and a player's owned set contains a property
exactly when the ledger maps the property to that player's name. -/
theorem reachable_single_ownership (roster : List (String × Bool)) (b : Board)
    (hnd : (roster.map Prod.fst).Nodup) (hne : ∀ e ∈ roster, e.1 ≠ "")
    (hr : Reachable roster b) :
    (∀ (propertyName : String) (j k : Nat) (p q : Player),
      b.players[j]? = some p → b.players[k]? = some q →
      propertyName ∈ p.propertiesOwned → propertyName ∈ q.propertiesOwned → j = k) ∧
    (∀ p ∈ b.players, ∀ propertyName,
      propertyName ∈ p.propertiesOwned ↔ b.hashedPropertyOwners propertyName = p.name) := by
  have hinv := reachable_ledgerConsistent hr hnd hne
  refine ⟨?_, fun p hp propertyName => (hinv.2 p hp).2.1 propertyName⟩
  intro propertyName j k p q hj hk hpo hqo
  by_contra hjk
  have h1 := ((hinv.2 p (List.mem_iff_getElem?.2 ⟨j, hj⟩)).2.1 propertyName).1 hpo
  have h2 := ((hinv.2 q (List.mem_iff_getElem?.2 ⟨k, hk⟩)).2.1 propertyName).1 hqo
  exact name_ne_of_index_ne b.players k j q p hinv.1 hk hj hjk (h1.symm.trans h2)

/-- C4, amended, on the board reached when the human of a two-player game has bought
Mediterranean Avenue: the buyer's owned set and the ledger agree on that property. -/
theorem reachable_single_ownership_witness :
    "Mediterranean Avenue" ∈ buyerAccount.propertiesOwned ↔
      buyerBoard.hashedPropertyOwners "Mediterranean Avenue" = buyerAccount.name :=
  (reachable_single_ownership [("H", false), ("A", true)] buyerBoard (by decide) (by decide)
    ⟨[(0, buyInput)], rfl⟩).2 buyerAccount (List.mem_iff_getElem?.2 ⟨0, rfl⟩)
    "Mediterranean Avenue"

/-! ## The improvement count behind the rent -/

/-- The lookup by name depends on the list of names only. -/
theorem findPlayer_congr (name : String) :
    ∀ (l l' : List Player), l.map Player.name = l'.map Player.name →
      findPlayer name l = findPlayer name l' := by
  intro l
  induction l with
  | nil =>
    intro l' h
    have : l' = [] := by simpa using h.symm
    rw [this]
  | cons p ps ih =>
    intro l' h
    cases l' with
    | nil => simp at h
    | cons q qs =>
      simp only [List.map_cons, List.cons.injEq] at h
      simp only [findPlayer, h.1, ih qs h.2]

/-- A change of one account that keeps its name and improvement counts keeps the count
found through the ledger. -/
theorem ownerUpgrades_of_set (b b' : Board) (i : Nat) (p p' : Player) (propertyName : String)
    (hp : b.players[i]? = some p) (hpl : b'.players = b.players.set i p')
    (hled : b'.hashedPropertyOwners = b.hashedPropertyOwners)
    (hname : p'.name = p.name) (hup : p'.propertyUpgrades = p.propertyUpgrades) :
    ownerUpgrades b' propertyName = ownerUpgrades b propertyName := by
  have hlen : i < b.players.length := (List.getElem?_eq_some.1 hp).1
  unfold ownerUpgrades
  rw [hled, hpl, findPlayer_congr _ (b.players.set i p') b.players
    (map_name_set b.players i p p' hp hname)]
  cases hf : findPlayer (b.hashedPropertyOwners propertyName) b.players with
  | none => rfl
  | some j =>
    simp only
    by_cases hij : i = j
    · subst hij
      rw [List.getElem?_set_self hlen, hp]
      simp only [hup]
    · rw [List.getElem?_set_ne hij]

/-- C3 as stated fails when the payer's name is the empty string.  The player named `""`
walks to Boardwalk, buys it and upgrades it once (`Boardwalk` is one token for
`cin >> prop`); the ledger entry stays empty, so the player named `B` buys the same
property; when `""` comes round to it again the ledger's owner is `B`, whose count is 0,
but the rent is computed from the payer's own count 1: 150 instead of 50. -/
theorem rent_from_payer_count_for_empty_name :
    (namelessRoster.map Prod.fst).Nodup ∧
    runTurns (addPlayers Board.new namelessRoster) lapTurns = some lapBoard ∧
    lapBoard.players.map
        (fun p => (p.name, p.money, p.position, p.propertyUpgrades "Boardwalk"))
      = [("", 1350, 35, some 1), ("B", 1400, 39, some 0)] ∧
    lapBoard.players[0]? = some lapPayer ∧
    spaceBranch (moveStart lapBoard 0 lapPayer lapInput) { lapPayer with position := 39 } 'n'
      = .rent "Boardwalk" ∧
    (moveStart lapBoard 0 lapPayer lapInput).hashedPropertyOwners "Boardwalk" = "B" ∧
    ownerUpgrades (moveStart lapBoard 0 lapPayer lapInput) "Boardwalk" = 0 ∧
    rentUpgrades (moveStart lapBoard 0 lapPayer lapInput) { lapPayer with position := 39 }
      "Boardwalk" = 1 ∧
    rentDue (moveStart lapBoard 0 lapPayer lapInput) { lapPayer with position := 39 }
      "Boardwalk" = some 150 ∧
    calculateRent "Boardwalk" 50 0 2 = some 50 ∧
    (handleTurn lapBoard 0 lapInput).map balances = some [1200, 1550] := by
  refine ⟨by decide, rfl, by decide, rfl, by decide, by decide, by decide, by decide,
    by decide, by decide, by decide⟩

/-- C3, amended: in every board reachable from a fresh board by `addPlayer` calls with
pairwise distinct, non-empty names followed by `handleTurn` calls, when the acting player
lands on a property that the ledger gives to another name, the acting player has no
improvement count of its own for that property, and the rent is
`calculateRent(baseRent, c, rentMultiplier)` where `c` is the count recorded in the account
of the player carrying the ledger's owner name, taken as 0 when that account records none
or the owner is no longer in the list. -/
theorem rent_uses_owner_count (roster : List (String × Bool)) (b : Board) (i : Nat)
    (player : Player) (inp : TurnInput) (p2 : Player) (propertyName : String)
    (hnd : (roster.map Prod.fst).Nodup) (hne : ∀ e ∈ roster, e.1 ≠ "")
    (hr : Reachable roster b) (hp : b.players[i]? = some player)
    (hp2 : (moveStart b i player inp).players[i]? = some p2)
    (hbr : spaceBranch (moveStart b i player inp) p2 inp.buyChoice = .rent propertyName) :
    p2.propertyUpgrades propertyName = none ∧
    rentUpgrades (moveStart b i player inp) p2 propertyName = ownerUpgrades b propertyName ∧
    0 ≤ ownerUpgrades b propertyName ∧
    rentDue (moveStart b i player inp) p2 propertyName
      = calculateRent propertyName b.gameSettings.baseRent (ownerUpgrades b propertyName)
          b.gameSettings.rentMultiplier ∧
    rentDue (moveStart b i player inp) p2 propertyName
      = some (b.gameSettings.baseRent
          + ownerUpgrades b propertyName * b.gameSettings.baseRent
            * b.gameSettings.rentMultiplier) := by
  have hsteps := moveStart_steps b i player inp hp
  have hinv2 : LedgerConsistent (moveStart b i player inp) :=
    steps_ledgerConsistent hsteps (reachable_ledgerConsistent hr hnd hne)
  have htab2 : TablesFresh (moveStart b i player inp) := steps_tablesFresh hsteps (reachable_tablesFresh hr)
  have hspec := spaceBranch_spec (moveStart b i player inp) p2 inp.buyChoice
  rw [hbr] at hspec
  obtain ⟨hpos, -, hother⟩ := hspec
  have hpc := hinv2.2 p2 (List.mem_iff_getElem?.2 ⟨i, hp2⟩)
  -- the payer records no count for a property of another name
  have hnone : p2.propertyUpgrades propertyName = none := by
    by_contra hsome
    exact hother ((hpc.2.1 propertyName).1 (hpc.2.2 propertyName hsome))
  obtain ⟨q2, hq2, -, hname2, -, -, hup2, -⟩ := moveStart_player b i player inp hp
  obtain rfl : q2 = p2 := by rw [hq2] at hp2; exact Option.some.inj hp2
  have howner : ownerUpgrades (moveStart b i player inp) propertyName
      = ownerUpgrades b propertyName := by
    have hlen : i < b.players.length := (List.getElem?_eq_some.1 hp).1
    refine ownerUpgrades_of_set b _ i player q2 propertyName hp ?_ rfl hname2 hup2
    apply List.ext_getElem?
    intro j
    by_cases hij : i = j
    · subst hij
      rw [hq2, List.getElem?_set_self hlen]
    · rw [List.getElem?_set_ne hij]
      exact List.getElem?_set_ne hij
  have hru : rentUpgrades (moveStart b i player inp) q2 propertyName
      = ownerUpgrades b propertyName := by
    rw [← howner]
    unfold rentUpgrades ownerUpgrades
    rw [hnone]
  -- recorded counts are non-negative
  have hnn : 0 ≤ ownerUpgrades b propertyName := by
    have hun := (reachable_upgradesNonneg hr)
    unfold ownerUpgrades
    cases hf : findPlayer (b.hashedPropertyOwners propertyName) b.players with
    | none => exact le_refl _
    | some j =>
      simp only
      cases hj : b.players[j]? with
      | none => exact le_refl _
      | some owner =>
        simp only
        cases hc : owner.propertyUpgrades propertyName with
        | none => exact le_refl _
        | some u => exact hun owner (List.mem_iff_getElem?.2 ⟨j, hj⟩) propertyName u hc
  have hprice : (moveStart b i player inp).rentPrices propertyName = b.gameSettings.baseRent := by
    rw [htab2.2.1, (reachable_tablesFresh hr).2.2.1]
    apply new_rentPrices q2.position
    rw [← htab2.1]
    exact hpos
  have hdue : rentDue (moveStart b i player inp) q2 propertyName
      = calculateRent propertyName b.gameSettings.baseRent (ownerUpgrades b propertyName)
          b.gameSettings.rentMultiplier := by
    unfold rentDue
    rw [hru, hprice]
    rfl
  refine ⟨hnone, hru, hnn, hdue, ?_⟩
  rw [hdue]
  exact calculateRent_of_nonneg _ _ _ _ hnn

/-- C3, amended, on the spec's scenario: the owner has walked to Boardwalk, bought it and
upgraded it twice, so the owner's count is 2, with base rent 50 and multiplier 2; the
payer lands on the property, the rent is 250, the payer goes from 1500 to 1250 and the
owner from 1300 to 1550. -/
theorem rent_uses_owner_count_witness :
    ownerUpgrades upgradedBoard "Boardwalk" = 2 ∧
    rentDue (moveStart upgradedBoard 1 payerAccount payerInput) payerLanded
      "Boardwalk" = some 250 ∧
    balances upgradedBoard = [1300, 1500] ∧
    (handleTurn upgradedBoard 1 payerInput).map balances = some [1550, 1250] := by
  have h := rent_uses_owner_count ownerAndPayer upgradedBoard 1 payerAccount
    payerInput payerLanded "Boardwalk" (by decide) (by decide) ⟨twoUpgradeTurns, rfl⟩
    rfl rfl (by decide)
  refine ⟨by decide, ?_, by decide, by decide⟩
  rw [h.2.2.2.2]
  decide

/-! ## Rent and the sum of the balances -/

/-- Overwriting an element by itself changes nothing. -/
theorem set_self_of_getElem? {α : Type} (l : List α) (i : Nat) (p : α) (hp : l[i]? = some p) :
    l.set i p = l := by
  apply List.ext_getElem?
  intro j
  by_cases hij : i = j
  · subst hij
    rw [List.getElem?_set_self (List.getElem?_eq_some.1 hp).1, hp]
  · rw [List.getElem?_set_ne hij]

/-- The sum of the balances after one account is overwritten. -/
theorem sum_money_set :
    ∀ (l : List Player) (i : Nat) (p a : Player), l[i]? = some p →
      ((l.set i a).map Player.money).sum = (l.map Player.money).sum - p.money + a.money := by
  intro l
  induction l with
  | nil => intro i p a hp; simp at hp
  | cons q qs ih =>
    intro i p a hp
    cases i with
    | zero =>
      obtain rfl : q = p := by simpa using hp
      simp only [List.set_cons_zero, List.map_cons, List.sum_cons]
      ring
    | succ i =>
      have hp' : qs[i]? = some p := by simpa using hp
      simp only [List.set_cons_succ, List.map_cons, List.sum_cons, ih i p a hp']
      ring

/-- The count used for the rent is non-negative when all recorded counts are. -/
theorem rentUpgrades_nonneg (b : Board) (player : Player) (propertyName : String)
    (hun : UpgradesNonneg b) (hmem : player ∈ b.players) :
    0 ≤ rentUpgrades b player propertyName := by
  unfold rentUpgrades
  cases hc : player.propertyUpgrades propertyName with
  | some u => exact hun player hmem propertyName u hc
  | none =>
    simp only
    cases hf : findPlayer (b.hashedPropertyOwners propertyName) b.players with
    | none => exact le_refl _
    | some j =>
      simp only
      cases hj : b.players[j]? with
      | none => exact le_refl _
      | some owner =>
        simp only
        cases ho : owner.propertyUpgrades propertyName with
        | none => exact le_refl _
        | some u => exact hun owner (List.mem_iff_getElem?.2 ⟨j, hj⟩) propertyName u ho

/-- The bankruptcy check of the rent branch overwrites the acting player's account by one
of the same balance. -/
theorem markBankruptAfterRent_players (b : Board) (i : Nat) (p : Player)
    (hp : b.players[i]? = some p) :
    ∃ p', (markBankruptAfterRent b i).players = b.players.set i p' ∧ p'.money = p.money := by
  unfold markBankruptAfterRent
  rw [hp]
  simp only
  split_ifs
  · exact ⟨_, rfl, rfl⟩
  · exact ⟨p, (set_self_of_getElem? b.players i p hp).symm, rfl⟩

/-- The space-resolution phase returns when all recorded counts are non-negative. -/
theorem spaceResolution_returns (b : Board) (i : Nat) (player : Player) (inp : TurnInput)
    (hp : b.players[i]? = some player) (hun : UpgradesNonneg b) :
    ∃ b3, spaceResolution b i inp = some b3 := by
  unfold spaceResolution
  rw [hp]
  dsimp only
  cases hbr : spaceBranch b player inp.buyChoice with
  | nonProperty => exact ⟨_, rfl⟩
  | ownedBySelf propertyName => exact ⟨_, rfl⟩
  | purchase propertyName => exact ⟨_, rfl⟩
  | auction propertyName => exact ⟨_, rfl⟩
  | rent propertyName =>
    have hnn := rentUpgrades_nonneg b player propertyName hun (List.mem_iff_getElem?.2 ⟨i, hp⟩)
    have hdue : rentDue b player propertyName = some _ := calculateRent_of_nonneg _ _ _ _ hnn
    dsimp only [payRent]
    rw [hdue]
    exact ⟨_, rfl⟩

/-- A turn of a player of the list returns when all recorded counts are non-negative; in
particular every turn on a reachable board returns. -/
theorem handleTurn_returns (b : Board) (i : Nat) (player : Player) (inp : TurnInput)
    (hp : b.players[i]? = some player) (hun : UpgradesNonneg b) :
    ∃ b', handleTurn b i inp = some b' := by
  unfold handleTurn
  rw [hp]
  dsimp only
  split_ifs
  · exact ⟨b, rfl⟩
  · obtain ⟨p2, hp2, -⟩ := moveStart_player b i player inp hp
    have hun2 : UpgradesNonneg (moveStart b i player inp) :=
      steps_upgradesNonneg (moveStart_steps b i player inp hp) hun
    obtain ⟨b3, hb3⟩ := spaceResolution_returns _ i p2 inp hp2 hun2
    refine ⟨checkAndRemoveBankruptPlayers (finalBankruptcyCheck (postMoveAction b3 i inp) i), ?_⟩
    simp only [turnPhases, hb3, Option.map_some']

/-- The phases of a turn of a player of the list return when all recorded counts are
non-negative. -/
theorem turnPhases_returns (b : Board) (i : Nat) (player : Player) (inp : TurnInput)
    (hp : b.players[i]? = some player) (hun : UpgradesNonneg b) :
    ∃ b', turnPhases b i player inp = some b' := by
  obtain ⟨p2, hp2, -⟩ := moveStart_player b i player inp hp
  have hun2 : UpgradesNonneg (moveStart b i player inp) :=
    steps_upgradesNonneg (moveStart_steps b i player inp hp) hun
  obtain ⟨b3, hb3⟩ := spaceResolution_returns _ i p2 inp hp2 hun2
  exact ⟨finalBankruptcyCheck (postMoveAction b3 i inp) i, by
    simp only [turnPhases, hb3, Option.map_some']⟩

/-! ## The flag at the end of a turn -/

/-- C6: on a board whose recorded counts are non-negative (every reachable board is one),
a turn taken by a player whose flag is unset at the start returns, whatever the random
event, the roll and the choices, and the acting player's flag at the end of the turn (when
`checkAndRemoveBankruptPlayers` is called) is set exactly when the balance is negative.
In the rent branch a balance that is negative after the payment sets the flag at once and
the post-move phase changes nothing. -/
theorem turnPhases_bankrupt_iff (b : Board) (i : Nat) (player : Player) (inp : TurnInput)
    (hp : b.players[i]? = some player) (hnb : player.bankrupt = false)
    (hun : UpgradesNonneg b) :
    ∃ b3 b', spaceResolution (moveStart b i player inp) i inp = some b3 ∧
      b' = finalBankruptcyCheck (postMoveAction b3 i inp) i ∧
      turnPhases b i player inp = some b' ∧
      handleTurn b i inp = some (checkAndRemoveBankruptPlayers b') ∧
      (∃ p', b'.players[i]? = some p' ∧ (p'.bankrupt = true ↔ p'.money < 0)) ∧
      (∀ p2 p3 propertyName,
        (moveStart b i player inp).players[i]? = some p2 →
        spaceBranch (moveStart b i player inp) p2 inp.buyChoice = .rent propertyName →
        b3.players[i]? = some p3 → p3.money < 0 →
        p3.bankrupt = true ∧ postMoveAction b3 i inp = b3) := by
  obtain ⟨p2, hp2, hb2, -⟩ := moveStart_player b i player inp hp
  rw [hnb] at hb2
  have hun2 : UpgradesNonneg (moveStart b i player inp) :=
    steps_upgradesNonneg (moveStart_steps b i player inp hp) hun
  obtain ⟨b3, hs⟩ := spaceResolution_returns _ i p2 inp hp2 hun2
  have hret : turnPhases b i player inp
      = some (finalBankruptcyCheck (postMoveAction b3 i inp) i) := by
    simp only [turnPhases, hs, Option.map_some']
  refine ⟨b3, _, hs, rfl, hret, ?_, ?_, ?_⟩
  · simp [handleTurn, hp, hnb, hret]
  · obtain ⟨p3, hp3, himp, -⟩ := spaceResolution_flag _ i p2 inp b3 hp2 hb2 hs
    obtain ⟨-, p4, hp4, hb4, hm4⟩ := postMoveAction_flag b3 i p3 inp hp3
    apply finalBankruptcyCheck_flag _ i p4 hp4
    intro hb
    rw [hb4] at hb
    rw [hm4 hb]
    exact himp hb
  · intro q2 p3 propertyName hq2 hbr hp3 hneg
    obtain rfl : p2 = q2 := by rw [hp2] at hq2; simpa using hq2
    obtain ⟨q3, hq3, -, hflag⟩ := spaceResolution_flag _ i p2 inp b3 hp2 hb2 hs
    obtain rfl : q3 = p3 := by rw [hq3] at hp3; simpa using hp3
    have hb3 : q3.bankrupt = true := hflag ⟨propertyName, hbr⟩ hneg
    exact ⟨hb3, (postMoveAction_flag b3 i q3 inp hq3).1 hb3⟩

/-- C6 on the spec's scenario, reached in two turns from a fresh game: a player with
balance 45 lands on the other player's Baltic Avenue and pays the rent of 50; with balance
-5 the flag is set, the other player holds 1450, and the turn removes the payer from the
list. -/
theorem turnPhases_bankrupt_iff_witness :
    runTurns (addPlayers Board.new ownerAndPayer) brokeTurns = some brokeBoard ∧
    brokeBoard.players[0]? = some brokeAccount ∧
    UpgradesNonneg brokeBoard ∧
    (∃ b', turnPhases brokeBoard 0 brokeAccount brokeInput = some b' ∧
      ∃ p', b'.players[0]? = some p' ∧ (p'.bankrupt = true ↔ p'.money < 0)) ∧
    balances brokeBoard = [45, 1400] ∧
    turnPhases brokeBoard 0 brokeAccount brokeInput = some brokeBoardAfter ∧
    brokeBoardAfter.players.map (fun p => (p.money, p.bankrupt))
      = [(-5, true), (1450, false)] ∧
    (handleTurn brokeBoard 0 brokeInput).map balances = some [1450] := by
  have hun : UpgradesNonneg brokeBoard :=
    reachable_upgradesNonneg (show Reachable ownerAndPayer brokeBoard from ⟨brokeTurns, rfl⟩)
  obtain ⟨b3, b', -, -, hret, -, hflag, -⟩ :=
    turnPhases_bankrupt_iff brokeBoard 0 brokeAccount brokeInput rfl rfl hun
  exact ⟨rfl, rfl, hun, ⟨b', hret, hflag⟩, by decide, rfl, by decide, by decide⟩

/-- C2 as stated fails when the ledger's owner has been removed from the list.  In a game
of a human, an AI and a second human, the AI wins the auction of Mediterranean Avenue with
a bid above its balance and is removed at the end of its own turn; the ledger keeps its
name.  When the second human lands on the property it pays the rent of 50 and nobody is
credited: the sum of the balances drops from 3000 to 2950. -/
theorem rent_to_removed_owner_is_lost :
    runTurns threePlayers orphanTurns = some orphanBoard ∧
    orphanBoard.players.map (fun p => (p.name, p.money)) = [("H1", 1500), ("H2", 1500)] ∧
    orphanBoard.hashedPropertyOwners "Mediterranean Avenue" = "A" ∧
    orphanBoard.players[1]? = some (Player.new "H2" 1500 0 false) ∧
    spaceBranch (moveStart orphanBoard 1 (Player.new "H2" 1500 0 false) passInput)
      orphanPayerLanded 'n' = .rent "Mediterranean Avenue" ∧
    rentDue (moveStart orphanBoard 1 (Player.new "H2" 1500 0 false) passInput)
      orphanPayerLanded "Mediterranean Avenue" = some 50 ∧
    totalMoney (moveStart orphanBoard 1 (Player.new "H2" 1500 0 false) passInput) = 3000 ∧
    (payRent (moveStart orphanBoard 1 (Player.new "H2" 1500 0 false) passInput) 1
        orphanPayerLanded "Mediterranean Avenue").map (fun b => (balances b, totalMoney b))
      = some ([1500, 1450], 2950) ∧
    (handleTurn orphanBoard 1 passInput).map balances = some [1500, 1450] := by
  refine ⟨rfl, by decide, by decide, rfl, by decide, by decide, by decide, by decide,
    by decide⟩

/-- C2, amended: in every reachable board, when the acting player lands on a property that
the ledger gives to another name and a player of that name is still in the list, the rent
branch returns; it takes exactly the rent `r` computed by `calculateRent` from the acting
player, gives exactly `r` to the first player of that name, leaves every other account as
it was, and so leaves the sum of all balances unchanged. -/
theorem rent_conserves_money (roster : List (String × Bool)) (b : Board) (i : Nat)
    (player : Player) (inp : TurnInput) (p2 : Player) (propertyName : String) (j : Nat)
    (hr : Reachable roster b) (hp : b.players[i]? = some player)
    (hp2 : (moveStart b i player inp).players[i]? = some p2)
    (hbr : spaceBranch (moveStart b i player inp) p2 inp.buyChoice = .rent propertyName)
    (hj : findPlayer ((moveStart b i player inp).hashedPropertyOwners propertyName)
      (moveStart b i player inp).players = some j) :
    ∃ (r : Int) (owner : Player) (b3 : Board),
      rentDue (moveStart b i player inp) p2 propertyName = some r ∧
      (moveStart b i player inp).players[j]? = some owner ∧ j ≠ i ∧
      spaceResolution (moveStart b i player inp) i inp = some b3 ∧
      (∃ p3, b3.players[i]? = some p3 ∧ p3.money = p2.money - r) ∧
      (∃ o3, b3.players[j]? = some o3 ∧ o3.money = owner.money + r) ∧
      (∀ k, k ≠ i → k ≠ j → b3.players[k]? = (moveStart b i player inp).players[k]?) ∧
      totalMoney b3 = totalMoney (moveStart b i player inp) := by
  have hun2 : UpgradesNonneg (moveStart b i player inp) :=
    steps_upgradesNonneg (moveStart_steps b i player inp hp) (reachable_upgradesNonneg hr)
  generalize moveStart b i player inp = b2 at hp2 hbr hj hun2 ⊢
  have hlen : i < b2.players.length := (List.getElem?_eq_some.1 hp2).1
  have hspec := spaceBranch_spec b2 p2 inp.buyChoice
  rw [hbr] at hspec
  obtain ⟨-, -, hother⟩ := hspec
  have hnn := rentUpgrades_nonneg b2 p2 propertyName hun2 (List.mem_iff_getElem?.2 ⟨i, hp2⟩)
  have hdue : rentDue b2 p2 propertyName
      = some (b2.rentPrices propertyName
          + rentUpgrades b2 p2 propertyName * b2.rentPrices propertyName
            * b2.gameSettings.rentMultiplier) :=
    calculateRent_of_nonneg _ _ _ _ hnn
  generalize b2.rentPrices propertyName
      + rentUpgrades b2 p2 propertyName * b2.rentPrices propertyName
        * b2.gameSettings.rentMultiplier = r at hdue
  obtain ⟨owner, hown, hownname⟩ := findPlayer_some _ _ _ hj
  have hji : j ≠ i := by
    rintro rfl
    rw [hp2] at hown
    obtain rfl : p2 = owner := Option.some.inj hown
    exact hother hownname.symm
  -- the board after the debit
  have hdeb : ({ b2.setPlayer i { p2 with money := p2.money - r } with
      gameStats := b2.gameStats.recordRentPaid } : Board).players
        = b2.players.set i { p2 with money := p2.money - r } := rfl
  have hfind : findPlayer (b2.hashedPropertyOwners propertyName)
      (b2.players.set i { p2 with money := p2.money - r }) = some j := by
    exact (findPlayer_congr _ _ _
      (map_name_set b2.players i p2 { p2 with money := p2.money - r } hp2 rfl)).trans hj
  have hown1 : (b2.players.set i { p2 with money := p2.money - r })[j]? = some owner := by
    rw [List.getElem?_set_ne (Ne.symm hji)]; exact hown
  have htr : (rentTransfer b2 i p2 propertyName r).players
      = (b2.players.set i { p2 with money := p2.money - r }).set j
          { owner with money := owner.money + r } := by
    unfold rentTransfer creditOwner
    simp only [Board.setPlayer, hfind, hown1]
  have hi1 : (rentTransfer b2 i p2 propertyName r).players[i]?
      = some { p2 with money := p2.money - r } := by
    rw [htr, List.getElem?_set_ne hji]
    exact List.getElem?_set_self hlen
  obtain ⟨p3, hpl3, hm3⟩ := markBankruptAfterRent_players _ i _ hi1
  have hlen1 : i < (rentTransfer b2 i p2 propertyName r).players.length :=
    (List.getElem?_eq_some.1 hi1).1
  have hres : spaceResolution b2 i inp
      = some (markBankruptAfterRent (rentTransfer b2 i p2 propertyName r) i) := by
    unfold spaceResolution
    rw [hp2]
    simp only [hbr, payRent, hdue, Option.map_some']
  refine ⟨r, owner, _, hdue, hown, hji, hres, ⟨p3, ?_, hm3⟩,
    ⟨{ owner with money := owner.money + r }, ?_, rfl⟩, ?_, ?_⟩
  · rw [hpl3]; exact List.getElem?_set_self hlen1
  · rw [hpl3, List.getElem?_set_ne (Ne.symm hji), htr]
    exact List.getElem?_set_self (by rw [List.length_set]; exact (List.getElem?_eq_some.1 hown).1)
  · intro k hki hkj
    rw [hpl3, List.getElem?_set_ne (Ne.symm hki), htr, List.getElem?_set_ne (Ne.symm hkj),
      List.getElem?_set_ne (Ne.symm hki)]
  · unfold totalMoney balances
    rw [hpl3, sum_money_set _ i _ p3 hi1, htr, sum_money_set _ j _ _ hown1,
      sum_money_set _ i _ _ hp2, hm3]
    ring

/-- C2, amended, on the board where the owner holds Boardwalk with two improvements and
the payer lands on it: the sum of the balances is 2800 before and after the rent branch,
which moves 250 from the payer to the owner. -/
theorem rent_conserves_money_witness :
    (spaceResolution (moveStart upgradedBoard 1 payerAccount payerInput) 1
        payerInput).map totalMoney
      = some (totalMoney (moveStart upgradedBoard 1 payerAccount payerInput)) ∧
    totalMoney (moveStart upgradedBoard 1 payerAccount payerInput) = 2800 ∧
    (spaceResolution (moveStart upgradedBoard 1 payerAccount payerInput) 1
        payerInput).map balances = some [1550, 1250] := by
  obtain ⟨r, owner, b3, -, -, -, hres, -, -, -, htot⟩ :=
    rent_conserves_money ownerAndPayer upgradedBoard 1 payerAccount
      payerInput payerLanded "Boardwalk" 0 ⟨twoUpgradeTurns, rfl⟩ rfl rfl
      (by decide) (by decide)
  refine ⟨?_, by decide, by decide⟩
  rw [hres, Option.map_some', htot]

/-! ## Rent monotonicity -/

/-- C11: for a positive base rent and a positive multiplier the rent grows strictly with
every improvement, `calculateRent(b, k, m) < calculateRent(b, k + 1, m)` for all `k ≥ 0`,
both calls returning; and `calculateRent(b, 0, m) = b` for all `b` and `m`. -/
theorem calculateRent_strictMono (property : String) (b m k : Int)
    (hb : 0 < b) (hm : 0 < m) (hk : 0 ≤ k) :
    calculateRent property b k m = some (b + k * b * m) ∧
    calculateRent property b (k + 1) m = some (b + (k + 1) * b * m) ∧
    b + k * b * m < b + (k + 1) * b * m ∧
    ∀ b0 m0 : Int, calculateRent property b0 0 m0 = some b0 := by
  refine ⟨calculateRent_of_nonneg property b k m hk,
    calculateRent_of_nonneg property b (k + 1) m (by omega), ?_, ?_⟩
  · have hbm : 0 < b * m := Int.mul_pos hb hm
    nlinarith
  · intro b0 m0
    rw [calculateRent_of_nonneg property b0 0 m0 (le_refl _)]
    simp

/-- C11 at base rent 50 and multiplier 2: the rent is 150 with one improvement and 250
with two. -/
theorem calculateRent_strictMono_witness :
    calculateRent "Boardwalk" 50 1 2 = some 150 ∧
    calculateRent "Boardwalk" 50 2 2 = some 250 ∧
    (150 : Int) < 250 :=
  let h := calculateRent_strictMono "Boardwalk" 50 2 1 (by decide) (by decide) (by decide)
  ⟨h.1, h.2.1, h.2.2.1⟩

/-! ## Upgrade and mortgage -/

/-- The branch of the space-resolution phase depends on the board only through the
property table, the ledger and the settings. -/
theorem spaceBranch_congr (b b' : Board) (player : Player) (choice : Char)
    (h1 : b'.properties = b.properties)
    (h2 : b'.hashedPropertyOwners = b.hashedPropertyOwners)
    (h3 : b'.gameSettings = b.gameSettings) :
    spaceBranch b' player choice = spaceBranch b player choice := by
  unfold spaceBranch
  rw [h1, h2, h3]

/-- What `upgradeProperty` does with the token that `cin >> prop` takes from the entered
text: it returns the board unchanged when the player at index `i` owns nothing, does not
own a property of that name, or holds less than 50.  Otherwise it takes exactly 50 from
that player and raises that player's count for the token by one (from 0 when none was
recorded); that player's other counts, name, position and owned set, every other player,
the ledger, the statistics and the game-over flag are unchanged. -/
theorem upgradeProperty_of_token (b : Board) (i : Nat) (player : Player) (entered : String)
    (hp : b.players[i]? = some player) :
    ((player.propertiesOwned = [] ∨ cinToken entered ∉ player.propertiesOwned ∨ player.money < 50) →
      upgradeProperty b i entered = b) ∧
    (cinToken entered ∈ player.propertiesOwned → 50 ≤ player.money →
      (∃ p', (upgradeProperty b i entered).players[i]? = some p' ∧
        p'.money = player.money - 50 ∧
        p'.propertyUpgrades (cinToken entered) = some ((player.propertyUpgrades (cinToken entered)).getD 0 + 1) ∧
        (∀ q, q ≠ cinToken entered → p'.propertyUpgrades q = player.propertyUpgrades q) ∧
        p'.propertiesOwned = player.propertiesOwned ∧ p'.name = player.name ∧
        p'.position = player.position ∧ p'.isAI = player.isAI ∧
        p'.bankrupt = player.bankrupt) ∧
      (∀ j, j ≠ i → (upgradeProperty b i entered).players[j]? = b.players[j]?) ∧
      (upgradeProperty b i entered).hashedPropertyOwners = b.hashedPropertyOwners ∧
      (upgradeProperty b i entered).gameStats = b.gameStats ∧
      (upgradeProperty b i entered).gameIsOver = b.gameIsOver ∧
      (upgradeProperty b i entered).players.length = b.players.length) := by
  have hlen : i < b.players.length := (List.getElem?_eq_some.1 hp).1
  refine ⟨?_, ?_⟩
  · intro h
    unfold upgradeProperty
    rw [hp]
    dsimp only
    rcases h with h | h | h
    · simp [h]
    · by_cases he : player.propertiesOwned.isEmpty = true
      · rw [if_pos he]
      · rw [if_neg he, if_pos h]
    · by_cases he : player.propertiesOwned.isEmpty = true
      · rw [if_pos he]
      · rw [if_neg he]
        by_cases ho : cinToken entered ∉ player.propertiesOwned
        · rw [if_pos ho]
        · rw [if_neg ho, if_pos h]
  · intro hown hmoney
    have he : ¬ player.propertiesOwned.isEmpty = true := by
      intro he
      rw [List.isEmpty_iff] at he
      rw [he] at hown
      simp at hown
    have heq : upgradeProperty b i entered = b.setPlayer i
        { player with
          money := player.money - 50
          propertyUpgrades :=
            mapSet player.propertyUpgrades (cinToken entered)
              (some ((player.propertyUpgrades (cinToken entered)).getD 0 + 1)) } := by
      unfold upgradeProperty
      rw [hp]
      dsimp only
      rw [if_neg he, if_neg (not_not.2 hown), if_neg (not_lt.2 hmoney)]
    rw [heq]
    refine ⟨⟨_, List.getElem?_set_self hlen, rfl, ?_, ?_, rfl, rfl, rfl, rfl, rfl⟩,
      ?_, rfl, rfl, rfl, ?_⟩
    · simp [mapSet]
    · intro q hq
      simp [mapSet, hq]
    · intro j hj
      exact List.getElem?_set_ne (Ne.symm hj)
    · exact List.length_set _ _ _

/-- An entered text without white space is its own token; of a text with a space only the
part before it is read.  Of the 23 property names of the board only `Boardwalk` is read
back whole. -/
theorem cinToken_of_names :
    cinToken "Boardwalk" = "Boardwalk" ∧
    cinToken "Mediterranean Avenue" = "Mediterranean" ∧
    cinToken "  Park Place" = "Park" ∧
    propertyNames.length = 23 ∧
    propertyNames.filter (fun propertyName => decide (cinToken propertyName = propertyName))
      = ["Boardwalk"] := by
  refine ⟨by decide, by decide, by decide, by decide, by decide⟩

/-- On a board whose first player owns Boardwalk, records no count for it and holds 120,
an upgrade of a property not owned changes nothing; the upgrade of Boardwalk leaves the
balance 70 and the count 1, and the second player as before. -/
theorem upgradeProperty_of_token_witness :
    upgradeProperty ownerBoard 0 "Park Place" = ownerBoard ∧
    (upgradeProperty ownerBoard 0 "Boardwalk").players.map
        (fun p => (p.money, p.propertyUpgrades "Boardwalk")) = [(70, some 1), (1500, none)] :=
  ⟨(upgradeProperty_of_token ownerBoard 0 ownerAccount "Park Place" rfl).1
      (Or.inr (Or.inl (by decide))),
    by decide⟩

/-- C12: `upgradeProperty` refuses a property the player owns when its name has a space.
In a fresh game of `H` and `A` the human rolls 1 and buys Mediterranean Avenue, holding
1400 with count 0.  Entering `Mediterranean Avenue` at the upgrade prompt, `cin >> prop`
reads `Mediterranean`, which the player does not own: the board is unchanged, balance 1400
and count 0, where an upgrade of an owned property with 50 in hand takes 50 and raises the
count to 1.  The same holds when the text is entered in the post-move phase of a turn. -/
theorem upgradeProperty_refuses_spaced_name :
    runTurns humanAndAI [(0, buyInput)] = some buyerBoard ∧
    buyerBoard.players[0]? = some buyerAccount ∧
    "Mediterranean Avenue" ∈ buyerAccount.propertiesOwned ∧
    50 ≤ buyerAccount.money ∧
    cinToken "Mediterranean Avenue" = "Mediterranean" ∧
    "Mediterranean" ∉ buyerAccount.propertiesOwned ∧
    upgradeProperty buyerBoard 0 "Mediterranean Avenue" = buyerBoard ∧
    buyerBoard.players.map (fun p => (p.money, p.propertyUpgrades "Mediterranean Avenue"))
      = [(1400, some 0), (1500, none)] ∧
    (postMoveAction buyerBoard 0
        { passInput with actionChoice := 'u', prop := "Mediterranean Avenue" }).players.map
        (fun p => (p.money, p.propertyUpgrades "Mediterranean Avenue"))
      = [(1400, some 0), (1500, none)] := by
  refine ⟨rfl, rfl, by decide, by decide, by decide, by decide, ?_, by decide, by decide⟩
  exact (upgradeProperty_of_token buyerBoard 0 buyerAccount "Mediterranean Avenue" rfl).1
    (Or.inr (Or.inl (by decide)))

/-- What `mortgageProperty` does with the token that `cin >> prop` takes from the entered
text: it returns the board unchanged when the player at index `i` does not own a property
of that name.  Otherwise it adds exactly `propertyCost / 2` (truncating division, no
improvement count enters the amount) to that player's balance and changes nothing else:
the ledger, every owned set, every improvement count and every other account are as
before.  In both cases the branch taken by any player landing anywhere is the same as
before, so a property that charged rent still charges it. -/
theorem mortgageProperty_of_token (b : Board) (i : Nat) (player : Player) (entered : String)
    (hp : b.players[i]? = some player) :
    (cinToken entered ∉ player.propertiesOwned → mortgageProperty b i entered = b) ∧
    (cinToken entered ∈ player.propertiesOwned →
      mortgageProperty b i entered
        = b.setPlayer i
            { player with money := player.money + Int.tdiv b.gameSettings.propertyCost 2 } ∧
      (∃ p', (mortgageProperty b i entered).players[i]? = some p' ∧
        p'.money = player.money + Int.tdiv b.gameSettings.propertyCost 2 ∧
        p'.propertyUpgrades = player.propertyUpgrades ∧
        p'.propertiesOwned = player.propertiesOwned ∧ p'.name = player.name ∧
        p'.position = player.position ∧ p'.bankrupt = player.bankrupt) ∧
      (∀ j, j ≠ i → (mortgageProperty b i entered).players[j]? = b.players[j]?)) ∧
    (mortgageProperty b i entered).hashedPropertyOwners = b.hashedPropertyOwners ∧
    (mortgageProperty b i entered).gameStats = b.gameStats ∧
    (∀ (lander : Player) (choice : Char),
      spaceBranch (mortgageProperty b i entered) lander choice = spaceBranch b lander choice) := by
  have hlen : i < b.players.length := (List.getElem?_eq_some.1 hp).1
  have hnot : cinToken entered ∉ player.propertiesOwned → mortgageProperty b i entered = b := by
    intro h
    unfold mortgageProperty
    rw [hp]
    dsimp only
    by_cases he : player.propertiesOwned.isEmpty = true
    · rw [if_pos he]
    · rw [if_neg he, if_pos h]
  have hyes : cinToken entered ∈ player.propertiesOwned →
      mortgageProperty b i entered
        = b.setPlayer i
            { player with money := player.money + Int.tdiv b.gameSettings.propertyCost 2 } := by
    intro hown
    have he : ¬ player.propertiesOwned.isEmpty = true := by
      intro he
      rw [List.isEmpty_iff] at he
      rw [he] at hown
      simp at hown
    unfold mortgageProperty
    rw [hp]
    dsimp only
    rw [if_neg he, if_neg (not_not.2 hown)]
  have hframe : (mortgageProperty b i entered).properties = b.properties ∧
      (mortgageProperty b i entered).hashedPropertyOwners = b.hashedPropertyOwners ∧
      (mortgageProperty b i entered).gameSettings = b.gameSettings ∧
      (mortgageProperty b i entered).gameStats = b.gameStats := by
    by_cases hown : cinToken entered ∈ player.propertiesOwned
    · rw [hyes hown]; exact ⟨rfl, rfl, rfl, rfl⟩
    · rw [hnot hown]; exact ⟨rfl, rfl, rfl, rfl⟩
  refine ⟨hnot, ?_, hframe.2.1, hframe.2.2.2, ?_⟩
  · intro hown
    refine ⟨hyes hown, ?_, ?_⟩
    · rw [hyes hown]
      exact ⟨_, List.getElem?_set_self hlen, rfl, rfl, rfl, rfl, rfl, rfl⟩
    · intro j hj
      rw [hyes hown]
      exact List.getElem?_set_ne (Ne.symm hj)
  · intro lander choice
    exact spaceBranch_congr b _ lander choice hframe.1 hframe.2.1 hframe.2.2.1

/-- On a board whose first player owns Boardwalk and holds 120, with property cost 100,
the mortgage of a property not owned changes nothing, the mortgage of Boardwalk leaves the
balances 170 and 1500. -/
theorem mortgageProperty_of_token_witness :
    mortgageProperty ownerBoard 0 "Park Place" = ownerBoard ∧
    balances (mortgageProperty ownerBoard 0 "Boardwalk") = [170, 1500] :=
  ⟨(mortgageProperty_of_token ownerBoard 0 ownerAccount "Park Place" rfl).1 (by decide),
    by decide⟩

/-- C13: `mortgageProperty` refuses a property the player owns when its name has a space.
In a fresh game of `H` and `A` the human rolls 1 and buys Mediterranean Avenue, holding
1400; the property cost is 100.  Entering `Mediterranean Avenue` at the mortgage prompt,
`cin >> prop` reads `Mediterranean`, which the player does not own: the board is
unchanged and the balance stays 1400, where a mortgage of an owned property adds 50.  The
same holds when the text is entered in the post-move phase of a turn. -/
theorem mortgageProperty_refuses_spaced_name :
    runTurns humanAndAI [(0, buyInput)] = some buyerBoard ∧
    buyerBoard.players[0]? = some buyerAccount ∧
    "Mediterranean Avenue" ∈ buyerAccount.propertiesOwned ∧
    Int.tdiv buyerBoard.gameSettings.propertyCost 2 = 50 ∧
    cinToken "Mediterranean Avenue" = "Mediterranean" ∧
    "Mediterranean" ∉ buyerAccount.propertiesOwned ∧
    mortgageProperty buyerBoard 0 "Mediterranean Avenue" = buyerBoard ∧
    balances buyerBoard = [1400, 1500] ∧
    balances (postMoveAction buyerBoard 0
        { passInput with actionChoice := 'm', prop := "Mediterranean Avenue" })
      = [1400, 1500] := by
  refine ⟨rfl, rfl, by decide, by decide, by decide, by decide, ?_, by decide, by decide⟩
  exact (mortgageProperty_of_token buyerBoard 0 buyerAccount "Mediterranean Avenue" rfl).1
    (by decide)

/-! ## Post-move input -/

/-- C17: for a human, non-bankrupt player every action character other than `u`, `m` and
`e` (so `s` and every invalid character) makes the post-move phase return the board
unchanged; for an AI player or a flagged player the phase returns the board unchanged
whatever the input. -/
theorem postMoveAction_noop (b : Board) (i : Nat) (player : Player) (inp : TurnInput)
    (hp : b.players[i]? = some player) :
    (player.isAI = false → player.bankrupt = false →
      inp.actionChoice ≠ 'u' → inp.actionChoice ≠ 'm' → inp.actionChoice ≠ 'e' →
      postMoveAction b i inp = b) ∧
    ((player.isAI = true ∨ player.bankrupt = true) → postMoveAction b i inp = b) := by
  refine ⟨?_, ?_⟩
  · intro hai hb hu hm he
    unfold postMoveAction
    rw [hp]
    dsimp only
    rw [if_pos ⟨hai, hb⟩, if_neg hu, if_neg hm]
    split_ifs <;> rfl
  · intro h
    unfold postMoveAction
    rw [hp]
    dsimp only
    rw [if_neg]
    rintro ⟨hai, hb⟩
    rcases h with h | h
    · rw [hai] at h; exact Bool.noConfusion h
    · rw [hb] at h; exact Bool.noConfusion h

/-- C17 on a board whose first player is human and owns Boardwalk and whose second player
is an AI: the invalid character `x` of the human and the character `u` of the AI both
leave the board unchanged. -/
theorem postMoveAction_noop_witness :
    postMoveAction ownerBoard 0 { passInput with actionChoice := 'x', prop := "Boardwalk" }
      = ownerBoard ∧
    postMoveAction ownerBoard 1 { passInput with actionChoice := 'u', prop := "Boardwalk" }
      = ownerBoard :=
  ⟨(postMoveAction_noop ownerBoard 0 ownerAccount
      { passInput with actionChoice := 'x', prop := "Boardwalk" } rfl).1
      rfl rfl (by decide) (by decide) (by decide),
   (postMoveAction_noop ownerBoard 1 (Player.new "B" 1500 0 true)
      { passInput with actionChoice := 'u', prop := "Boardwalk" } rfl).2 (Or.inl rfl)⟩

/-! ## The purchase rule of the AI -/

/-- C19: an AI player standing on a property with an empty ledger entry, with a
non-negative `propertyCost`, takes the purchase branch exactly when its balance is
strictly greater than `2 * propertyCost`; otherwise the phase is the auction of that
property on the unchanged board, with no purchase debit. -/
theorem ai_purchase_rule (b : Board) (i : Nat) (player : Player) (inp : TurnInput)
    (propertyName : String)
    (hp : b.players[i]? = some player) (hai : player.isAI = true)
    (hpos : b.properties player.position = some propertyName)
    (hfree : b.hashedPropertyOwners propertyName = "")
    (hcost : 0 ≤ b.gameSettings.propertyCost) :
    (spaceBranch b player inp.buyChoice = .purchase propertyName ↔
      player.money > 2 * b.gameSettings.propertyCost) ∧
    (player.money > 2 * b.gameSettings.propertyCost →
      spaceResolution b i inp = some (purchaseProperty b i player propertyName)) ∧
    (¬ player.money > 2 * b.gameSettings.propertyCost →
      spaceBranch b player inp.buyChoice = .auction propertyName ∧
      spaceResolution b i inp = some (auctionProperty b propertyName inp.auctionInput)) := by
  have hbuy : player.money > 2 * b.gameSettings.propertyCost →
      spaceBranch b player inp.buyChoice = .purchase propertyName := by
    intro h
    have h1 : player.money > b.gameSettings.propertyCost * 2 := by omega
    have h2 : player.money ≥ b.gameSettings.propertyCost := by omega
    simp [spaceBranch, hpos, hfree, buyDecision, hai, Player.shouldAIBuyProperty, h1, h2]
  have hauc : ¬ player.money > 2 * b.gameSettings.propertyCost →
      spaceBranch b player inp.buyChoice = .auction propertyName := by
    intro h
    have h1 : ¬ player.money > b.gameSettings.propertyCost * 2 := by omega
    simp [spaceBranch, hpos, hfree, buyDecision, hai, Player.shouldAIBuyProperty, h1]
  refine ⟨⟨?_, hbuy⟩, ?_, ?_⟩
  · intro h
    by_contra hn
    rw [hauc hn] at h
    exact SpaceBranch.noConfusion h
  · intro h
    simp [spaceResolution, hp, hbuy h]
  · intro h
    exact ⟨hauc h, by simp [spaceResolution, hp, hauc h]⟩

/-- C19 on an AI with balance 201 and property cost 100: it buys and is left with 101. -/
theorem ai_purchase_rule_witness :
    (spaceResolution richAIBoard 0 passInput).map balances = some [101] := by
  have h := (ai_purchase_rule richAIBoard 0 richAI passInput "Mediterranean Avenue"
    rfl rfl (by decide) (by decide) (by decide)).2.1 (by decide)
  rw [h]
  decide

/-! ## Random events -/

/-- C20: for every event outcome (`rand() % 3` is 0, 1 or 2), `triggerRandomEvent` changes
at most the balance of the player it is given; with random events disabled it changes
nothing; with random events enabled the balance changes by +50 for outcome 0, by -20 for
outcome 1 when the balance is above 20, and not at all otherwise.  A non-negative balance
stays non-negative. -/
theorem triggerRandomEvent_spec (s : Settings) (e : Int) (player : Player) :
    triggerRandomEvent s e player
      = { player with money := (triggerRandomEvent s e player).money } ∧
    (s.enableRandomEvents = false → triggerRandomEvent s e player = player) ∧
    (s.enableRandomEvents = true →
      (e = 0 → (triggerRandomEvent s e player).money = player.money + 50) ∧
      (e = 1 → player.money > 20 →
        (triggerRandomEvent s e player).money = player.money - 20) ∧
      (e = 1 → ¬ player.money > 20 → triggerRandomEvent s e player = player) ∧
      (e = 2 → triggerRandomEvent s e player = player)) ∧
    (0 ≤ player.money → 0 ≤ (triggerRandomEvent s e player).money) := by
  refine ⟨triggerRandomEvent_eq s e player, ?_, ?_, ?_⟩
  · intro h
    simp [triggerRandomEvent, h]
  · intro h
    refine ⟨?_, ?_, ?_, ?_⟩
    · intro h0; simp [triggerRandomEvent, h, h0]
    · intro h1 hm; simp [triggerRandomEvent, h, h1, hm]
    · intro h1 hm; simp [triggerRandomEvent, h, h1, hm]
    · intro h2; simp [triggerRandomEvent, h, h2]
  · intro hnn
    unfold triggerRandomEvent
    split_ifs
    all_goals try dsimp only
    all_goals omega

/-- C20 with random events enabled: from balance 45 the fine leaves 25, from balance 20 the
fine is not taken. -/
theorem triggerRandomEvent_spec_witness :
    (triggerRandomEvent Settings.initial 1 poorPayer).money = 25 ∧
    (triggerRandomEvent Settings.initial 1 (Player.new "P" 20 0 false)).money = 20 :=
  ⟨((triggerRandomEvent_spec Settings.initial 1 poorPayer).2.2.1 rfl).2.1 rfl (by decide),
   by decide⟩

/-! ## The single pass of the auction -/

/-- The indices consulted from index `j0` on are the indices of the unflagged players. -/
theorem mem_auctionConsulted :
    ∀ (ps : List Player) (j0 k : Nat),
      k ∈ auctionConsulted ps j0 ↔
        ∃ n p, k = j0 + n ∧ ps[n]? = some p ∧ p.bankrupt = false := by
  intro ps
  induction ps with
  | nil => intro j0 k; simp [auctionConsulted]
  | cons q qs ih =>
    intro j0 k
    have hrest : k ∈ auctionConsulted qs (j0 + 1) ↔
        ∃ n p, k = j0 + (n + 1) ∧ (q :: qs)[n + 1]? = some p ∧ p.bankrupt = false := by
      rw [ih]
      constructor
      · rintro ⟨n, p, hk, hp, hb⟩
        exact ⟨n, p, by omega, by simpa using hp, hb⟩
      · rintro ⟨n, p, hk, hp, hb⟩
        exact ⟨n, p, by omega, by simpa using hp, hb⟩
    unfold auctionConsulted
    by_cases hq : q.bankrupt = true
    · rw [if_pos hq, hrest]
      constructor
      · rintro ⟨n, p, hk, hp, hb⟩
        exact ⟨n + 1, p, hk, hp, hb⟩
      · rintro ⟨n, p, hk, hp, hb⟩
        cases n with
        | zero =>
          obtain rfl : q = p := by simpa using hp
          rw [hb] at hq
          exact Bool.noConfusion hq
        | succ n => exact ⟨n, p, hk, hp, hb⟩
    · rw [if_neg hq, List.mem_cons, hrest]
      constructor
      · rintro (rfl | ⟨n, p, hk, hp, hb⟩)
        · exact ⟨0, q, rfl, by simp, by simpa using hq⟩
        · exact ⟨n + 1, p, hk, hp, hb⟩
      · rintro ⟨n, p, hk, hp, hb⟩
        cases n with
        | zero => exact Or.inl hk
        | succ n => exact Or.inr ⟨n, p, hk, hp, hb⟩

/-- The indices are consulted in strictly increasing order. -/
theorem auctionConsulted_pairwise :
    ∀ (ps : List Player) (j0 : Nat), (auctionConsulted ps j0).Pairwise (fun x y => x < y) := by
  intro ps
  induction ps with
  | nil => intro j0; simp [auctionConsulted]
  | cons q qs ih =>
    intro j0
    unfold auctionConsulted
    split_ifs
    · exact ih (j0 + 1)
    · rw [List.pairwise_cons]
      refine ⟨?_, ih (j0 + 1)⟩
      intro k hk
      obtain ⟨n, -, hkn, -⟩ := (mem_auctionConsulted qs (j0 + 1) k).1 hk
      omega

/-- The loop reads its input at the consulted indices only. -/
theorem auctionLoop_congr (inp inp' : Nat → Int) :
    ∀ (ps : List Player) (j : Nat) (st : AuctionState),
      (∀ k ∈ auctionConsulted ps j, inp' k = inp k) →
      auctionLoop inp' ps j st = auctionLoop inp ps j st := by
  intro ps
  induction ps with
  | nil => intro j st _; rfl
  | cons q qs ih =>
    intro j st h
    have hstep : auctionStep inp' st j q = auctionStep inp st j q := by
      unfold auctionStep
      by_cases hq : q.bankrupt = true
      · rw [if_pos hq, if_pos hq]
      · have hj : inp' j = inp j := h j (by simp [auctionConsulted, hq])
        rw [hj]
    rw [auctionLoop, auctionLoop, hstep]
    apply ih
    intro k hk
    apply h
    unfold auctionConsulted
    split_ifs
    · exact hk
    · exact List.mem_cons_of_mem _ hk

/-- One logged iteration is the iteration of the loop, and it logs the index of the player
exactly when the flag is unset. -/
theorem auctionStepLogged_eq (inp : Nat → Int) (st : AuctionState) (j : Nat) (p : Player) :
    auctionStepLogged inp st j p
      = (auctionStep inp st j p, if p.bankrupt = true then [] else [j]) := by
  unfold auctionStepLogged auctionStep
  split_ifs <;> rfl

/-- The logged loop computes the locals of the loop, and appends to its log the indices of
the unflagged players in list order. -/
theorem auctionLoopLogged_eq (inp : Nat → Int) :
    ∀ (ps : List Player) (j : Nat) (st : AuctionState) (log : List Nat),
      auctionLoopLogged inp ps j st log
        = (auctionLoop inp ps j st, log ++ auctionConsulted ps j) := by
  intro ps
  induction ps with
  | nil => intro j st log; simp [auctionLoopLogged, auctionLoop, auctionConsulted]
  | cons q qs ih =>
    intro j st log
    rw [auctionLoopLogged, ih, auctionStepLogged_eq, auctionLoop, auctionConsulted]
    by_cases hq : q.bankrupt = true
    · simp [hq]
    · simp [hq]

/-- C16: for every player list and all inputs the function `auctionProperty` is total (its
loop is one pass over the list).  The loop, logged at each draw of `rand()` and each read
of a bid, computes the locals that `auctionProperty` settles on, and its log holds exactly
the list indices of the unflagged players, each once and in list order, and no index of a
flagged player; the result does not depend on any input at another index; and the result
is either the unchanged board or the board of one settlement, after which no locals
change. -/
theorem auctionProperty_single_pass (b : Board) (propertyName : String) (inp : Nat → Int) :
    (auctionLoopLogged inp b.players 0 AuctionState.initial []).1
      = auctionLoop inp b.players 0 AuctionState.initial ∧
    (auctionLoopLogged inp b.players 0 AuctionState.initial []).2
      = auctionConsulted b.players 0 ∧
    (∀ k, k ∈ (auctionLoopLogged inp b.players 0 AuctionState.initial []).2 ↔
      ∃ p, b.players[k]? = some p ∧ p.bankrupt = false) ∧
    (auctionLoopLogged inp b.players 0 AuctionState.initial []).2.Pairwise
      (fun x y => x < y) ∧
    (auctionLoopLogged inp b.players 0 AuctionState.initial []).2.Nodup ∧
    (∀ k, k ∈ auctionConsulted b.players 0 ↔
      ∃ p, b.players[k]? = some p ∧ p.bankrupt = false) ∧
    (auctionConsulted b.players 0).Pairwise (fun x y => x < y) ∧
    (∀ inp' : Nat → Int, (∀ k ∈ auctionConsulted b.players 0, inp' k = inp k) →
      auctionProperty b propertyName inp' = auctionProperty b propertyName inp) ∧
    (auctionProperty b propertyName inp = b ∨
      ∃ (w : Nat) (winner : Player),
        b.players[w]? = some winner ∧
        auctionProperty b propertyName inp =
          { b with
            players := b.players.set w
              { winner with
                money := winner.money
                  - (auctionLoop inp b.players 0 AuctionState.initial).currentBid
                propertiesOwned := winner.propertiesOwned.insert propertyName }
            hashedPropertyOwners := mapSet b.hashedPropertyOwners propertyName
              (auctionLoop inp b.players 0 AuctionState.initial).highestBidder
            gameStats := b.gameStats.recordPropertyBought }) := by
  have hmem : ∀ k, k ∈ auctionConsulted b.players 0 ↔
      ∃ p, b.players[k]? = some p ∧ p.bankrupt = false := by
    intro k
    rw [mem_auctionConsulted]
    constructor
    · rintro ⟨n, p, hk, hp, hb⟩
      obtain rfl : k = n := by omega
      exact ⟨p, hp, hb⟩
    · rintro ⟨p, hp, hb⟩
      exact ⟨k, p, by omega, hp, hb⟩
  have hlog : (auctionLoopLogged inp b.players 0 AuctionState.initial []).2
      = auctionConsulted b.players 0 := by
    rw [auctionLoopLogged_eq, List.nil_append]
  refine ⟨?_, hlog, ?_, ?_, ?_, hmem, auctionConsulted_pairwise b.players 0, ?_, ?_⟩
  · rw [auctionLoopLogged_eq]
  · rw [hlog]; exact hmem
  · rw [hlog]; exact auctionConsulted_pairwise b.players 0
  · rw [hlog]
    exact (auctionConsulted_pairwise b.players 0).imp (fun h => Nat.ne_of_lt h)
  · intro inp' h
    unfold auctionProperty
    rw [auctionLoop_congr inp inp' b.players 0 AuctionState.initial h]
  · unfold auctionProperty
    dsimp only
    split_ifs
    · cases hf : findPlayer (auctionLoop inp b.players 0 AuctionState.initial).highestBidder
          b.players with
      | none => exact Or.inl rfl
      | some w =>
        obtain ⟨p, hp, -⟩ := findPlayer_some _ _ _ hf
        right
        exact ⟨w, p, hp, by simp only [hp]⟩
    · exact Or.inl rfl

/-! ## Improvement counts of owned properties -/

/-- C15, evaluated: in a fresh game of a human and an AI the human rolls 1, declines
Mediterranean Avenue and wins its auction with a bid of 10.  The property is in the
human's owned set but the human's `propertyUpgrades` has no entry for it, so the lookup
`propertyUpgrades.at(prop)` of `displayPlayerStats` throws; after a purchase of the same
property the entry is `0` and the lookup succeeds. -/
theorem auction_win_records_no_count :
    (handleTurn humanAndAI 0 auctionWinInput).map
        (fun b => b.players.map
          (fun p => (p.name, p.money, p.propertiesOwned,
            p.propertyUpgrades "Mediterranean Avenue")))
      = some [("H", 1490, ["Mediterranean Avenue"], none), ("A", 1500, [], none)] ∧
    (handleTurn humanAndAI 0 auctionWinInput).map
        (fun b => b.players.map Player.displayPlayerStats)
      = some [none, some []] ∧
    (handleTurn humanAndAI 0 auctionWinInput).map displayAllPlayers = some none ∧
    (handleTurn humanAndAI 0 buyInput).map displayAllPlayers
      = some (some [[("Mediterranean Avenue", 0)], []]) := by
  refine ⟨by decide, by decide, by decide, by decide⟩

/-! ## Ledger permanence -/

/-- An elementary change keeps every non-empty ledger entry. -/
theorem step_ledgerKept {b b' : Board} (h : Step b b') (propertyName : String)
    (howned : b.hashedPropertyOwners propertyName ≠ "") :
    b'.hashedPropertyOwners propertyName = b.hashedPropertyOwners propertyName := by
  cases h with
  | stats s g => rfl
  | touch i p m x f hp => rfl
  | upgrade i p prop hp hown => rfl
  | purchase i p q hp hfree =>
    have hne : propertyName ≠ q := fun e => howned (e ▸ hfree)
    simp [purchaseProperty, mapSet, hne]
  | auctionWin w winner q bid hw hfree hname =>
    have hne : propertyName ≠ q := fun e => howned (e ▸ hfree)
    simp [mapSet, hne]
  | remove => rfl

/-- A sequence of elementary changes keeps every non-empty ledger entry. -/
theorem steps_ledgerKept {b b' : Board} (h : Steps b b') (propertyName : String)
    (howned : b.hashedPropertyOwners propertyName ≠ "") :
    b'.hashedPropertyOwners propertyName = b.hashedPropertyOwners propertyName := by
  induction h with
  | refl => rfl
  | tail _ hs ih =>
    rw [← ih]
    exact step_ledgerKept hs propertyName (by rw [ih]; exact howned)

/-- C14 as stated fails for `auctionProperty` called on a property that has an owner: on
the board reached when the human has bought Mediterranean Avenue, an auction of that
property in which the AI raises overwrites the ledger entry `H` by `A`, and both players
then hold the property. -/
theorem auctionProperty_overwrites_owner :
    runTurns humanAndAI [(0, buyInput)] = some buyerBoard ∧
    buyerBoard.hashedPropertyOwners "Mediterranean Avenue" = "H" ∧
    (auctionProperty buyerBoard "Mediterranean Avenue" aiRaises).hashedPropertyOwners
      "Mediterranean Avenue" = "A" ∧
    (auctionProperty buyerBoard "Mediterranean Avenue" aiRaises).players.map
        (fun p => (p.name, p.propertiesOwned))
      = [("H", ["Mediterranean Avenue"]), ("A", ["Mediterranean Avenue"])] := by
  refine ⟨rfl, by decide, by decide, by decide⟩

/-- C14, amended: a ledger entry that names a non-empty owner is the same after every
returning `handleTurn`, whatever the inputs, after every returning sequence of turns (so
also after the owner has been removed from the list), after `auctionProperty` on any other
property, after `upgradeProperty`, `mortgageProperty` and
`checkAndRemoveBankruptPlayers`; and no player landing anywhere is offered that property
for purchase or auction. -/
theorem ledger_permanence (b : Board) (propertyName : String)
    (howned : b.hashedPropertyOwners propertyName ≠ "") :
    (∀ (i : Nat) (inp : TurnInput) (b' : Board), handleTurn b i inp = some b' →
      b'.hashedPropertyOwners propertyName = b.hashedPropertyOwners propertyName) ∧
    (∀ (turns : List (Nat × TurnInput)) (b' : Board), runTurns b turns = some b' →
      b'.hashedPropertyOwners propertyName = b.hashedPropertyOwners propertyName) ∧
    (∀ (other : String) (inp : Nat → Int), other ≠ propertyName →
      (auctionProperty b other inp).hashedPropertyOwners propertyName
        = b.hashedPropertyOwners propertyName) ∧
    (∀ (i : Nat) (prop : String),
      (upgradeProperty b i prop).hashedPropertyOwners propertyName
        = b.hashedPropertyOwners propertyName ∧
      (mortgageProperty b i prop).hashedPropertyOwners propertyName
        = b.hashedPropertyOwners propertyName) ∧
    (checkAndRemoveBankruptPlayers b).hashedPropertyOwners propertyName
      = b.hashedPropertyOwners propertyName ∧
    (∀ (lander : Player) (choice : Char),
      spaceBranch b lander choice ≠ .purchase propertyName ∧
      spaceBranch b lander choice ≠ .auction propertyName) := by
  refine ⟨?_, ?_, ?_, ?_, rfl, ?_⟩
  · intro i inp b' h
    exact steps_ledgerKept (handleTurn_steps b i inp b' h) propertyName howned
  · intro turns b' h
    exact steps_ledgerKept (runTurns_steps turns b b' h) propertyName howned
  · intro other inp hne
    rcases auctionProperty_cases b other inp with h | ⟨w, winner, bid, -, -, h⟩
    · rw [h]
    · rw [h]
      simp [mapSet, Ne.symm hne]
  · intro i prop
    constructor
    · unfold upgradeProperty
      cases b.players[i]? with
      | none => rfl
      | some player =>
        dsimp only
        split_ifs <;> rfl
    · unfold mortgageProperty
      cases b.players[i]? with
      | none => rfl
      | some player =>
        dsimp only
        split_ifs <;> rfl
  · intro lander choice
    have hspec := spaceBranch_spec b lander choice
    constructor
    · intro h
      rw [h] at hspec
      exact howned hspec.2.1
    · intro h
      rw [h] at hspec
      exact howned hspec.2.1

/-- C14, amended, on the game in which the AI wins Mediterranean Avenue with a bid above
its balance and is removed at the end of its own turn: the ledger still names it. -/
theorem ledger_permanence_witness :
    (runTurns threePlayers [(0, { passInput with auctionInput := overbidInput })]).map
        (fun b => b.hashedPropertyOwners "Mediterranean Avenue") = some "A" ∧
    orphanBoard.players.map Player.name = ["H1", "H2"] ∧
    orphanBoard.hashedPropertyOwners "Mediterranean Avenue" = "A" := by
  have h := (ledger_permanence
    ((runTurns threePlayers [(0, { passInput with auctionInput := overbidInput })]).getD
      Board.new)
    "Mediterranean Avenue" (by decide)).2.1 [(1, { passInput with roll := 2 })] orphanBoard rfl
  refine ⟨by decide, by decide, ?_⟩
  rw [h]
  decide

/-! ## Positions -/

/-- Overwriting a player by one with the same value of a field keeps the list of the
values of that field. -/
theorem map_set_of_eq {β : Type} (f : Player → β) (l : List Player) (i : Nat) (p a : Player)
    (hp : l[i]? = some p) (h : f a = f p) : (l.set i a).map f = l.map f := by
  apply List.ext_getElem?
  intro j
  rw [List.getElem?_map, List.getElem?_map, List.getElem?_set]
  by_cases hij : i = j
  · subst hij
    have hlen : i < l.length := (List.getElem?_eq_some.1 hp).1
    simp [hlen, hp, h]
  · simp [hij]

/-- The auction moves nobody. -/
theorem auctionProperty_positions (b : Board) (propertyName : String) (inp : Nat → Int) :
    (auctionProperty b propertyName inp).players.map Player.position
      = b.players.map Player.position := by
  rcases auctionProperty_cases b propertyName inp with h | ⟨w, winner, bid, hw, -, h⟩
  · rw [h]
  · rw [h]
    exact map_set_of_eq Player.position b.players w winner _ hw rfl

/-- The credit to the owner moves nobody. -/
theorem creditOwner_positions (b : Board) (propertyName : String) (rent : Int) :
    (creditOwner b propertyName rent).players.map Player.position
      = b.players.map Player.position := by
  rcases creditOwner_cases b propertyName rent with ⟨-, h⟩ | ⟨j, owner, -, hj, -, h⟩
  · rw [h]
  · rw [h]
    exact map_set_of_eq Player.position b.players j owner _ hj rfl

/-- The bankruptcy check of the rent branch moves nobody. -/
theorem markBankruptAfterRent_positions (b : Board) (i : Nat) :
    (markBankruptAfterRent b i).players.map Player.position
      = b.players.map Player.position := by
  unfold markBankruptAfterRent
  cases hp : b.players[i]? with
  | none => rfl
  | some player =>
    dsimp only
    split_ifs
    · exact map_set_of_eq Player.position b.players i player _ hp rfl
    · rfl

/-- The space-resolution phase moves nobody. -/
theorem spaceResolution_positions (b : Board) (i : Nat) (inp : TurnInput) (b3 : Board)
    (hret : spaceResolution b i inp = some b3) :
    b3.players.map Player.position = b.players.map Player.position := by
  unfold spaceResolution at hret
  cases hp : b.players[i]? with
  | none => rw [hp] at hret; simp at hret
  | some player =>
    rw [hp] at hret
    dsimp only at hret
    cases hbr : spaceBranch b player inp.buyChoice with
    | nonProperty =>
      rw [hbr] at hret
      obtain rfl : b = b3 := by simpa using hret
      rfl
    | ownedBySelf propertyName =>
      rw [hbr] at hret
      obtain rfl : b = b3 := by simpa using hret
      rfl
    | purchase propertyName =>
      rw [hbr] at hret
      obtain rfl : purchaseProperty b i player propertyName = b3 := by simpa using hret
      exact map_set_of_eq Player.position b.players i player _ hp rfl
    | auction propertyName =>
      rw [hbr] at hret
      obtain rfl : auctionProperty b propertyName inp.auctionInput = b3 := by simpa using hret
      exact auctionProperty_positions b propertyName inp.auctionInput
    | rent propertyName =>
      rw [hbr] at hret
      dsimp only at hret
      unfold payRent at hret
      cases hr : rentDue b player propertyName with
      | none => rw [hr] at hret; simp at hret
      | some rent =>
        rw [hr] at hret
        obtain rfl : markBankruptAfterRent (rentTransfer b i player propertyName rent) i = b3 := by
          simpa using hret
        rw [markBankruptAfterRent_positions]
        unfold rentTransfer
        rw [creditOwner_positions]
        exact map_set_of_eq Player.position b.players i player _ hp rfl

/-- The post-move phase moves nobody. -/
theorem postMoveAction_positions (b : Board) (i : Nat) (inp : TurnInput) :
    (postMoveAction b i inp).players.map Player.position
      = b.players.map Player.position := by
  unfold postMoveAction
  cases hp : b.players[i]? with
  | none => rfl
  | some player =>
    dsimp only
    split_ifs
    · unfold upgradeProperty
      rw [hp]
      dsimp only
      split_ifs
      all_goals first
        | rfl
        | exact map_set_of_eq Player.position b.players i player _ hp rfl
    · unfold mortgageProperty
      rw [hp]
      dsimp only
      split_ifs
      all_goals first
        | rfl
        | exact map_set_of_eq Player.position b.players i player _ hp rfl
    all_goals rfl

/-- The last bankruptcy check moves nobody. -/
theorem finalBankruptcyCheck_positions (b : Board) (i : Nat) :
    (finalBankruptcyCheck b i).players.map Player.position
      = b.players.map Player.position := by
  unfold finalBankruptcyCheck
  cases hp : b.players[i]? with
  | none => rfl
  | some player =>
    dsimp only
    split_ifs
    · exact map_set_of_eq Player.position b.players i player _ hp rfl
    · rfl

/-- The phases of a turn move the acting player by the roll, modulo 40, and nobody else. -/
theorem turnPhases_positions (b : Board) (i : Nat) (player : Player) (inp : TurnInput)
    (b' : Board) (hret : turnPhases b i player inp = some b') :
    b'.players.map Player.position
      = (b.players.map Player.position).set i (Int.tmod (player.position + inp.roll) 40) := by
  unfold turnPhases at hret
  cases hs : spaceResolution (moveStart b i player inp) i inp with
  | none => rw [hs] at hret; simp at hret
  | some b3 =>
    rw [hs] at hret
    obtain rfl : finalBankruptcyCheck (postMoveAction b3 i inp) i = b' := by simpa using hret
    rw [finalBankruptcyCheck_positions, postMoveAction_positions,
      spaceResolution_positions _ i inp b3 hs]
    obtain ⟨-, -, -, -, -, hpos⟩ := triggerRandomEvent_frame b.gameSettings inp.eventType player
    show (b.players.set i _).map Player.position = _
    rw [List.map_set]
    show (b.players.map Player.position).set i
      (Int.tmod ((triggerRandomEvent b.gameSettings inp.eventType player).position + inp.roll) 40)
        = _
    rw [hpos]

/-- A turn with a die roll in 1, ..., 6 keeps all positions in 0, ..., 39. -/
theorem handleTurn_positions (b : Board) (i : Nat) (inp : TurnInput) (b' : Board)
    (hroll : 1 ≤ inp.roll ∧ inp.roll ≤ 6)
    (hinv : ∀ x ∈ b.players.map Player.position, 0 ≤ x ∧ x ≤ 39)
    (hret : handleTurn b i inp = some b') :
    ∀ x ∈ b'.players.map Player.position, 0 ≤ x ∧ x ≤ 39 := by
  unfold handleTurn at hret
  cases hp : b.players[i]? with
  | none => rw [hp] at hret; simp at hret
  | some player =>
    rw [hp] at hret
    dsimp only at hret
    split_ifs at hret with hb
    · obtain rfl : b = b' := by simpa using hret
      exact hinv
    · cases ht : turnPhases b i player inp with
      | none => rw [ht] at hret; simp at hret
      | some b4 =>
        rw [ht] at hret
        obtain rfl : checkAndRemoveBankruptPlayers b4 = b' := by simpa using hret
        have hpos := turnPhases_positions b i player inp b4 ht
        have hpl : 0 ≤ player.position ∧ player.position ≤ 39 :=
          hinv _ (List.mem_map_of_mem Player.position (List.mem_iff_getElem?.2 ⟨i, hp⟩))
        intro x hx
        have hx4 : x ∈ b4.players.map Player.position := by
          obtain ⟨p, hpm, rfl⟩ := List.mem_map.1 hx
          exact List.mem_map_of_mem Player.position (List.mem_filter.1 hpm).1
        rw [hpos] at hx4
        rcases List.mem_or_eq_of_mem_set hx4 with h | h
        · exact hinv x h
        · rw [h, Int.tmod_eq_emod (by omega) (by decide)]
          omega

/-- C18: on every board reached from a fresh board by `addPlayer` and turns with rolls
in 1..6 every position is in 0..39.  On a board whose recorded counts are non-negative
(every reachable board is one) a turn of an unflagged player standing on `p` in 0..39 with
a roll `r` in 1..6 returns, the player's position when `checkAndRemoveBankruptPlayers` is
called is `(p + r) mod 40`, and no other position has changed. -/
theorem positions_in_range (roster : List (String × Bool)) (turns : List (Nat × TurnInput))
    (b : Board) (hrolls : ValidRolls turns)
    (hrun : runTurns (addPlayers Board.new roster) turns = some b) :
    (∀ p ∈ b.players, 0 ≤ p.position ∧ p.position ≤ 39) ∧
    (∀ (b0 : Board) (i : Nat) (player : Player) (inp : TurnInput),
      b0.players[i]? = some player → player.bankrupt = false → UpgradesNonneg b0 →
      0 ≤ player.position → player.position ≤ 39 → 1 ≤ inp.roll → inp.roll ≤ 6 →
      ∃ b1, turnPhases b0 i player inp = some b1 ∧
        handleTurn b0 i inp = some (checkAndRemoveBankruptPlayers b1) ∧
        (∃ p1, b1.players[i]? = some p1 ∧
          p1.position = (player.position + inp.roll) % 40) ∧
        (∀ j, j ≠ i → (b1.players.map Player.position)[j]?
          = (b0.players.map Player.position)[j]?)) := by
  refine ⟨?_, ?_⟩
  · have key : ∀ (ts : List (Nat × TurnInput)) (c c' : Board), ValidRolls ts →
        (∀ x ∈ c.players.map Player.position, 0 ≤ x ∧ x ≤ 39) →
        runTurns c ts = some c' →
        ∀ x ∈ c'.players.map Player.position, 0 ≤ x ∧ x ≤ 39 := by
      intro ts
      induction ts with
      | nil =>
        intro c c' _ hinv h
        obtain rfl : c = c' := by simpa [runTurns] using h
        exact hinv
      | cons t ts ih =>
        intro c c' hv hinv h
        unfold runTurns at h
        cases ht : handleTurn c t.1 t.2 with
        | none => rw [ht] at h; simp at h
        | some c1 =>
          rw [ht] at h
          exact ih c1 c' (fun u hu => hv u (List.mem_cons_of_mem _ hu))
            (handleTurn_positions c t.1 t.2 c1 (hv t (List.mem_cons_self _ _)) hinv ht) h
    have hstart : ∀ x ∈ (addPlayers Board.new roster).players.map Player.position,
        0 ≤ x ∧ x ≤ 39 := by
      intro x hx
      rw [addPlayers_new_players, List.map_map] at hx
      obtain ⟨e, -, rfl⟩ := List.mem_map.1 hx
      simp [Player.new]
    intro p hp
    exact key turns _ b hrolls hstart hrun _ (List.mem_map_of_mem Player.position hp)
  · intro b0 i player inp hp hnb hun hlo hhi hr1 hr6
    obtain ⟨b1, hret⟩ := turnPhases_returns b0 i player inp hp hun
    have hpos := turnPhases_positions b0 i player inp b1 hret
    have hlen : i < (b0.players.map Player.position).length := by
      rw [List.length_map]; exact (List.getElem?_eq_some.1 hp).1
    refine ⟨b1, hret, ?_, ?_, ?_⟩
    · simp [handleTurn, hp, hnb, hret]
    · have hi : (b1.players.map Player.position)[i]?
          = some (Int.tmod (player.position + inp.roll) 40) := by
        rw [hpos]; exact List.getElem?_set_self hlen
      rw [List.getElem?_map] at hi
      cases h1 : b1.players[i]? with
      | none => rw [h1] at hi; simp at hi
      | some p1 =>
        rw [h1] at hi
        refine ⟨p1, rfl, ?_⟩
        have : p1.position = Int.tmod (player.position + inp.roll) 40 := by simpa using hi
        rw [this, Int.tmod_eq_emod (by omega) (by decide)]
    · intro j hj
      rw [hpos]
      exact List.getElem?_set_ne (Ne.symm hj)

/-- C18 on the game in which the first player rolls 6 and then 5: the positions are 11 and
0; and a player on position 38 who rolls 3 ends on position 1. -/
theorem positions_in_range_witness :
    walkBoard.players.map Player.position = [11, 0] ∧
    (0 : Int) ≤ 11 ∧ (11 : Int) ≤ 39 ∧
    (turnPhases lastLapBoard 0 (Player.new "H" 1500 38 false) payerInput).map
        (fun b => b.players.map Player.position) = some [1] ∧
    (handleTurn lastLapBoard 0 payerInput).map
        (fun b => b.players.map Player.position) = some [1] := by
  have h := positions_in_range [("H", false), ("A", true)] walkTurns walkBoard
    (by
      intro t ht
      simp only [walkTurns, List.mem_cons, List.mem_singleton, List.not_mem_nil, or_false] at ht
      rcases ht with rfl | rfl <;> exact ⟨by decide, by decide⟩)
    rfl
  have h11 := h.1 { Player.new "H" 1500 0 false with position := 11 }
    (List.mem_iff_getElem?.2 ⟨0, rfl⟩)
  exact ⟨by decide, h11.1, h11.2, by decide, by decide⟩

/-! ## Solvency -/

/-- C21, evaluated: in the first turn of a fresh game (starting money 1500) the human rolls
1, declines Mediterranean Avenue and bids 1499; the AI, not the acting player, raises to
1504 and wins.  When the turn is complete the AI is still in the list, its flag is unset
and its balance is -4. -/
theorem unflagged_player_with_negative_balance :
    humanAndAI.players.map (fun p => (p.name, p.money, p.bankrupt))
      = [("H", 1500, false), ("A", 1500, false)] ∧
    (handleTurn humanAndAI 0 { passInput with auctionInput := overbidInput }).map
        (fun b => b.players.map (fun p => (p.name, p.money, p.bankrupt)))
      = some [("H", 1500, false), ("A", -4, false)] := by
  refine ⟨by decide, by decide⟩

/-! ## Termination of the rent recursion -/

/-- With no more calls allowed than the improvement count, the recursion does not reach
its base case. -/
theorem calculateRentFuel_none_of_le (property : String) (baseRent multiplier : Int) :
    ∀ (fuel k : Nat), fuel ≤ k →
      calculateRentFuel fuel property baseRent (k : Int) multiplier = none := by
  intro fuel
  induction fuel with
  | zero => intro k _; rfl
  | succ f ih =>
    intro k hk
    obtain ⟨k', rfl⟩ : ∃ k', k = k' + 1 := ⟨k - 1, by omega⟩
    have hne : ((k' + 1 : Nat) : Int) ≠ 0 := by omega
    have hpred : ((k' + 1 : Nat) : Int) - 1 = (k' : Int) := by omega
    rw [calculateRentFuel, if_neg hne, hpred, ih k' (by omega)]
    rfl

/-- C22: on every board reachable from a fresh board by `addPlayer` and `handleTurn` every
recorded improvement count is non-negative; the count `upgrades` that the rent branch of a
turn passes to `calculateRent` is therefore non-negative, the call returns, and it needs
exactly `upgrades` recursive calls: `upgrades + 1` calls reach the base case and
`upgrades` calls do not. -/
theorem reachable_rent_terminates (roster : List (String × Bool)) (b : Board) (i : Nat)
    (player : Player) (inp : TurnInput) (p2 : Player) (propertyName : String)
    (hr : Reachable roster b) (hp : b.players[i]? = some player)
    (hp2 : (moveStart b i player inp).players[i]? = some p2) :
    (∀ p ∈ b.players, ∀ q u, p.propertyUpgrades q = some u → 0 ≤ u) ∧
    0 ≤ rentUpgrades (moveStart b i player inp) p2 propertyName ∧
    (∃ r, rentDue (moveStart b i player inp) p2 propertyName = some r) ∧
    (∃ r, calculateRentFuel
        ((rentUpgrades (moveStart b i player inp) p2 propertyName).toNat + 1) propertyName
        ((moveStart b i player inp).rentPrices propertyName)
        (rentUpgrades (moveStart b i player inp) p2 propertyName)
        (moveStart b i player inp).gameSettings.rentMultiplier = some r) ∧
    calculateRentFuel
        (rentUpgrades (moveStart b i player inp) p2 propertyName).toNat propertyName
        ((moveStart b i player inp).rentPrices propertyName)
        (rentUpgrades (moveStart b i player inp) p2 propertyName)
        (moveStart b i player inp).gameSettings.rentMultiplier = none := by
  have hun := reachable_upgradesNonneg hr
  have hun2 : UpgradesNonneg (moveStart b i player inp) :=
    steps_upgradesNonneg (moveStart_steps b i player inp hp) hun
  have hnn := rentUpgrades_nonneg (moveStart b i player inp) p2 propertyName hun2
    (List.mem_iff_getElem?.2 ⟨i, hp2⟩)
  refine ⟨hun, hnn, ⟨_, calculateRent_of_nonneg _ _ _ _ hnn⟩,
    ⟨_, calculateRentFuel_of_nonneg _ _ _ _ hnn _ (Nat.lt_succ_self _)⟩, ?_⟩
  have hcast : (((rentUpgrades (moveStart b i player inp) p2 propertyName).toNat : Nat) : Int)
      = rentUpgrades (moveStart b i player inp) p2 propertyName := Int.toNat_of_nonneg hnn
  have h := calculateRentFuel_none_of_le propertyName
    ((moveStart b i player inp).rentPrices propertyName)
    (moveStart b i player inp).gameSettings.rentMultiplier
    (rentUpgrades (moveStart b i player inp) p2 propertyName).toNat
    (rentUpgrades (moveStart b i player inp) p2 propertyName).toNat (le_refl _)
  rwa [hcast] at h

/-- C22 on the board where the owner holds Boardwalk with two improvements and the payer
lands on it: the count is 2, three calls return the rent 250, two calls do not return. -/
theorem reachable_rent_terminates_witness :
    rentUpgrades (moveStart upgradedBoard 1 payerAccount payerInput)
      payerLanded "Boardwalk" = 2 ∧
    calculateRentFuel 3 "Boardwalk" 50 2 2 = some 250 ∧
    calculateRentFuel
        (rentUpgrades (moveStart upgradedBoard 1 payerAccount payerInput)
          payerLanded "Boardwalk").toNat "Boardwalk"
        ((moveStart upgradedBoard 1 payerAccount payerInput).rentPrices "Boardwalk")
        (rentUpgrades (moveStart upgradedBoard 1 payerAccount payerInput)
          payerLanded "Boardwalk")
        (moveStart upgradedBoard 1 payerAccount payerInput).gameSettings.rentMultiplier
      = none :=
  ⟨by decide, by decide,
    (reachable_rent_terminates ownerAndPayer upgradedBoard 1 payerAccount
      payerInput payerLanded "Boardwalk" ⟨twoUpgradeTurns, rfl⟩ rfl rfl).2.2.2.2⟩

/-! ## The board graph -/

/-- C23, evaluated: the constructor's loop `for (int i = 0; i < 39; ++i)` gives every
position 0, ..., 38 the one successor `i + 1` and gives position 39 no adjacency list at
all, so `displayConnectionsFrom(39)` prints `(none)`; position 39 is Boardwalk, and a
player on position 38 who rolls 1 stands on it. -/
theorem boardGraph_has_no_edge_from_39 :
    (∀ i ∈ List.range 39, Board.new.boardGraph.adjList (i : Int) = some [(i : Int) + 1]) ∧
    Board.new.boardGraph.adjList 39 = none ∧
    Board.new.boardGraph.displayConnectionsFrom 39 = none ∧
    Board.new.boardGraph.displayConnectionsFrom 38 = some [39] ∧
    Board.new.properties 39 = some "Boardwalk" ∧
    (turnPhases lastLapBoard 0 (Player.new "H" 1500 38 false) passInput).map
        (fun b => b.players.map
          (fun p => (p.position, b.boardGraph.displayConnectionsFrom p.position)))
      = some [(39, none)] := by
  refine ⟨by decide, by decide, by decide, by decide, by decide, by decide⟩

/-! ## The counter of properties bought -/

/-- The names of the property table are pairwise distinct. -/
theorem propertyNames_nodup : propertyNames.Nodup := by decide

/-- A property of a fresh board is one of the names of the table. -/
theorem new_properties_mem (pos : Int) (propertyName : String)
    (h : Board.new.properties pos = some propertyName) : propertyName ∈ propertyNames := by
  change (propertyTable.find? (fun e => e.1 = pos)).map (fun e => e.2) = some propertyName at h
  cases hf : propertyTable.find? (fun e => e.1 = pos) with
  | none => rw [hf] at h; simp at h
  | some e =>
    rw [hf] at h
    have he : e.2 = propertyName := by simpa using h
    rw [← he]
    exact List.mem_map_of_mem Prod.snd (List.mem_of_find?_eq_some hf)

/-- Writing a non-empty owner at an empty entry of a duplicate-free list of names raises
the number of non-empty entries by one. -/
theorem countP_mapSet (ledger : String → String) (propertyName v : String) (hv : v ≠ "")
    (hfree : ledger propertyName = "") :
    ∀ (names : List String), names.Nodup → propertyName ∈ names →
      names.countP (fun q => decide (mapSet ledger propertyName v q ≠ ""))
        = names.countP (fun q => decide (ledger q ≠ "")) + 1 := by
  intro names
  induction names with
  | nil => intro _ h; simp at h
  | cons a rest ih =>
    intro hnd hmem
    rw [List.nodup_cons] at hnd
    by_cases ha : a = propertyName
    · subst ha
      have hrest : rest.countP (fun q => decide (mapSet ledger a v q ≠ ""))
          = rest.countP (fun q => decide (ledger q ≠ "")) := by
        apply List.countP_congr
        intro q hq
        have hqa : q ≠ a := fun e => hnd.1 (e ▸ hq)
        simp [mapSet, hqa]
      rw [List.countP_cons, List.countP_cons, hrest]
      simp [mapSet, hv, hfree]
    · have hmem' : propertyName ∈ rest := by
        rcases List.mem_cons.1 hmem with h | h
        · exact absurd h.symm ha
        · exact h
      rw [List.countP_cons, List.countP_cons, ih hnd.2 hmem']
      simp [mapSet, ha]
      omega

/-- A change that leaves the ledger and the counter alone keeps them in agreement. -/
theorem counted_of_same (b b' : Board)
    (hled : b'.hashedPropertyOwners = b.hashedPropertyOwners)
    (htot : b'.gameStats.totalPropertiesBought = b.gameStats.totalPropertiesBought)
    (h : Counted b) : Counted b' := by
  unfold Counted ownedCount at *
  rw [hled, htot]
  exact h

/-- An acquisition of a board property with an empty entry by a non-empty name, counted
once, keeps the ledger and the counter in agreement. -/
theorem counted_of_acquire (b b' : Board) (propertyName v : String)
    (hmem : propertyName ∈ propertyNames) (hfree : b.hashedPropertyOwners propertyName = "")
    (hv : v ≠ "")
    (hled : b'.hashedPropertyOwners = mapSet b.hashedPropertyOwners propertyName v)
    (htot : b'.gameStats.totalPropertiesBought = b.gameStats.totalPropertiesBought + 1)
    (h : Counted b) : Counted b' := by
  refine ⟨?_, ?_⟩
  · unfold ownedCount
    rw [htot, hled, countP_mapSet _ _ _ hv hfree propertyNames propertyNames_nodup hmem, h.1]
    unfold ownedCount
    push_cast
    rfl
  · intro q hq
    rw [hled] at hq
    by_cases hqp : q = propertyName
    · rw [hqp]; exact hmem
    · exact h.2 q (by simpa [mapSet, hqp] using hq)

/-- Each elementary change keeps the names non-empty. -/
theorem step_allNamed {b b' : Board} (h : Step b b') (hinv : AllNamed b) : AllNamed b' := by
  cases h with
  | stats s g => exact hinv
  | touch i p m x f hp =>
    intro q hq
    rcases List.mem_or_eq_of_mem_set hq with h | h
    · exact hinv q h
    · rw [h]; exact hinv p (List.mem_iff_getElem?.2 ⟨i, hp⟩)
  | upgrade i p prop hp hown =>
    intro q hq
    rcases List.mem_or_eq_of_mem_set hq with h | h
    · exact hinv q h
    · rw [h]; exact hinv p (List.mem_iff_getElem?.2 ⟨i, hp⟩)
  | purchase i p propertyName hp hfree =>
    intro q hq
    rcases List.mem_or_eq_of_mem_set hq with h | h
    · exact hinv q h
    · rw [h]; exact hinv p (List.mem_iff_getElem?.2 ⟨i, hp⟩)
  | auctionWin w winner propertyName bid hw hfree hname =>
    intro q hq
    rcases List.mem_or_eq_of_mem_set hq with h | h
    · exact hinv q h
    · rw [h]; exact hname
  | remove =>
    intro q hq
    exact hinv q (List.mem_filter.1 hq).1

/-- A sequence of elementary changes keeps the names non-empty. -/
theorem steps_allNamed {b b' : Board} (h : Steps b b') (hinv : AllNamed b) : AllNamed b' := by
  induction h with
  | refl => exact hinv
  | tail _ hs ih => exact step_allNamed hs ih

/-- The credit to the owner leaves the ledger and the statistics alone. -/
theorem creditOwner_ledger_stats (b : Board) (propertyName : String) (rent : Int) :
    (creditOwner b propertyName rent).hashedPropertyOwners = b.hashedPropertyOwners ∧
    (creditOwner b propertyName rent).gameStats = b.gameStats := by
  rcases creditOwner_cases b propertyName rent with ⟨-, h⟩ | ⟨j, owner, -, -, -, h⟩
  · rw [h]; exact ⟨rfl, rfl⟩
  · rw [h]; exact ⟨rfl, rfl⟩

/-- The bankruptcy check of the rent branch leaves the ledger and the statistics alone. -/
theorem markBankruptAfterRent_ledger_stats (b : Board) (i : Nat) :
    (markBankruptAfterRent b i).hashedPropertyOwners = b.hashedPropertyOwners ∧
    (markBankruptAfterRent b i).gameStats = b.gameStats := by
  unfold markBankruptAfterRent
  cases b.players[i]? with
  | none => exact ⟨rfl, rfl⟩
  | some player =>
    dsimp only
    split_ifs <;> exact ⟨rfl, rfl⟩

/-- The post-move phase leaves the ledger and the statistics alone. -/
theorem postMoveAction_ledger_stats (b : Board) (i : Nat) (inp : TurnInput) :
    (postMoveAction b i inp).hashedPropertyOwners = b.hashedPropertyOwners ∧
    (postMoveAction b i inp).gameStats = b.gameStats := by
  unfold postMoveAction
  cases hp : b.players[i]? with
  | none => exact ⟨rfl, rfl⟩
  | some player =>
    dsimp only
    split_ifs
    · unfold upgradeProperty
      rw [hp]
      dsimp only
      split_ifs <;> exact ⟨rfl, rfl⟩
    · unfold mortgageProperty
      rw [hp]
      dsimp only
      split_ifs <;> exact ⟨rfl, rfl⟩
    all_goals exact ⟨rfl, rfl⟩

/-- The last bankruptcy check leaves the ledger and the statistics alone. -/
theorem finalBankruptcyCheck_ledger_stats (b : Board) (i : Nat) :
    (finalBankruptcyCheck b i).hashedPropertyOwners = b.hashedPropertyOwners ∧
    (finalBankruptcyCheck b i).gameStats = b.gameStats := by
  unfold finalBankruptcyCheck
  cases b.players[i]? with
  | none => exact ⟨rfl, rfl⟩
  | some player =>
    dsimp only
    split_ifs <;> exact ⟨rfl, rfl⟩

/-- The space-resolution phase keeps the ledger and the counter in agreement. -/
theorem spaceResolution_counted (b : Board) (i : Nat) (inp : TurnInput) (b3 : Board)
    (hnamed : AllNamed b) (htab : TablesFresh b) (h : Counted b)
    (hret : spaceResolution b i inp = some b3) : Counted b3 := by
  unfold spaceResolution at hret
  cases hp : b.players[i]? with
  | none => rw [hp] at hret; simp at hret
  | some player =>
    rw [hp] at hret
    dsimp only at hret
    have hspec := spaceBranch_spec b player inp.buyChoice
    cases hbr : spaceBranch b player inp.buyChoice with
    | nonProperty =>
      rw [hbr] at hret
      obtain rfl : b = b3 := by simpa using hret
      exact h
    | ownedBySelf propertyName =>
      rw [hbr] at hret
      obtain rfl : b = b3 := by simpa using hret
      exact h
    | purchase propertyName =>
      rw [hbr] at hret hspec
      obtain rfl : purchaseProperty b i player propertyName = b3 := by simpa using hret
      have hmem : propertyName ∈ propertyNames :=
        new_properties_mem player.position propertyName (by rw [← htab.1]; exact hspec.1)
      exact counted_of_acquire b _ propertyName player.name hmem hspec.2.1
        (hnamed player (List.mem_iff_getElem?.2 ⟨i, hp⟩)) rfl rfl h
    | auction propertyName =>
      rw [hbr] at hret hspec
      obtain rfl : auctionProperty b propertyName inp.auctionInput = b3 := by simpa using hret
      have hmem : propertyName ∈ propertyNames :=
        new_properties_mem player.position propertyName (by rw [← htab.1]; exact hspec.1)
      rcases auctionProperty_cases b propertyName inp.auctionInput
        with hsame | ⟨w, winner, bid, hw, hname, hset⟩
      · rw [hsame]; exact h
      · rw [hset]
        exact counted_of_acquire b _ propertyName winner.name hmem hspec.2.1 hname rfl rfl h
    | rent propertyName =>
      rw [hbr] at hret
      dsimp only at hret
      unfold payRent at hret
      cases hr : rentDue b player propertyName with
      | none => rw [hr] at hret; simp at hret
      | some rent =>
        rw [hr] at hret
        obtain rfl : markBankruptAfterRent (rentTransfer b i player propertyName rent) i = b3 := by
          simpa using hret
        obtain ⟨h1, h2⟩ := markBankruptAfterRent_ledger_stats
          (rentTransfer b i player propertyName rent) i
        obtain ⟨h3, h4⟩ := creditOwner_ledger_stats
          { b.setPlayer i { player with money := player.money - rent } with
            gameStats := b.gameStats.recordRentPaid } propertyName rent
        refine counted_of_same b _ ?_ ?_ h
        · rw [h1]; unfold rentTransfer; rw [h3]; rfl
        · rw [h2]; unfold rentTransfer; rw [h4]; rfl

/-- A returning turn keeps the ledger and the counter in agreement. -/
theorem handleTurn_counted (b : Board) (i : Nat) (inp : TurnInput) (b' : Board)
    (hnamed : AllNamed b) (htab : TablesFresh b) (h : Counted b)
    (hret : handleTurn b i inp = some b') : Counted b' := by
  unfold handleTurn at hret
  cases hp : b.players[i]? with
  | none => rw [hp] at hret; simp at hret
  | some player =>
    rw [hp] at hret
    dsimp only at hret
    split_ifs at hret with hb
    · obtain rfl : b = b' := by simpa using hret
      exact h
    · unfold turnPhases at hret
      cases hs : spaceResolution (moveStart b i player inp) i inp with
      | none => rw [hs] at hret; simp at hret
      | some b3 =>
        rw [hs] at hret
        obtain rfl : checkAndRemoveBankruptPlayers
            (finalBankruptcyCheck (postMoveAction b3 i inp) i) = b' := by simpa using hret
        have hsteps := moveStart_steps b i player inp hp
        have h2 : Counted (moveStart b i player inp) := counted_of_same b _ rfl rfl h
        have h3 : Counted b3 := spaceResolution_counted _ i inp b3
          (steps_allNamed hsteps hnamed) (steps_tablesFresh hsteps htab) h2 hs
        obtain ⟨p1, p2⟩ := postMoveAction_ledger_stats b3 i inp
        obtain ⟨f1, f2⟩ := finalBankruptcyCheck_ledger_stats (postMoveAction b3 i inp) i
        refine counted_of_same b3 _ ?_ ?_ h3
        · show (finalBankruptcyCheck (postMoveAction b3 i inp) i).hashedPropertyOwners = _
          rw [f1, p1]
        · show (finalBankruptcyCheck (postMoveAction b3 i inp) i).gameStats.totalPropertiesBought
            = _
          rw [f2, p2]

/-- C25: in every state reachable from a fresh board by `addPlayer` calls with non-empty
names followed by `handleTurn` calls, `gameStats.totalPropertiesBought` equals the number
of board properties that `hashedPropertyOwners` maps to a non-empty owner name, and the
ledger names an owner for no other key. -/
theorem reachable_counted (roster : List (String × Bool)) (b : Board)
    (hne : ∀ e ∈ roster, e.1 ≠ "") (hr : Reachable roster b) :
    b.gameStats.totalPropertiesBought = (ownedCount b : Int) ∧
    ∀ q, b.hashedPropertyOwners q ≠ "" → q ∈ propertyNames := by
  have key : ∀ (ts : List (Nat × TurnInput)) (c c' : Board),
      AllNamed c → TablesFresh c → Counted c → runTurns c ts = some c' → Counted c' := by
    intro ts
    induction ts with
    | nil =>
      intro c c' _ _ h hrun
      obtain rfl : c = c' := by simpa [runTurns] using hrun
      exact h
    | cons t ts ih =>
      intro c c' hn ht h hrun
      unfold runTurns at hrun
      cases hc : handleTurn c t.1 t.2 with
      | none => rw [hc] at hrun; simp at hrun
      | some c1 =>
        rw [hc] at hrun
        have hsteps := handleTurn_steps c t.1 t.2 c1 hc
        exact ih c1 c' (steps_allNamed hsteps hn) (steps_tablesFresh hsteps ht)
          (handleTurn_counted c t.1 t.2 c1 hn ht h hc) hrun
  obtain ⟨turns, hrun⟩ := hr
  have hstart_named : AllNamed (addPlayers Board.new roster) := by
    intro p hp
    rw [addPlayers_new_players] at hp
    obtain ⟨e, he, rfl⟩ := List.mem_map.1 hp
    exact hne e he
  have hled : ∀ q, (addPlayers Board.new roster).hashedPropertyOwners q = "" := by
    intro q
    rw [(addPlayers_spec roster Board.new).2.1]
    exact new_hashedPropertyOwners q
  have hstart : Counted (addPlayers Board.new roster) := by
    refine ⟨?_, ?_⟩
    · rw [(addPlayers_spec roster Board.new).2.2.2.2.2]
      unfold ownedCount
      have hz : propertyNames.countP
          (fun q => decide ((addPlayers Board.new roster).hashedPropertyOwners q ≠ "")) = 0 := by
        rw [List.countP_eq_zero]
        intro q _
        simp [hled q]
      rw [hz]
      rfl
    · intro q hq
      exact absurd (hled q) hq
  exact key turns _ b hstart_named (addPlayers_new_tablesFresh roster) hstart hrun

/-- C25 on the board reached when the human of a two-player game has bought Mediterranean
Avenue: one purchase is counted and one property has an owner. -/
theorem reachable_counted_witness :
    buyerBoard.gameStats.totalPropertiesBought = 1 ∧ ownedCount buyerBoard = 1 := by
  have h := (reachable_counted [("H", false), ("A", true)] buyerBoard (by decide)
    ⟨[(0, buyInput)], rfl⟩).1
  have hc : ownedCount buyerBoard = 1 := by decide
  rw [hc] at h
  exact ⟨h, hc⟩

/-! ## Vector accesses with `int` indices -/

/-- The access at a natural index. -/
theorem getAt_natCast (l : List Player) (n : Nat) : getAt l (n : Int) = l[n]? := by
  simp [getAt]

/-- The access at a negative index is outside the vector. -/
theorem getAt_neg (l : List Player) (k : Int) (hk : k < 0) : getAt l k = none := by
  simp [getAt, not_le.2 hk]

/-- A successful access is inside the vector. -/
theorem getAt_range (l : List Player) (k : Int) (x : Player) (h : getAt l k = some x) :
    0 ≤ k ∧ k < (l.length : Int) := by
  by_cases hk : 0 ≤ k
  · obtain ⟨n, rfl⟩ := Int.eq_ofNat_of_zero_le hk
    rw [getAt_natCast] at h
    have := (List.getElem?_eq_some.1 h).1
    exact ⟨hk, by exact_mod_cast this⟩
  · rw [getAt_neg l k (not_le.1 hk)] at h
    exact Option.noConfusion h

/-- An access inside the vector succeeds. -/
theorem getAt_of_range (l : List Player) (k : Int) (h0 : 0 ≤ k) (hk : k < (l.length : Int)) :
    ∃ x, getAt l k = some x := by
  obtain ⟨n, rfl⟩ := Int.eq_ofNat_of_zero_le h0
  have hn : n < l.length := by exact_mod_cast hk
  exact ⟨l[n], by rw [getAt_natCast]; exact List.getElem?_eq_getElem hn⟩

/-- Putting the element of a later position in front and a new element in its place is a
permutation of the list with the new element in front. -/
theorem perm_cons_set {α : Type} :
    ∀ (l : List α) (n : Nat) (x y : α), l[n]? = some y → (y :: l.set n x).Perm (x :: l) := by
  intro l
  induction l with
  | nil => intro n x y h; simp at h
  | cons a t ih =>
    intro n x y h
    cases n with
    | zero =>
      obtain rfl : a = y := by simpa using h
      exact List.Perm.swap x a t
    | succ n =>
      have ht : t[n]? = some y := by simpa using h
      have h1 : (y :: a :: t.set n x).Perm (a :: y :: t.set n x) := List.Perm.swap a y _
      have h2 : (a :: y :: t.set n x).Perm (a :: x :: t) := (ih n x y ht).cons a
      have h3 : (a :: x :: t).Perm (x :: a :: t) := List.Perm.swap x a t
      exact (h1.trans h2).trans h3

/-- Exchanging the elements of two positions, the first before the second, is a
permutation. -/
theorem perm_set_set_lt {α : Type} :
    ∀ (l : List α) (m d : Nat) (x y : α), l[m]? = some x → l[m + 1 + d]? = some y →
      ((l.set m y).set (m + 1 + d) x).Perm l := by
  intro l
  induction l with
  | nil => intro m d x y h; simp at h
  | cons a t ih =>
    intro m d x y hx hy
    cases m with
    | zero =>
      obtain rfl : a = x := by simpa using hx
      have hy' : t[d]? = some y := by
        rw [show 0 + 1 + d = d + 1 by omega] at hy
        simpa using hy
      rw [show 0 + 1 + d = d + 1 by omega]
      exact perm_cons_set t d a y hy'
    | succ m =>
      have hx' : t[m]? = some x := by simpa using hx
      have hy' : t[m + 1 + d]? = some y := by
        rw [show m + 1 + 1 + d = (m + 1 + d) + 1 by omega] at hy
        simpa using hy
      rw [show m + 1 + 1 + d = (m + 1 + d) + 1 by omega]
      exact (ih m d x y hx' hy').cons a

/-- Exchanging the elements of two positions is a permutation. -/
theorem perm_set_set {α : Type} (l : List α) (m n : Nat) (x y : α)
    (hx : l[m]? = some x) (hy : l[n]? = some y) : ((l.set m y).set n x).Perm l := by
  rcases Nat.lt_trichotomy m n with h | h | h
  · obtain ⟨d, rfl⟩ : ∃ d, n = m + 1 + d := ⟨n - m - 1, by omega⟩
    exact perm_set_set_lt l m d x y hx hy
  · subst h
    obtain rfl : x = y := by rw [hx] at hy; exact Option.some.inj hy
    rw [List.set_set]
    have : l.set m x = l := by
      apply List.ext_getElem?
      intro j
      by_cases hj : m = j
      · subst hj
        rw [List.getElem?_set_self (List.getElem?_eq_some.1 hx).1, hx]
      · rw [List.getElem?_set_ne hj]
    rw [this]
  · obtain ⟨d, rfl⟩ : ∃ d, m = n + 1 + d := ⟨m - n - 1, by omega⟩
    rw [List.set_comm y x l (by omega)]
    exact perm_set_set_lt l n d y x hy hx

/-- The exchange of two elements inside the vector succeeds; it keeps the length, permutes
the vector and exchanges the two accesses. -/
theorem swapAt_spec (l : List Player) (a b : Int)
    (ha0 : 0 ≤ a) (ha : a < (l.length : Int)) (hb0 : 0 ≤ b) (hb : b < (l.length : Int)) :
    ∃ q, swapAt l a b = some q ∧ q.length = l.length ∧ q.Perm l ∧
      ∀ k, getAt q k
        = if k = b then getAt l a else if k = a then getAt l b else getAt l k := by
  obtain ⟨m, rfl⟩ := Int.eq_ofNat_of_zero_le ha0
  obtain ⟨n, rfl⟩ := Int.eq_ofNat_of_zero_le hb0
  have hm : m < l.length := by exact_mod_cast ha
  have hn : n < l.length := by exact_mod_cast hb
  have hx : l[m]? = some l[m] := List.getElem?_eq_getElem hm
  have hy : l[n]? = some l[n] := List.getElem?_eq_getElem hn
  refine ⟨(l.set m l[n]).set n l[m], ?_, ?_, perm_set_set l m n _ _ hx hy, ?_⟩
  · simp [swapAt, getAt_natCast, hx, hy]
  · simp
  · intro k
    by_cases hk : 0 ≤ k
    · obtain ⟨j, rfl⟩ := Int.eq_ofNat_of_zero_le hk
      simp only [getAt_natCast, Nat.cast_inj]
      rw [List.getElem?_set, List.getElem?_set]
      by_cases h1 : n = j
      · subst h1
        simp [hn, hx]
      · have h1' : ¬ j = n := fun e => h1 e.symm
        rw [if_neg h1, if_neg h1']
        by_cases h2 : m = j
        · subst h2
          simp [hm, hy]
        · have h2' : ¬ j = m := fun e => h2 e.symm
          rw [if_neg h2, if_neg h2']
    · have hk' : k < 0 := not_le.1 hk
      have h1 : ¬ k = (n : Int) := by omega
      have h2 : ¬ k = (m : Int) := by omega
      rw [if_neg h1, if_neg h2, getAt_neg _ k hk', getAt_neg _ k hk']

/-! ## The partition -/

/-- The loop of `partition`, started with every element of `[low, i]` above the pivot and
every element of `(i, j)` not above it, returns; it permutes the elements of
`[low, high)` among themselves and leaves the elements above the pivot in `[low, i']` and
the others in `(i', high)`. -/
theorem partitionLoop_spec (pivot low high : Int) (hlow : 0 ≤ low) :
    ∀ (n : Nat) (pvec : List Player) (i j : Int),
      low - 1 ≤ i → i < j → j + (n : Int) = high → high < (pvec.length : Int) →
      (∀ k x, low ≤ k → k ≤ i → getAt pvec k = some x → x.money > pivot) →
      (∀ k x, i < k → k < j → getAt pvec k = some x → x.money ≤ pivot) →
      ∃ q i', partitionLoop pivot n pvec i j = some (q, i') ∧
        q.length = pvec.length ∧ q.Perm pvec ∧ low - 1 ≤ i' ∧ i' < high ∧
        (∀ k, (k < low ∨ high ≤ k) → getAt q k = getAt pvec k) ∧
        (∀ k, low ≤ k → k < high →
          ∃ k', low ≤ k' ∧ k' < high ∧ getAt q k = getAt pvec k') ∧
        (∀ k x, low ≤ k → k ≤ i' → getAt q k = some x → x.money > pivot) ∧
        (∀ k x, i' < k → k < high → getAt q k = some x → x.money ≤ pivot) := by
  intro n
  induction n with
  | zero =>
    intro pvec i j hi hij hjn _ hgt hle
    have hj : j = high := by simpa using hjn
    subst hj
    exact ⟨pvec, i, rfl, rfl, List.Perm.refl _, hi, hij, fun _ _ => rfl,
      fun k h1 h2 => ⟨k, h1, h2, rfl⟩, hgt, hle⟩
  | succ n ih =>
    intro pvec i j hi hij hjn hlen hgt hle
    have hjh : j < high := by push_cast at hjn; omega
    obtain ⟨pj, hpj⟩ := getAt_of_range pvec j (by omega) (by omega)
    by_cases hbig : pj.money > pivot
    · obtain ⟨q1, hswap, hlen1, hperm1, hget1⟩ :=
        swapAt_spec pvec (i + 1) j (by omega) (by omega) (by omega) (by omega)
      have hgt1 : ∀ k x, low ≤ k → k ≤ i + 1 → getAt q1 k = some x → x.money > pivot := by
        intro k x h1 h2 hx
        rw [hget1 k] at hx
        by_cases hkj : k = j
        · rw [if_pos hkj] at hx
          have : i + 1 = j := by omega
          rw [this, hpj] at hx
          rw [← Option.some.inj hx]; exact hbig
        · rw [if_neg hkj] at hx
          by_cases hki : k = i + 1
          · rw [if_pos hki, hpj] at hx
            rw [← Option.some.inj hx]; exact hbig
          · rw [if_neg hki] at hx
            exact hgt k x h1 (by omega) hx
      have hle1 : ∀ k x, i + 1 < k → k < j + 1 → getAt q1 k = some x → x.money ≤ pivot := by
        intro k x h1 h2 hx
        rw [hget1 k] at hx
        by_cases hkj : k = j
        · rw [if_pos hkj] at hx
          exact hle (i + 1) x (by omega) (by omega) hx
        · rw [if_neg hkj, if_neg (by omega)] at hx
          exact hle k x (by omega) (by omega) hx
      obtain ⟨q, i', hrun, hlenq, hpermq, hi', hi'h, hframe, horigin, hgtq, hleq⟩ :=
        ih q1 (i + 1) (j + 1) (by omega) (by omega) (by push_cast at hjn; omega)
          (by rw [hlen1]; exact hlen) hgt1 hle1
      refine ⟨q, i', ?_, by rw [hlenq, hlen1], hpermq.trans hperm1, hi', hi'h, ?_, ?_,
        hgtq, hleq⟩
      · simp only [partitionLoop, hpj, if_pos hbig, hswap, hrun]
      · intro k hk
        rw [hframe k hk, hget1 k, if_neg (by omega), if_neg (by omega)]
      · intro k h1 h2
        obtain ⟨k1, h3, h4, hk1⟩ := horigin k h1 h2
        rw [hk1, hget1 k1]
        by_cases hkj : k1 = j
        · rw [if_pos hkj]
          exact ⟨i + 1, by omega, by omega, rfl⟩
        · rw [if_neg hkj]
          by_cases hki : k1 = i + 1
          · rw [if_pos hki]
            exact ⟨j, by omega, by omega, rfl⟩
          · rw [if_neg hki]
            exact ⟨k1, h3, h4, rfl⟩
    · have hle1 : ∀ k x, i < k → k < j + 1 → getAt pvec k = some x → x.money ≤ pivot := by
        intro k x h1 h2 hx
        by_cases hkj : k = j
        · rw [hkj, hpj] at hx
          rw [← Option.some.inj hx]; exact not_lt.1 hbig
        · exact hle k x h1 (by omega) hx
      obtain ⟨q, i', hrun, hlenq, hpermq, hi', hi'h, hframe, horigin, hgtq, hleq⟩ :=
        ih pvec i (j + 1) hi (by omega) (by push_cast at hjn; omega) hlen hgt hle1
      refine ⟨q, i', ?_, hlenq, hpermq, hi', hi'h, hframe, horigin, hgtq, hleq⟩
      simp only [partitionLoop, hpj, if_neg hbig, hrun]

/-- `partition` on a range inside the vector returns an index `pi` of the range; it
permutes the elements of `[low, high]` among themselves, puts the pivot value at `pi`,
the elements above it in `[low, pi)` and the others in `(pi, high]`. -/
theorem partition_spec (pvec : List Player) (low high : Int)
    (hlow : 0 ≤ low) (hlh : low ≤ high) (hhigh : high < (pvec.length : Int)) :
    ∃ q pi pivot, partition pvec low high = some (q, pi) ∧
      q.length = pvec.length ∧ q.Perm pvec ∧ low ≤ pi ∧ pi ≤ high ∧
      (∀ k, (k < low ∨ high < k) → getAt q k = getAt pvec k) ∧
      (∀ k, low ≤ k → k ≤ high →
        ∃ k', low ≤ k' ∧ k' ≤ high ∧ getAt q k = getAt pvec k') ∧
      (∀ k x, low ≤ k → k < pi → getAt q k = some x → x.money > pivot) ∧
      (∀ x, getAt q pi = some x → x.money = pivot) ∧
      (∀ k x, pi < k → k ≤ high → getAt q k = some x → x.money ≤ pivot) := by
  obtain ⟨last, hlast⟩ := getAt_of_range pvec high (by omega) hhigh
  obtain ⟨q1, i, hrun, hlen1, hperm1, hi, hih, hframe1, horigin1, hgt1, hle1⟩ :=
    partitionLoop_spec last.money low high hlow (high - low).toNat pvec (low - 1) low
      (le_refl _) (by omega) (by omega) hhigh
      (fun k x h1 h2 _ => absurd h2 (by omega))
      (fun k x h1 h2 _ => absurd h2 (by omega))
  obtain ⟨q2, hswap, hlen2, hperm2, hget2⟩ :=
    swapAt_spec q1 (i + 1) high (by omega) (by omega) (by omega) (by omega)
  have hlast1 : getAt q1 high = some last := by
    rw [hframe1 high (Or.inr (le_refl _))]; exact hlast
  refine ⟨q2, i + 1, last.money, ?_, by rw [hlen2, hlen1], hperm2.trans hperm1,
    by omega, by omega, ?_, ?_, ?_, ?_, ?_⟩
  · simp only [partition, hlast, hrun, hswap]
  · intro k hk
    rw [hget2 k, if_neg (by omega), if_neg (by omega)]
    exact hframe1 k (by omega)
  · intro k h1 h2
    rw [hget2 k]
    by_cases hkh : k = high
    · rw [if_pos hkh]
      by_cases hsame : i + 1 = high
      · rw [hsame, hframe1 high (Or.inr (le_refl _))]
        exact ⟨high, hlh, le_refl _, rfl⟩
      · obtain ⟨k', h3, h4, hk'⟩ := horigin1 (i + 1) (by omega) (by omega)
        exact ⟨k', h3, by omega, hk'⟩
    · rw [if_neg hkh]
      by_cases hki : k = i + 1
      · rw [if_pos hki, hframe1 high (Or.inr (le_refl _))]
        exact ⟨high, hlh, le_refl _, rfl⟩
      · rw [if_neg hki]
        obtain ⟨k', h3, h4, hk'⟩ := horigin1 k h1 (by omega)
        exact ⟨k', h3, by omega, hk'⟩
  · intro k x h1 h2 hx
    rw [hget2 k, if_neg (by omega), if_neg (by omega)] at hx
    exact hgt1 k x h1 (by omega) hx
  · intro x hx
    rw [hget2 (i + 1)] at hx
    by_cases hsame : i + 1 = high
    · rw [if_pos hsame, hsame, hlast1] at hx
      rw [← Option.some.inj hx]
    · rw [if_neg hsame, if_pos rfl, hlast1] at hx
      rw [← Option.some.inj hx]
  · intro k x h1 h2 hx
    rw [hget2 k] at hx
    by_cases hkh : k = high
    · rw [if_pos hkh] at hx
      exact hle1 (i + 1) x (by omega) (by omega) hx
    · rw [if_neg hkh, if_neg (by omega)] at hx
      exact hle1 k x (by omega) (by omega) hx

/-! ## Quicksort -/

/-- `quickSortPlayers` on a range inside the vector, with more fuel than the length of the
range, returns; it permutes the elements of `[low, high]` among themselves, leaves the
rest of the vector alone and leaves the range ordered by non-increasing money. -/
theorem quickSortFuel_spec :
    ∀ (fuel : Nat) (pvec : List Player) (low high : Int),
      0 ≤ low → high < (pvec.length : Int) → (high - low).toNat < fuel →
      ∃ r, quickSortFuel fuel pvec low high = some r ∧
        r.length = pvec.length ∧ r.Perm pvec ∧
        (∀ k, (k < low ∨ high < k) → getAt r k = getAt pvec k) ∧
        (∀ k, low ≤ k → k ≤ high →
          ∃ k', low ≤ k' ∧ k' ≤ high ∧ getAt r k = getAt pvec k') ∧
        (∀ a b x y, low ≤ a → a < b → b ≤ high →
          getAt r a = some x → getAt r b = some y → x.money ≥ y.money) := by
  intro fuel
  induction fuel with
  | zero => intro pvec low high _ _ h; exact absurd h (Nat.not_lt_zero _)
  | succ f ih =>
    intro pvec low high hlow hhigh hfuel
    by_cases hlt : low < high
    · obtain ⟨q, pi, pivot, hpart, hlenq, hpermq, hlpi, hpih, hframeq, horiginq,
        hgtq, hmidq, hleq⟩ := partition_spec pvec low high hlow (le_of_lt hlt) hhigh
      obtain ⟨r1, hrun1, hlen1, hperm1, hframe1, horigin1, hsorted1⟩ :=
        ih q low (pi - 1) hlow (by omega) (by omega)
      obtain ⟨r2, hrun2, hlen2, hperm2, hframe2, horigin2, hsorted2⟩ :=
        ih r1 (pi + 1) high (by omega) (by omega) (by omega)
      -- where the elements of the three parts come from
      have hleft : ∀ k x, low ≤ k → k < pi → getAt r2 k = some x → x.money > pivot := by
        intro k x h1 h2 hx
        rw [hframe2 k (Or.inl (by omega))] at hx
        obtain ⟨k1, h3, h4, hk1⟩ := horigin1 k h1 (by omega)
        rw [hk1] at hx
        exact hgtq k1 x h3 (by omega) hx
      have hmid : ∀ x, getAt r2 pi = some x → x.money = pivot := by
        intro x hx
        rw [hframe2 pi (Or.inl (by omega)), hframe1 pi (Or.inr (by omega))] at hx
        exact hmidq x hx
      have hright : ∀ k x, pi < k → k ≤ high → getAt r2 k = some x → x.money ≤ pivot := by
        intro k x h1 h2 hx
        obtain ⟨k2, h3, h4, hk2⟩ := horigin2 k (by omega) h2
        rw [hk2, hframe1 k2 (Or.inr (by omega))] at hx
        exact hleq k2 x (by omega) h4 hx
      refine ⟨r2, ?_, by rw [hlen2, hlen1, hlenq], (hperm2.trans hperm1).trans hpermq,
        ?_, ?_, ?_⟩
      · simp only [quickSortFuel, if_pos hlt, hpart, hrun1, hrun2]
      · intro k hk
        rw [hframe2 k (by omega), hframe1 k (by omega)]
        exact hframeq k hk
      · intro k h1 h2
        by_cases hk : k ≤ pi
        · rw [hframe2 k (Or.inl (by omega))]
          by_cases hkpi : k = pi
          · rw [hkpi, hframe1 pi (Or.inr (by omega))]
            exact horiginq pi hlpi hpih
          · obtain ⟨k1, h3, h4, hk1⟩ := horigin1 k h1 (by omega)
            rw [hk1]
            exact horiginq k1 h3 (by omega)
        · obtain ⟨k2, h3, h4, hk2⟩ := horigin2 k (by omega) h2
          rw [hk2, hframe1 k2 (Or.inr (by omega))]
          exact horiginq k2 (by omega) h4
      · intro a b x y h1 h2 h3 hx hy
        by_cases hb : b < pi
        · rw [hframe2 a (Or.inl (by omega))] at hx
          rw [hframe2 b (Or.inl (by omega))] at hy
          exact hsorted1 a b x y h1 h2 (by omega) hx hy
        · by_cases ha : pi < a
          · exact hsorted2 a b x y (by omega) h2 h3 hx hy
          · have hxp : x.money ≥ pivot := by
              by_cases hapi : a = pi
              · rw [hapi] at hx
                exact le_of_eq (hmid x hx).symm
              · exact le_of_lt (hleft a x h1 (by omega) hx)
            have hyp : y.money ≤ pivot := by
              by_cases hbpi : b = pi
              · rw [hbpi] at hy
                exact le_of_eq (hmid y hy)
              · exact hright b y (by omega) h3 hy
            exact le_trans hyp hxp
    · refine ⟨pvec, ?_, rfl, List.Perm.refl _, fun _ _ => rfl,
        fun k h1 h2 => ⟨k, h1, h2, rfl⟩, ?_⟩
      · simp only [quickSortFuel, if_neg hlt]
      · intro a b x y h1 h2 h3 _ _
        exact absurd (show low < high by omega) hlt

/-- C24: for every vector of players of length `n`, `quickSortPlayers(pvec, 0, n - 1)`
returns, and the vector it leaves is a permutation of the input ordered by non-increasing
money; the empty vector is left unchanged. -/
theorem quickSortPlayers_sorts (pvec : List Player) :
    (∃ r, quickSortPlayers pvec 0 ((pvec.length : Int) - 1) = some r ∧ r.Perm pvec ∧
      r.Pairwise (fun x y => x.money ≥ y.money) ∧
      ∀ (i j : Nat) (hi : i < r.length) (hj : j < r.length), i < j →
        r[i].money ≥ r[j].money) ∧
    quickSortPlayers [] 0 (((([] : List Player).length : Nat) : Int) - 1) = some [] := by
  refine ⟨?_, rfl⟩
  obtain ⟨r, hrun, hlen, hperm, -, -, hsorted⟩ :=
    quickSortFuel_spec (((pvec.length : Int) - 1 - 0).toNat + 1) pvec 0
      ((pvec.length : Int) - 1) (le_refl _) (by omega) (Nat.lt_succ_self _)
  have hidx : ∀ (i j : Nat) (hi : i < r.length) (hj : j < r.length), i < j →
      r[i].money ≥ r[j].money := by
    intro i j hi hj hij
    refine hsorted (i : Int) (j : Int) r[i] r[j] (by omega) (by omega) (by omega) ?_ ?_
    · rw [getAt_natCast]; exact List.getElem?_eq_getElem hi
    · rw [getAt_natCast]; exact List.getElem?_eq_getElem hj
  exact ⟨r, hrun, hperm, List.pairwise_iff_getElem.2 hidx, hidx⟩

/-- The sort of five players with balances 100, 300, 200, 300 and 50. -/
theorem quickSortPlayers_fivePlayers :
    (quickSortPlayers fivePlayers 0 4).map (fun r => r.map (fun p => (p.name, p.money)))
      = some [("d", 300), ("b", 300), ("c", 200), ("a", 100), ("e", 50)] := by
  decide

end Monopoly
